import Mathlib

/-!
Verification of the section-tree engine of `markdown_reader`
(`src/markdown_reader/markdown_file.py`).

The Python code mutates a graph of `MarkdownSection` objects that alias each
other (the document registry, parent pointers and child dictionaries all point
to the same heap objects, and the re-parse step reuses old nodes in place), so
the embedding models the heap explicitly: a store of nodes addressed by
numeric ids, with every operation translated line by line from the source as a
state transformer.  Python strings are modelled as `List Char`; the string
methods used by the source (`splitlines`, `strip`, `startswith`, `replace`,
`lower`, `title`, `join`) are defined below on that representation.  The model
splits lines on `'\n'` only; all inputs considered here use no other line
terminator, so this agrees with Python's `splitlines`.

Python `assert` failures and attribute errors are modelled as values of `Err`;
a mutating operation returns the error together with the state at the moment
the exception was raised, mirroring the fact that a Python exception leaves
all mutations performed so far in place.
-/

namespace MarkdownReader

/-! ## Python string primitives -/

/-- Python strings, modelled as lists of characters. -/
abbrev PyStr := List Char

/-- Coerce a Lean string literal to the model representation. -/
def pys (s : String) : PyStr := s.data

/-- Characters Python's default `str.strip` removes (ASCII whitespace). -/
def isPySpace (c : Char) : Bool :=
  c = ' ' || c = '\t' || c = '\n' || c = '\r' || c = '\x0b' || c = '\x0c'

/-- Python `s.strip()`: drop whitespace from both ends. -/
def pyStrip (s : PyStr) : PyStr :=
  ((s.dropWhile isPySpace).reverse.dropWhile isPySpace).reverse

/-- Python `s.lower()` (ASCII). -/
def pyLower (s : PyStr) : PyStr := s.map Char.toLower

/-- Helper for `pyTitle`: the boolean records whether the previous character
was alphabetic. -/
def pyTitleAux : Bool → PyStr → PyStr
  | _, [] => []
  | prev, c :: rest =>
    (if c.isAlpha then (if prev then c.toLower else c.toUpper) else c)
      :: pyTitleAux c.isAlpha rest

/-- Python `s.title()` (ASCII): a letter is uppercased when the previous
character is not a letter, lowercased otherwise. -/
def pyTitle (s : PyStr) : PyStr := pyTitleAux false s

/-- Python `s.startswith(p)`. -/
def pyStarts (p s : PyStr) : Bool := p.isPrefixOf s

/-- The code-fence delimiter string. -/
def fenceStr : PyStr := pys "```"

/-- The heading marker string. -/
def hashStr : PyStr := pys "#"

/-- Helper for `splitlines`: `acc` holds the current line reversed. -/
def pySplitKeepAux : PyStr → PyStr → List PyStr
  | [], acc => if acc.isEmpty then [] else [acc.reverse]
  | c :: rest, acc =>
    if c = '\n' then (acc.reverse ++ ['\n']) :: pySplitKeepAux rest []
    else pySplitKeepAux rest (c :: acc)

/-- Python `s.splitlines(keepends=True)`, splitting on `'\n'`. -/
def pySplitKeep (s : PyStr) : List PyStr := pySplitKeepAux s []

/-- Helper for `splitlines` without kept line endings. -/
def pySplitAux : PyStr → PyStr → List PyStr
  | [], acc => if acc.isEmpty then [] else [acc.reverse]
  | c :: rest, acc =>
    if c = '\n' then acc.reverse :: pySplitAux rest []
    else pySplitAux rest (c :: acc)

/-- Python `s.splitlines()`, splitting on `'\n'`. -/
def pySplit (s : PyStr) : List PyStr := pySplitAux s []

/-- Python `"\n".join(lines)`. -/
def pyJoinNL (ls : List PyStr) : PyStr :=
  match ls with
  | [] => []
  | l :: rest => rest.foldl (fun acc x => acc ++ '\n' :: x) l

/-- A run of `n` heading markers, Python `"#" * n`. -/
def hashes : Nat → PyStr
  | 0 => []
  | n + 1 => '#' :: hashes n

/-! ## Ordered dictionaries

Python `dict` preserves insertion order; setting an existing key updates the
value in place, setting a new key appends.  Keys here are `PyStr`.
-/

/-- First value stored under `k`, if any. -/
def dlookup {β : Type} (d : List (PyStr × β)) (k : PyStr) : Option β :=
  match d with
  | [] => none
  | (k', v) :: rest => if k' = k then some v else dlookup rest k

/-- Python `k in d`. -/
def dmem {β : Type} (d : List (PyStr × β)) (k : PyStr) : Bool :=
  (dlookup d k).isSome

/-- Python `d[k] = v`: update in place if present, append otherwise. -/
def dinsert {β : Type} (d : List (PyStr × β)) (k : PyStr) (v : β) :
    List (PyStr × β) :=
  match d with
  | [] => [(k, v)]
  | (k', v') :: rest =>
    if k' = k then (k, v) :: rest else (k', v') :: dinsert rest k v

/-- Python `d.pop(k, None)` / `d.pop(k)`: remove the entry for `k`. -/
def dpop {β : Type} (d : List (PyStr × β)) (k : PyStr) : List (PyStr × β) :=
  match d with
  | [] => []
  | (k', v') :: rest =>
    if k' = k then rest else (k', v') :: dpop rest k

/-- Python `d.keys()` in order. -/
def dkeys {β : Type} (d : List (PyStr × β)) : List PyStr := d.map Prod.fst

/-- Python `dict.update`: merge `new` into `old` entry by entry. -/
def dupdate {β : Type} (old new : List (PyStr × β)) : List (PyStr × β) :=
  new.foldl (fun acc kv => dinsert acc kv.1 kv.2) old

/-! ## The heap of sections -/

/-- One `MarkdownSection` object.  `parent` is `none` for the root (and for a
freshly constructed object whose `parent` field has not been assigned yet,
which the source never reads before assigning).  `meta` values are opaque in
the source; they are modelled as strings. -/
structure Node where
  name : PyStr
  level : Nat
  parent : Option Nat
  content : PyStr
  children : List (PyStr × Nat)
  meta : List (PyStr × PyStr)
deriving Repr, DecidableEq

instance : Inhabited Node := ⟨⟨[], 0, none, [], [], []⟩⟩

/-- The object heap: node ids are list indices. -/
abbrev Store := List Node

/-- Read a node (ids used by the source are always valid). -/
def getN (σ : Store) (i : Nat) : Node := σ.getD i default

/-- Replace the node at `i`. -/
def setN (σ : Store) (i : Nat) (n : Node) : Store := σ.set i n

/-- Update the node at `i` in place. -/
def updN (σ : Store) (i : Nat) (f : Node → Node) : Store :=
  σ.set i (f (getN σ i))

/-- The `MarkdownFile` state: heap, current root (`self.header`), the
document-wide registry (`self.all_sections`), the body text held by
`self.frontmatter.content`, and the document name (`self.name`). -/
structure Doc where
  store : Store
  header : Option Nat
  sec : List (PyStr × Nat)
  fm : PyStr
  docName : PyStr
deriving Repr, DecidableEq

/-- Failure modes of the engine.  Python raises `AssertionError` at the
`assert` statements (`multipleRoots`, `invalidNesting`, `nameCollision`,
`ciCollision`, `cannotDeleteRoot`), `AttributeError` when a heading below
level 1 arrives before any root (`noCurrent`), `KeyError` on
`children.pop` of a missing key (`keyError`), and would recurse forever on a
cyclic heap (`walkFuel`, `depthExceeded`, `fallbackLoop` — unreachable for
the tree-shaped states considered here).  `noHeader` models reading the
never-assigned `header` attribute. -/
inductive Err where
  | multipleRoots
  | invalidNesting
  | noCurrent
  | nameCollision
  | ciCollision
  | cannotDeleteRoot
  | keyError
  | walkFuel
  | depthExceeded
  | fallbackLoop
  | noHeader
deriving Repr, DecidableEq

/-! ## `level_and_name` (source lines 279–291)

The loop counts leading `'#'` characters; on the first other character it
sets `name = row.replace("#", "").strip()` and stops (if the row consists
only of `'#'` the name stays `""`, which the formula below also yields). -/

/-- `MarkdownFile.level_and_name`. -/
def level_and_name (row : PyStr) : Nat × PyStr :=
  ((row.takeWhile (fun c => c = '#')).length,
   pyStrip (row.filter (fun c => c ≠ '#')))

/-! ## Nested-heading stripping in `add_section` (source lines 121–133) -/

/-- The loop body of `add_section`'s `remove_subsections` pass: the fence
toggle uses `line.startswith("```")` on the raw line, and a line starting
with `"#"` outside a fence is replaced by `"***name***"`. -/
def stripLines : Bool → List PyStr → List PyStr
  | _, [] => []
  | code, line :: rest =>
    let code' := if pyStarts fenceStr line then !code else code
    if pyStarts hashStr line && !code' then
      (pys "***" ++ (level_and_name line).2 ++ pys "***") :: stripLines code' rest
    else
      line :: stripLines code' rest

/-- The full `remove_subsections` transformation of `content`. -/
def stripContent (content : PyStr) : PyStr :=
  pyJoinNL (stripLines false (pySplit content))

/-! ## `_refresh_tree` (source lines 293–361) -/

/-- Parser state inside `_refresh_tree`: the heap, the registry being rebuilt
(`self.all_sections`), the cursor (`current_section`), `self.header`, the
pending `content` buffer, and the `code` fence flag. -/
structure PSt where
  store : Store
  sec : List (PyStr × Nat)
  current : Option Nat
  header : Option Nat
  content : PyStr
  code : Bool
deriving Repr, DecidableEq

/-- The ancestor walk in `process_section`'s `else` branch:
`while parent_section.level + 1 != new_section.level: parent_section =
parent_section.parent; assert parent_section is not None`.  Fuel bounds the
walk; running out models Python looping on a cyclic heap. -/
def walkUp (σ : Store) : Nat → Nat → Nat → Except Err Nat
  | 0, _, _ => .error .walkFuel
  | fuel + 1, p, lvl =>
    if (getN σ p).level + 1 = lvl then .ok p
    else
      match (getN σ p).parent with
      | none => .error .invalidNesting
      | some q => walkUp σ fuel q lvl

/-- Attach `nid` (named `name`) under parent `p` and make it current:
`new_section.parent = parent; parent.children[name] = new_section;
current_section = new_section; self.all_sections[name] = current_section`. -/
def attachTo (st : PSt) (σ : Store) (p nid : Nat) (name : PyStr) :
    Option Err × PSt :=
  let σ1 := updN σ nid (fun n => { n with parent := some p })
  let σ2 := updN σ1 p (fun n => { n with children := dinsert n.children name nid })
  (none, { st with store := σ2, current := some nid, sec := dinsert st.sec name nid })

/-- `process_section(section_row)`.  `M` is the captured `old_section`
dictionary (the registry as it was when `_refresh_tree` started). -/
def processSection (M : List (PyStr × Nat)) (row : PyStr) (st : PSt) :
    Option Err × PSt :=
  let ln := level_and_name row
  let lvl := ln.1
  let name := ln.2
  -- section reuse: an old section keeps its children/content/meta, only its
  -- level is refreshed; otherwise a fresh node is allocated
  let reused := dlookup M name
  let nid := match reused with
    | some i => i
    | none => st.store.length
  let σ1 := match reused with
    | some i => updN st.store i (fun n => { n with level := lvl })
    | none => st.store ++ [⟨name, lvl, none, [], [], []⟩]
  if lvl = 1 then
    -- assert current_section is None, "There should be only one header"
    if st.current.isSome then (some .multipleRoots, { st with store := σ1 })
    else
      let σ2 := updN σ1 nid (fun n => { n with parent := none })
      let st2 := { st with store := σ2 }
      let st3 := { st2 with current := some nid, header := some nid }
      (none, { st3 with sec := dinsert st.sec name nid })
  else
    match st.current with
    | none => (some .noCurrent, { st with store := σ1 })  -- None.level raises
    | some c =>
      if lvl > (getN σ1 c).level then
        if (getN σ1 c).level + 1 ≠ lvl then
          (some .invalidNesting, { st with store := σ1 })
        else attachTo st σ1 c nid name
      else
        match walkUp σ1 (σ1.length + 1) c lvl with
        | .error e => (some e, { st with store := σ1 })
        | .ok p => attachTo st σ1 p nid name

/-- One iteration of the row loop of `_refresh_tree`. -/
def rowStep (M : List (PyStr × Nat)) (st : PSt) (row : PyStr) :
    Option Err × PSt :=
  let st := if pyStarts fenceStr row then { st with code := !st.code } else st
  if pyStarts hashStr row && !st.code then
    let st1 := match st.current with
      | some c =>
        let σ := updN st.store c (fun n => { n with content := pyStrip st.content })
        { st with store := σ }
      | none => st
    match processSection M row st1 with
    | (some e, st2) => (some e, st2)
    | (none, st2) => (none, { st2 with content := [] })
  else
    (none, { st with content := st.content ++ row })

/-- The row loop; stops at the first raised exception, keeping the state at
that moment. -/
def parseRows (M : List (PyStr × Nat)) : List PyStr → PSt → Option Err × PSt
  | [], st => (none, st)
  | row :: rest, st =>
    match rowStep M st row with
    | (some e, st') => (some e, st')
    | (none, st') => parseRows M rest st'

/-- Write parser state back into the document. -/
def docOf (d : Doc) (st : PSt) : Doc :=
  { d with store := st.store, header := st.header, sec := st.sec }

/-- The scanning part of `_refresh_tree`, up to the final `try` block.  The
boolean result reports whether `current_section` was still `None` at the end
(the `except` branch — root synthesis — is then taken by the caller). -/
def refreshTreeCore (d : Doc) : Option Err × Doc × Bool :=
  let st0 : PSt := ⟨d.store, [], none, d.header, [], false⟩
  match parseRows d.sec (pySplitKeep d.fm) st0 with
  | (some e, st) => (some e, docOf d st, false)
  | (none, st) =>
    match st.current with
    | some c =>
      let σ := updN st.store c (fun n => { n with content := pyStrip st.content })
      (none, docOf d { st with store := σ }, false)
    | none => (none, docOf d st, true)

/-! ## `_refresh_formatter` (source lines 372–393) -/

/-- `make_content`: emit `"#"*level + " " + name`, two newlines, the content
(when non-empty) and two newlines, then recurse into the children in order.
Fuel bounds the recursion depth (Python would overflow its stack on a cyclic
heap). -/
def makeContent (σ : Store) : Nat → Nat → Except Err PyStr
  | 0, _ => .error .depthExceeded
  | fuel + 1, id =>
    let n := getN σ id
    let base := hashes n.level ++ ' ' :: n.name
      ++ (if n.content.isEmpty then [] else '\n' :: '\n' :: n.content)
      ++ ['\n', '\n']
    n.children.foldlM (fun acc kv =>
      (makeContent σ fuel kv.2).map (fun s => acc ++ s)) base

/-- `_refresh_formatter`: linearize the tree under `self.header`. -/
def mkFormatter (d : Doc) : Except Err PyStr :=
  match d.header with
  | none => .error .noHeader
  | some h => makeContent d.store (d.store.length + 1) h

/-! ## `_refresh_tree` with the root-synthesis fallback, and `update` -/

/-- Full `_refresh_tree`.  When the scan saw no heading, the `except` branch
runs: a fresh root named `self.name.title()` is constructed (its `parent`
attribute is never assigned; nothing reads it before the re-parse below
overwrites the header) and `self.save()` re-formats and re-parses.  The
re-parsed text always contains the synthesized level-1 heading, so a second
fallback cannot occur; `fallbackLoop` marks that impossible case. -/
def refreshTree (d : Doc) : Option Err × Doc :=
  match refreshTreeCore d with
  | (some e, d', _) => (some e, d')
  | (none, d', false) => (none, d')
  | (none, d', true) =>
    let hid := d'.store.length
    let d1 : Doc := { d' with
      store := d'.store ++ [⟨pyTitle d.docName, 1, none, [], [], []⟩],
      header := some hid }
    -- self.save(): self.update() then a file write (I/O, outside the model)
    match mkFormatter d1 with
    | .error e => (some e, d1)
    | .ok text =>
      match refreshTreeCore { d1 with fm := text } with
      | (some e, d2, _) => (some e, d2)
      | (none, d2, false) => (none, d2)
      | (none, d2, true) => (some .fallbackLoop, d2)

/-- `MarkdownFile.update` (source lines 395–398): re-format, then re-parse. -/
def updateDoc (d : Doc) : Option Err × Doc :=
  match mkFormatter d with
  | .error e => (some e, d)
  | .ok text => refreshTree { d with fm := text }

/-! ## `MarkdownSection.add_section` (source lines 112–164) -/

/-- The `if_exist` policy. -/
inductive IfExist where
  | replace
  | error
  | changeContent
deriving Repr, DecidableEq

/-- `add_section(name, content, meta, if_exist, remove_subsections)` called on
the section with id `selfId`.  Returns the id of the resulting section, or
the error raised, together with the state at that point. -/
def addSection (d : Doc) (selfId : Nat) (name content : PyStr)
    (meta : List (PyStr × PyStr) := []) (ifx : IfExist := .changeContent)
    (removeSub : Bool := true) : Except Err Nat × Doc :=
  let content := if removeSub then stripContent content else content
  let selfN := getN d.store selfId
  let branch : Except Err (Nat × Store) :=
    match dlookup selfN.children name, ifx with
    | some sid, .changeContent =>
      -- section = self.children[name]; section.content = content;
      -- section.meta.update(meta)
      .ok (sid, updN d.store sid (fun n =>
        { n with content := content, meta := dupdate n.meta meta }))
    | _, _ =>
      -- assert name not in self.file.all_sections.keys()
      --        or if_exist == "replace"
      if !(!(dmem d.sec name) || ifx = .replace) then .error .nameCollision
      -- if name not in all_sections: assert name.lower() not in
      --   map(lambda x: x.lower(), all_sections.keys())
      else if !(dmem d.sec name)
          && ((dkeys d.sec).map pyLower).contains (pyLower name) then
        .error .ciCollision
      else
        .ok (d.store.length,
          d.store ++ [⟨name, selfN.level + 1, some selfId, content, [], meta⟩])
  match branch with
  | .error e => (.error e, d)
  | .ok (sid, σ) =>
    -- self.children.pop(name, None)
    -- self.file.all_sections[name] = self.children[name] = section
    let σ2 := updN σ selfId (fun n =>
      { n with children := dinsert (dpop n.children name) name sid })
    let d1 := { d with store := σ2, sec := dinsert d.sec name sid }
    match updateDoc d1 with
    | (some e, d2) => (.error e, d2)
    | (none, d2) => (.ok sid, d2)

/-! ## `MarkdownFile.delete_section` (source lines 194–204) -/

/-- `delete_section(name)`: no-op when absent; `assert section.parent` raises
when the section is the root; otherwise pop it from its parent's children and
resync. -/
def deleteSection (d : Doc) (name : PyStr) : Option Err × Doc :=
  match dlookup d.sec name with
  | none => (none, d)
  | some id =>
    match (getN d.store id).parent with
    | none => (some .cannotDeleteRoot, d)
    | some p =>
      if !(dmem (getN d.store p).children name) then (some .keyError, d)
      else
        let σ := updN d.store p (fun n => { n with children := dpop n.children name })
        updateDoc { d with store := σ }

/-! ## Document construction -/

/-- `MarkdownFile.__init__` as far as the tree engine is concerned:
`refresh_from_file` loads `text` as the body (front matter is opaque and not
modelled) and runs `_refresh_tree` on an empty registry. -/
def initDoc (docName text : PyStr) : Option Err × Doc :=
  refreshTree { store := [], header := none, sec := [], fm := text,
                docName := docName }

end MarkdownReader

namespace MarkdownReader

/-! ## Concrete mutation traces

Counterexample material: small documents built exclusively through the public
mutation API (`initDoc` for the initial load, then `addSection` /
`deleteSection`).  All computations are closed and are checked by `decide`.
-/

/-- A fresh document loaded from `"# R\n"`. -/
def docR : Doc := (initDoc (pys "doc") (pys "# R\n")).2

/-- `docR` after `add_section("A", "```")` on the root: the fence in the
content is left open. -/
def docRA : Doc := (addSection docR 0 (pys "A") (pys "```")).2

/-- `docRA` after `add_section("B", "x")` on the root.  During this call's own
resync the open fence of `A` swallows the heading of `B`, leaving `B` as a
stale child of the root that is absent from the registry. -/
def docRAB : Doc := (addSection docRA 0 (pys "B") (pys "x")).2

/-- `docR` after `add_section("A", "")` on the root. -/
def docRA2 : Doc := (addSection docR 0 (pys "A") (pys "")).2

/-- `docRA2` after `add_section("a#", "")` on the root: the case-insensitive
collision check compares the raw name `"a#"`, but the resync re-parses its
heading row as `"a"`. -/
def docCI : Doc := (addSection docRA2 0 (pys "a#") (pys "")).2

/-- `docR` after `add_section(" A", "c")` on the root: the resync re-parses
the heading row `"##  A"` as a fresh section named `"A"`, leaving the node
named `" A"` as a stale alias child of the root. -/
def docAlias : Doc := (addSection docR 0 (pys " A") (pys "c")).2

/-- `docRA2` after `add_section("B", "")` on the root: root children `A, B`. -/
def docRAB2 : Doc := (addSection docRA2 0 (pys "B") (pys "")).2

/-- `docRA2` after `add_section("R", "", if_exist="replace")` on section `A`:
the root's own name is re-registered to a new node nested under `A`, and the
resync then reuses that single node for both heading rows, producing a
successful parse whose header has level 3 and a parent. -/
def docCycle : Doc := (addSection docRA2 1 (pys "R") (pys "") [] .replace).2

end MarkdownReader

namespace MarkdownReader

/-! ## Counterexample theorems -/

instance {ε α : Type} [DecidableEq ε] [DecidableEq α] :
    DecidableEq (Except ε α) := fun a b =>
  match a, b with
  | .ok x, .ok y =>
    if h : x = y then .isTrue (by rw [h]) else .isFalse (by simp [h])
  | .error x, .error y =>
    if h : x = y then .isTrue (by rw [h]) else .isFalse (by simp [h])
  | .ok _, .error _ => .isFalse (by simp)
  | .error _, .ok _ => .isFalse (by simp)

set_option maxRecDepth 20000

/-- C1, counterexample.  The document `docRAB` is produced purely through the
public mutation API with default `strip_nested_headings` (load `"# R\n"`, add
`"A"` with content `` "```" ``, add `"B"` with content `"x"`; every call
succeeds).  Re-parsing the linearized text, as `update` does, changes the
content of the section named `"A"`: the re-parsed tree is not isomorphic to
the in-memory tree, so the round-trip law fails. -/
theorem c1_counterexample :
    (initDoc (pys "doc") (pys "# R\n")).1 = none ∧
    (addSection docR 0 (pys "A") (pys "```")).1 = .ok 1 ∧
    (addSection docRA 0 (pys "B") (pys "x")).1 = .ok 2 ∧
    (updateDoc docRAB).1 = none ∧
    (getN (updateDoc docRAB).2.store 1).name = (getN docRAB.store 1).name ∧
    (getN (updateDoc docRAB).2.store 1).content ≠ (getN docRAB.store 1).content := by
  decide

/-- C9, counterexample.  `docRAB` is in a successfully-synced state (its last
mutation ended in a successful `update`).  Two successive resyncs with no
intervening mutation both succeed but give different trees: the section named
`"A"` absorbs the stale `"B"` rows again on every pass. -/
theorem c9_counterexample :
    (updateDoc docRAB).1 = none ∧
    (updateDoc (updateDoc docRAB).2).1 = none ∧
    (getN (updateDoc (updateDoc docRAB).2).2.store 1).content ≠
      (getN (updateDoc docRAB).2.store 1).content := by
  decide

/-- C2, counterexample.  Both `add_section("A")` and `add_section("a#")`
succeed (the case-insensitive check compares the raw `"a#"`), but the resync
re-parses the heading row `"## a#"` as a section named `"a"`: the registry
then holds the two distinct, case-insensitively equal names `"A"` and
`"a"`. -/
theorem c2_counterexample :
    (addSection docR 0 (pys "A") (pys "")).1 = .ok 1 ∧
    (addSection docRA2 0 (pys "a#") (pys "")).1 = .ok 2 ∧
    (dkeys docCI.sec).contains (pys "A") = true ∧
    (dkeys docCI.sec).contains (pys "a") = true ∧
    pys "A" ≠ pys "a" ∧
    pyLower (pys "A") = pyLower (pys "a") := by
  decide

/-- C5, counterexample.  Parsing `"hello\n"` (no level-1 heading) synthesizes
a root named `"Test"`, but its content is empty: the input text is discarded
instead of becoming the root's content. -/
theorem c5_counterexample :
    (initDoc (pys "test") (pys "hello\n")).1 = none ∧
    (initDoc (pys "test") (pys "hello\n")).2.header = some 1 ∧
    (getN (initDoc (pys "test") (pys "hello\n")).2.store 1).name = pys "Test" ∧
    (getN (initDoc (pys "test") (pys "hello\n")).2.store 1).content = [] ∧
    ([] : PyStr) ≠ pys "hello\n" := by
  decide

/-- C7, counterexample.  After `add_section(" A", "c")` the registry holds
`"A"` (the resync normalises the heading row `"##  A"`), with the stale node
named `" A"` still a child of the root.  `delete_section("A")` then returns
without error, yet `"A"` is still registered and still among the root's
children afterwards: the section was not removed. -/
theorem c7_counterexample :
    (addSection docR 0 (pys " A") (pys "c")).1 = .ok 1 ∧
    dmem docAlias.sec (pys "A") = true ∧
    (deleteSection docAlias (pys "A")).1 = none ∧
    dmem (deleteSection docAlias (pys "A")).2.sec (pys "A") = true ∧
    dmem (getN (deleteSection docAlias (pys "A")).2.store 0).children
      (pys "A") = true := by
  decide

/-- C8, counterexample.  `add_section("R", if_exist="replace")` on the child
`"A"` re-registers the root's name to a new node nested under `"A"`.  The
resync inside that call succeeds (the whole call returns `ok`), but it reuses
that single node for both the `"# R"` and the `"### R"` heading rows: the
parse establishes a header of level 3 with a parent, not a level-1 root with
none. -/
theorem c8_counterexample :
    (addSection docRA2 1 (pys "R") (pys "") [] .replace).1 = .ok 2 ∧
    docCycle.header = some 2 ∧
    (getN docCycle.store 2).level = 3 ∧
    (getN docCycle.store 2).parent = some 1 := by
  decide

/-- C10, counterexample.  The root's children are `A, B` and `"A"` is among
them.  Calling `add_section("A", if_exist="error")` raises `NameCollision`
instead of popping and re-inserting the child: afterwards `A` still occupies
the first, not the last, sibling position. -/
theorem c10_counterexample :
    dkeys (getN docRAB2.store 0).children = [pys "A", pys "B"] ∧
    (addSection docRAB2 0 (pys "A") (pys "zz") [] .error).1 =
      .error .nameCollision ∧
    dkeys (getN (addSection docRAB2 0 (pys "A") (pys "zz") [] .error).2.store 0).children
      = [pys "A", pys "B"] := by
  decide

end MarkdownReader

namespace MarkdownReader

/-! ## The spec's notion of a fenced region (for C4) -/

/-- Modelled from the spec: "a fenced code block is delimited by any line
whose trimmed form starts with three backticks (toggled on each occurrence)".
This folds that toggle over a list of lines, giving the parity after them. -/
def specTrimmedFenceParity (lines : List PyStr) : Bool :=
  lines.foldl
    (fun code l => if pyStarts fenceStr (pyStrip l) then !code else code) false

/-- Modelled from the spec: line `i` lies inside a trimmed-delimiter fenced
region when the delimiters strictly before it leave the toggle on and the
line itself is not a delimiter. -/
def specInsideTrimmedFence (lines : List PyStr) (i : Nat) : Bool :=
  specTrimmedFenceParity (lines.take i)
    && !(pyStarts fenceStr (pyStrip (lines.getD i [])))

/-- C4, counterexample.  In the content `"  ```\n# X\n  ```"` the fence lines
are indented, so their trimmed form starts with three backticks and the line
`"# X"` lies inside the spec's fenced region; but the code tests
`line.startswith("```")` on the untrimmed line, the toggle never fires, and
`add_section`'s stripping rewrites the line into a heading marker instead of
preserving it. -/
theorem c4_counterexample :
    specInsideTrimmedFence (pySplit (pys "  ```\n# X\n  ```")) 1 = true ∧
    stripContent (pys "  ```\n# X\n  ```") = pys "  ```\n***X***\n  ```" ∧
    (pySplit (stripContent (pys "  ```\n# X\n  ```"))).getD 1 [] ≠
      (pySplit (pys "  ```\n# X\n  ```")).getD 1 [] := by
  decide

/-! ## C3: the error-if-exists policy is checked before any mutation -/

/-- C3: calling `add_section` with `if_exist="error"` while `name` is already
registered anywhere in the document fails with the name-collision assertion
(`NameCollision`) and returns the document exactly as it was: the assert at
source line 142 runs before any state is touched. -/
theorem c3_nameCollision_atomic (d : Doc) (selfId : Nat)
    (name content : PyStr) (meta : List (PyStr × PyStr)) (removeSub : Bool)
    (h : dmem d.sec name = true) :
    addSection d selfId name content meta .error removeSub =
      (.error .nameCollision, d) := by
  unfold addSection
  cases hdl : dlookup (getN d.store selfId).children name <;> simp [hdl, h]

/-- C3, witness: in `docRAB2` the name `"A"` is registered, and the failing
call leaves the document untouched. -/
theorem c3_witness :
    dmem docRAB2.sec (pys "A") = true ∧
    addSection docRAB2 0 (pys "A") (pys "zz") [] .error true =
      (.error .nameCollision, docRAB2) :=
  ⟨by decide,
   c3_nameCollision_atomic docRAB2 0 (pys "A") (pys "zz") [] true (by decide)⟩

end MarkdownReader


namespace MarkdownReader

/-! ## Store and dictionary lemmas -/

theorem length_updN (σ : Store) (i : Nat) (f : Node → Node) :
    (updN σ i f).length = σ.length := by
  simp [updN]

theorem getN_set_self (σ : Store) {i : Nat} (h : i < σ.length) (n : Node) :
    getN (σ.set i n) i = n := by
  simp [getN, List.getD_eq_getElem?_getD, List.getElem?_set_self h]

theorem getN_set_ne (σ : Store) {i j : Nat} (h : i ≠ j) (n : Node) :
    getN (σ.set i n) j = getN σ j := by
  simp [getN, List.getD_eq_getElem?_getD, List.getElem?_set_ne h]

theorem getN_updN_self (σ : Store) {i : Nat} (h : i < σ.length)
    (f : Node → Node) : getN (updN σ i f) i = f (getN σ i) :=
  getN_set_self σ h _

theorem getN_updN_ne (σ : Store) {i j : Nat} (h : i ≠ j) (f : Node → Node) :
    getN (updN σ i f) j = getN σ j :=
  getN_set_ne σ h _

theorem getN_append_lt {σ : Store} {i : Nat} (h : i < σ.length) (n : Node) :
    getN (σ ++ [n]) i = getN σ i := by
  simp [getN, List.getD_eq_getElem?_getD, List.getElem?_append_left h]

theorem getN_append_len (σ : Store) (n : Node) :
    getN (σ ++ [n]) σ.length = n := by
  simp [getN, List.getD_eq_getElem?_getD]

theorem set_getN_self (σ : Store) {i : Nat} (h : i < σ.length) :
    σ.set i (getN σ i) = σ := by
  apply List.ext_getElem?
  intro n
  by_cases hn : i = n
  · subst hn
    rw [List.getElem?_set_self h]
    simp [getN, List.getD_eq_getElem?_getD, List.getElem?_eq_getElem h]
  · rw [List.getElem?_set_ne hn]

theorem updN_id (σ : Store) {i : Nat} (h : i < σ.length) {f : Node → Node}
    (hf : f (getN σ i) = getN σ i) : updN σ i f = σ := by
  rw [updN, hf, set_getN_self σ h]

theorem dlookup_dinsert_self {β : Type} (d : List (PyStr × β)) (k : PyStr)
    (v : β) : dlookup (dinsert d k v) k = some v := by
  induction d with
  | nil => simp [dinsert, dlookup]
  | cons p rest ih =>
    obtain ⟨k₀, v₀⟩ := p
    by_cases h0 : k₀ = k
    · simp [dinsert, h0, dlookup]
    · simp [dinsert, h0, dlookup, ih]

theorem dlookup_dinsert_ne {β : Type} (d : List (PyStr × β)) {k k' : PyStr}
    (h : k ≠ k') (v : β) : dlookup (dinsert d k v) k' = dlookup d k' := by
  induction d with
  | nil => simp [dinsert, dlookup, h]
  | cons p rest ih =>
    obtain ⟨k₀, v₀⟩ := p
    by_cases h0 : k₀ = k
    · subst h0
      simp [dinsert, dlookup, h]
    · simp [dinsert, h0, dlookup, ih]

theorem dlookup_not_mem {β : Type} {d : List (PyStr × β)} {k : PyStr}
    (h : k ∉ dkeys d) : dlookup d k = none := by
  induction d with
  | nil => simp [dlookup]
  | cons p rest ih =>
    obtain ⟨k₀, v₀⟩ := p
    simp only [dkeys, List.map_cons, List.mem_cons] at h
    push_neg at h
    have hne : ¬ k₀ = k := fun he => h.1 he.symm
    simp only [dlookup, if_neg hne]
    exact ih h.2

theorem dlookup_dpop_self {β : Type} (d : List (PyStr × β)) (k : PyStr)
    (hnd : (dkeys d).Nodup) : dlookup (dpop d k) k = none := by
  induction d with
  | nil => simp [dpop, dlookup]
  | cons p rest ih =>
    obtain ⟨k₀, v₀⟩ := p
    simp only [dkeys, List.map_cons, List.nodup_cons] at hnd
    by_cases h0 : k₀ = k
    · subst h0
      simp only [dpop, if_pos rfl]
      exact dlookup_not_mem hnd.1
    · simp only [dpop, if_neg h0, dlookup, if_neg h0]
      exact ih hnd.2

theorem dlookup_dpop_ne {β : Type} (d : List (PyStr × β)) {k k' : PyStr}
    (h : k ≠ k') : dlookup (dpop d k) k' = dlookup d k' := by
  induction d with
  | nil => simp [dpop, dlookup]
  | cons p rest ih =>
    obtain ⟨k₀, v₀⟩ := p
    by_cases h0 : k₀ = k
    · subst h0
      show dlookup (if k₀ = k₀ then rest else (k₀, v₀) :: dpop rest k₀) k' = _
      rw [if_pos rfl]
      simp only [dlookup, if_neg h]
    · simp only [dpop, if_neg h0, dlookup]
      by_cases h1 : k₀ = k'
      · simp [h1]
      · simp [h1, ih]

theorem dkeys_dinsert_mem {β : Type} {d : List (PyStr × β)} {k : PyStr}
    (v : β) (h : dmem d k = true) : dkeys (dinsert d k v) = dkeys d := by
  induction d with
  | nil => simp [dmem, dlookup] at h
  | cons p rest ih =>
    obtain ⟨k₀, v₀⟩ := p
    by_cases h0 : k₀ = k
    · subst h0
      simp [dinsert, dkeys]
    · simp only [dmem, dlookup, if_neg h0] at h
      simp only [dinsert, if_neg h0, dkeys, List.map_cons, List.cons.injEq,
        true_and]
      exact ih h

theorem dkeys_dinsert_new {β : Type} {d : List (PyStr × β)} {k : PyStr}
    (v : β) (h : dmem d k = false) : dkeys (dinsert d k v) = dkeys d ++ [k] := by
  induction d with
  | nil => simp [dinsert, dkeys]
  | cons p rest ih =>
    obtain ⟨k₀, v₀⟩ := p
    by_cases h0 : k₀ = k
    · subst h0
      simp [dmem, dlookup] at h
    · simp only [dmem, dlookup, if_neg h0] at h
      simp only [dinsert, if_neg h0, dkeys, List.map_cons, List.cons_append,
        List.cons.injEq, true_and]
      exact ih h

theorem dmem_iff_lookup {β : Type} (d : List (PyStr × β)) (k : PyStr) :
    dmem d k = true ↔ ∃ v, dlookup d k = some v := by
  simp [dmem, Option.isSome_iff_exists]

/-- A heading row cannot be a fence row. -/
theorem hash_not_fence {row : PyStr} (h : pyStarts hashStr row = true) :
    pyStarts fenceStr row = false := by
  cases row with
  | nil => simp [pyStarts, hashStr, pys, List.isPrefixOf] at h
  | cons c rest =>
    simp only [pyStarts, hashStr, pys, List.isPrefixOf, Bool.and_eq_true,
      beq_iff_eq] at h
    have hc : c = '#' := h.1.symm
    subst hc
    simp [pyStarts, fenceStr, pys, List.isPrefixOf]

/-- A heading row has a positive heading level. -/
theorem heading_level_pos {row : PyStr} (h : pyStarts hashStr row = true) :
    1 ≤ (level_and_name row).1 := by
  cases row with
  | nil => simp [pyStarts, hashStr, pys, List.isPrefixOf] at h
  | cons c rest =>
    simp only [pyStarts, hashStr, pys, List.isPrefixOf, Bool.and_eq_true,
      beq_iff_eq] at h
    have hc : c = '#' := h.1.symm
    subst hc
    simp [level_and_name, List.takeWhile]

end MarkdownReader

namespace MarkdownReader

/-- The content flush performed at each heading row
(`current_section.content = content.strip()` when a current section exists). -/
def flushSt (st : PSt) : PSt :=
  match st.current with
  | some c =>
    let σ := updN st.store c (fun n => { n with content := pyStrip st.content })
    { st with store := σ }
  | none => st

theorem rowStep_not_heading {M : List (PyStr × Nat)} {st : PSt} {row : PyStr}
    (h : pyStarts hashStr row = false) :
    rowStep M st row = (none,
      { st with code := if pyStarts fenceStr row then !st.code else st.code,
                content := st.content ++ row }) := by
  unfold rowStep
  by_cases hf : pyStarts fenceStr row <;> simp [hf, h]

theorem rowStep_heading_fenced {M : List (PyStr × Nat)} {st : PSt}
    {row : PyStr} (hh : pyStarts hashStr row = true) (hc : st.code = true) :
    rowStep M st row = (none, { st with content := st.content ++ row }) := by
  unfold rowStep
  simp [hash_not_fence hh, hh, hc]

theorem rowStep_heading {M : List (PyStr × Nat)} {st : PSt} {row : PyStr}
    (hh : pyStarts hashStr row = true) (hc : st.code = false) :
    rowStep M st row =
      match processSection M row (flushSt st) with
      | (some e, st2) => (some e, st2)
      | (none, st2) => (none, { st2 with content := [] }) := by
  unfold rowStep flushSt
  simp [hash_not_fence hh, hh, hc]

/-- Level and parent of every node survive an update that touches neither. -/
theorem getN_lp_updN (σ : Store) (p id : Nat) (f : Node → Node)
    (hf : ∀ n, (f n).level = n.level ∧ (f n).parent = n.parent) :
    (getN (updN σ p f) id).level = (getN σ id).level ∧
    (getN (updN σ p f) id).parent = (getN σ id).parent := by
  by_cases hp : p < σ.length
  · by_cases hpi : p = id
    · subst hpi
      rw [getN_updN_self σ hp]
      exact hf _
    · rw [getN_updN_ne σ hpi]
      exact ⟨rfl, rfl⟩
  · unfold updN
    rw [List.set_eq_of_length_le (Nat.le_of_not_lt hp)]
    exact ⟨rfl, rfl⟩

end MarkdownReader

namespace MarkdownReader

/-- Invariant maintained by the row loop when the reuse cache is empty:
either no heading has been processed yet (state untouched), or a level-1 root
with no parent has been established as header and every other registered
section has level at least 2 and a parent. -/
def RootInv (σ0 : Store) (h0 : Option Nat) (st : PSt) : Prop :=
  σ0.length ≤ st.store.length ∧
  (st.current = none → st.sec = [] ∧ st.header = h0 ∧ st.store = σ0) ∧
  (∀ c, st.current = some c →
    c < st.store.length ∧
    ∃ r, st.header = some r ∧ r < st.store.length ∧
      (getN st.store r).level = 1 ∧ (getN st.store r).parent = none ∧
      ∀ nm id, dlookup st.sec nm = some id →
        id < st.store.length ∧
        (id ≠ r → 2 ≤ (getN st.store id).level ∧
          (getN st.store id).parent.isSome = true))

theorem flushSt_fields (st : PSt) :
    (flushSt st).store.length = st.store.length ∧
    (flushSt st).sec = st.sec ∧ (flushSt st).current = st.current ∧
    (flushSt st).header = st.header ∧ (flushSt st).content = st.content ∧
    (∀ id, ((getN (flushSt st).store id).level = (getN st.store id).level ∧
      (getN (flushSt st).store id).parent = (getN st.store id).parent)) := by
  unfold flushSt
  cases hc : st.current with
  | none => simp [hc]
  | some c =>
    simp only [hc]
    refine ⟨by simp [length_updN], trivial, trivial, trivial, trivial, fun id => ?_⟩
    exact getN_lp_updN _ _ _ _ (fun n => ⟨rfl, rfl⟩)

theorem flushSt_rootInv {σ0 : Store} {h0 : Option Nat} {st : PSt}
    (hI : RootInv σ0 h0 st) (hcur : st.current.isSome = true) :
    RootInv σ0 h0 (flushSt st) := by
  obtain ⟨hlen, _, hsome⟩ := hI
  obtain ⟨hflen, hfsec, hfcur, hfhd, _, hflp⟩ := flushSt_fields st
  refine ⟨by omega, ?_, ?_⟩
  · intro hn
    rw [hfcur] at hn
    rw [hn] at hcur
    simp at hcur
  · intro c hc
    rw [hfcur] at hc
    obtain ⟨hclen, r, hr, hrlen, hrlvl, hrpar, hreg⟩ := hsome c hc
    refine ⟨by omega, r, by rw [hfhd]; exact hr, by omega,
      by rw [(hflp r).1]; exact hrlvl, by rw [(hflp r).2]; exact hrpar, ?_⟩
    intro nm id hl
    rw [hfsec] at hl
    obtain ⟨hid, hrest⟩ := hreg nm id hl
    refine ⟨by omega, fun hne => ?_⟩
    obtain ⟨h1, h2⟩ := hrest hne
    exact ⟨by rw [(hflp id).1]; exact h1, by rw [(hflp id).2]; exact h2⟩

end MarkdownReader

namespace MarkdownReader

theorem attach_rootInv {σ0 : Store} {h0 : Option Nat} {st : PSt} {p : Nat}
    {lvl : Nat} {name : PyStr} {c0 : Nat} (hlvl : 2 ≤ lvl)
    (hI : RootInv σ0 h0 st) (hcur : st.current = some c0) :
    RootInv σ0 h0 (attachTo st (st.store ++ [⟨name, lvl, none, [], [], []⟩])
      p st.store.length name).2 := by
  obtain ⟨hlen, hnone, hsome⟩ := hI
  simp only [attachTo]
  set nid := st.store.length with hnid
  set σ1 : Store := st.store ++ [⟨name, lvl, none, [], [], []⟩] with hσ1
  set σ2 := updN σ1 nid (fun n => { n with parent := some p }) with hσ2
  set σ3 := updN σ2 p
    (fun n => { n with children := dinsert n.children name nid }) with hσ3
  have hlen1 : σ1.length = st.store.length + 1 := by simp [hσ1]
  have hnidlt : nid < σ1.length := by omega
  have hlen2 : σ2.length = σ1.length := length_updN _ _ _
  have hlen3 : σ3.length = σ2.length := length_updN _ _ _
  have hlp3 : ∀ id, (getN σ3 id).level = (getN σ2 id).level ∧
      (getN σ3 id).parent = (getN σ2 id).parent :=
    fun id => getN_lp_updN σ2 p id _ (fun n => ⟨rfl, rfl⟩)
  have hnid_val : getN σ2 nid = ⟨name, lvl, some p, [], [], []⟩ := by
    rw [hσ2, getN_updN_self σ1 hnidlt]
    rw [hσ1, hnid, getN_append_len]
  have hold : ∀ id, id < st.store.length → getN σ2 id = getN st.store id := by
    intro id hid
    rw [hσ2, getN_updN_ne σ1 (by omega), hσ1, getN_append_lt hid]
  obtain ⟨hc0len, r, hr, hrlen, hrlvl, hrpar, hreg⟩ := hsome c0 hcur
  have hmain : ∀ c, (some nid : Option Nat) = some c →
      c < σ3.length ∧
      ∃ rr, st.header = some rr ∧ rr < σ3.length ∧
        (getN σ3 rr).level = 1 ∧ (getN σ3 rr).parent = none ∧
        ∀ nm i, dlookup (dinsert st.sec name nid) nm = some i →
          i < σ3.length ∧
          (i ≠ rr → 2 ≤ (getN σ3 i).level ∧
            (getN σ3 i).parent.isSome = true) := by
    intro c hc
    have hcnid : c = nid := by simpa using hc.symm
    subst hcnid
    have hrnid : r ≠ nid := by omega
    refine ⟨by omega, r, hr, by omega, ?_, ?_, ?_⟩
    · rw [(hlp3 r).1, hold r hrlen]
      exact hrlvl
    · rw [(hlp3 r).2, hold r hrlen]
      exact hrpar
    · intro nm i hl
      by_cases hnm : name = nm
      · subst hnm
        rw [dlookup_dinsert_self] at hl
        have hid : nid = i := by simpa using hl
        subst hid
        refine ⟨by omega, fun _ => ?_⟩
        rw [(hlp3 nid).1, (hlp3 nid).2, hnid_val]
        exact ⟨hlvl, rfl⟩
      · rw [dlookup_dinsert_ne _ hnm] at hl
        obtain ⟨hid, hcond⟩ := hreg nm i hl
        refine ⟨by omega, fun hne => ?_⟩
        obtain ⟨h1, h2⟩ := hcond hne
        rw [(hlp3 i).1, (hlp3 i).2, hold i hid]
        exact ⟨h1, h2⟩
  have comp1 : σ0.length ≤ σ3.length := by omega
  exact ⟨comp1, fun hcn => Option.noConfusion hcn, hmain⟩

end MarkdownReader

namespace MarkdownReader

theorem processSection_empty_rootInv {σ0 : Store} {h0 : Option Nat}
    {st st' : PSt} {row : PyStr}
    (hp : processSection [] row st = (none, st'))
    (hh : pyStarts hashStr row = true)
    (hI : RootInv σ0 h0 st) : RootInv σ0 h0 st' := by
  simp only [processSection, dlookup] at hp
  by_cases hl1 : (level_and_name row).1 = 1
  · rw [if_pos hl1] at hp
    cases hcur : st.current with
    | some c => simp [hcur] at hp
    | none =>
      simp only [hcur, Option.isSome_none, Bool.false_eq_true, if_false,
        Prod.mk.injEq, true_and] at hp
      obtain ⟨hsec0, hhd0, hstore0⟩ := hI.2.1 hcur
      subst hp
      set nid := st.store.length with hnid
      set fresh : Node := ⟨(level_and_name row).2, (level_and_name row).1,
        none, [], [], []⟩ with hfresh
      set σ1 : Store := st.store ++ [fresh] with hσ1
      set σ2 := updN σ1 nid (fun n => { n with parent := none }) with hσ2
      have hlen1 : σ1.length = st.store.length + 1 := by simp [hσ1]
      have hnidlt : nid < σ1.length := by omega
      have hlen2 : σ2.length = σ1.length := length_updN _ _ _
      have hnv : getN σ2 nid = { fresh with parent := none } := by
        rw [hσ2, getN_updN_self σ1 hnidlt, hσ1, hnid, getN_append_len]
      have hmain : ∀ c, (some nid : Option Nat) = some c →
          c < σ2.length ∧
          ∃ rr, (some nid : Option Nat) = some rr ∧ rr < σ2.length ∧
            (getN σ2 rr).level = 1 ∧ (getN σ2 rr).parent = none ∧
            ∀ nm i, dlookup (dinsert st.sec (level_and_name row).2 nid) nm
                = some i →
              i < σ2.length ∧
              (i ≠ rr → 2 ≤ (getN σ2 i).level ∧
                (getN σ2 i).parent.isSome = true) := by
        intro c hc
        have hcnid : c = nid := by simpa using hc.symm
        refine ⟨by omega, nid, rfl, by omega, ?_, ?_, ?_⟩
        · rw [hnv, hfresh]
          exact hl1
        · rw [hnv]
        · intro nm i hl
          rw [hsec0] at hl
          by_cases hnm : (level_and_name row).2 = nm
          · subst hnm
            rw [dlookup_dinsert_self] at hl
            have : nid = i := by simpa using hl
            subst this
            exact ⟨by omega, fun hne => absurd rfl hne⟩
          · rw [dlookup_dinsert_ne _ hnm] at hl
            simp [dlookup] at hl
      have comp1 : σ0.length ≤ σ2.length := by
        have := hI.1
        omega
      exact ⟨comp1, fun hcn => Option.noConfusion hcn, hmain⟩
  · rw [if_neg hl1] at hp
    cases hcur : st.current with
    | none => simp [hcur] at hp
    | some c =>
      simp only [hcur] at hp
      have hlvl2 : 2 ≤ (level_and_name row).1 := by
        have := heading_level_pos hh
        omega
      by_cases hgt : (getN (st.store ++
          [(⟨(level_and_name row).2, (level_and_name row).1, none, [], [],
            []⟩ : Node)]) c).level < (level_and_name row).1
      · rw [if_pos hgt] at hp
        by_cases hne : (getN (st.store ++
            [(⟨(level_and_name row).2, (level_and_name row).1, none, [], [],
              []⟩ : Node)]) c).level + 1 ≠ (level_and_name row).1
        · rw [if_pos hne] at hp
          simp at hp
        · rw [if_neg hne] at hp
          have hsnd : st' = (attachTo st (st.store ++
              [⟨(level_and_name row).2, (level_and_name row).1, none, [], [],
                []⟩]) c st.store.length (level_and_name row).2).2 := by
            have h2 := congrArg Prod.snd hp
            simpa [attachTo] using h2.symm
          rw [hsnd]
          exact attach_rootInv hlvl2 ⟨hI.1, hI.2.1, hI.2.2⟩ hcur
      · rw [if_neg hgt] at hp
        cases hwalk : walkUp (st.store ++
            [(⟨(level_and_name row).2, (level_and_name row).1, none, [], [],
              []⟩ : Node)]) ((st.store ++
            [(⟨(level_and_name row).2, (level_and_name row).1, none, [], [],
              []⟩ : Node)]).length + 1) c (level_and_name row).1 with
        | error e => rw [hwalk] at hp; simp at hp
        | ok p =>
          rw [hwalk] at hp
          have hsnd : st' = (attachTo st (st.store ++
              [⟨(level_and_name row).2, (level_and_name row).1, none, [], [],
                []⟩]) p st.store.length (level_and_name row).2).2 := by
            have h2 := congrArg Prod.snd hp
            simpa [attachTo] using h2.symm
          rw [hsnd]
          exact attach_rootInv hlvl2 ⟨hI.1, hI.2.1, hI.2.2⟩ hcur

end MarkdownReader

namespace MarkdownReader

theorem rootInv_congr {σ0 : Store} {h0 : Option Nat} {st st' : PSt}
    (hI : RootInv σ0 h0 st) (hs : st'.store = st.store)
    (hsec : st'.sec = st.sec) (hcur : st'.current = st.current)
    (hhd : st'.header = st.header) : RootInv σ0 h0 st' := by
  unfold RootInv at hI ⊢
  rw [hs, hsec, hcur, hhd]
  exact hI

theorem flushSt_rootInv_any {σ0 : Store} {h0 : Option Nat} {st : PSt}
    (hI : RootInv σ0 h0 st) : RootInv σ0 h0 (flushSt st) := by
  cases hcu : st.current with
  | none =>
    have : flushSt st = st := by unfold flushSt; rw [hcu]
    rw [this]
    exact hI
  | some c => exact flushSt_rootInv hI (by rw [hcu]; rfl)

theorem rowStep_empty_rootInv {σ0 : Store} {h0 : Option Nat} {st st' : PSt}
    {row : PyStr} (hM : rowStep [] st row = (none, st'))
    (hI : RootInv σ0 h0 st) : RootInv σ0 h0 st' := by
  by_cases hh : pyStarts hashStr row = true
  · by_cases hc : st.code = true
    · rw [rowStep_heading_fenced hh hc] at hM
      simp only [Prod.mk.injEq, true_and] at hM
      subst hM
      exact rootInv_congr hI rfl rfl rfl rfl
    · have hc' : st.code = false := by simpa using hc
      rw [rowStep_heading hh hc'] at hM
      cases hps : processSection [] row (flushSt st) with
      | mk e st2 =>
        rw [hps] at hM
        cases e with
        | some e0 => simp at hM
        | none =>
          simp only [Prod.mk.injEq, true_and] at hM
          subst hM
          have h2 := processSection_empty_rootInv hps hh
            (flushSt_rootInv_any hI)
          exact rootInv_congr h2 rfl rfl rfl rfl
  · have hh' : pyStarts hashStr row = false := by simpa using hh
    rw [rowStep_not_heading hh'] at hM
    simp only [Prod.mk.injEq, true_and] at hM
    subst hM
    exact rootInv_congr hI rfl rfl rfl rfl

theorem parseRows_empty_rootInv {σ0 : Store} {h0 : Option Nat} :
    ∀ (rows : List PyStr) (st st' : PSt),
    parseRows [] rows st = (none, st') → RootInv σ0 h0 st →
    RootInv σ0 h0 st' := by
  intro rows
  induction rows with
  | nil =>
    intro st st' hp hI
    simp only [parseRows, Prod.mk.injEq, true_and] at hp
    subst hp
    exact hI
  | cons row rest ih =>
    intro st st' hp hI
    unfold parseRows at hp
    cases hrs : rowStep [] st row with
    | mk e st1 =>
      rw [hrs] at hp
      cases e with
      | some e0 => simp at hp
      | none => exact ih st1 st' hp (rowStep_empty_rootInv hrs hI)

end MarkdownReader

namespace MarkdownReader

theorem rootInv_extract {σ0 : Store} {h0 : Option Nat} {st : PSt} {c : Nat}
    (hI : RootInv σ0 h0 st) (hcur : st.current = some c) :
    ∃ r, st.header = some r ∧ r < st.store.length ∧
      (getN st.store r).level = 1 ∧ (getN st.store r).parent = none ∧
      ∀ nm i, dlookup st.sec nm = some i → i ≠ r →
        2 ≤ (getN st.store i).level ∧
        (getN st.store i).parent.isSome = true := by
  obtain ⟨hclen, r, hr, hrlen, hrlvl, hrpar, hreg⟩ := hI.2.2 c hcur
  exact ⟨r, hr, hrlen, hrlvl, hrpar, fun nm i hl hne =>
    ((hreg nm i hl).2 hne)⟩

theorem initDoc_root {docName text : PyStr} {d' : Doc}
    (h : initDoc docName text = (none, d')) :
    ∃ r, d'.header = some r ∧ r < d'.store.length ∧
      (getN d'.store r).level = 1 ∧ (getN d'.store r).parent = none ∧
      ∀ nm i, dlookup d'.sec nm = some i → i ≠ r →
        2 ≤ (getN d'.store i).level ∧
        (getN d'.store i).parent.isSome = true := by
  unfold initDoc refreshTree refreshTreeCore at h
  simp only at h
  cases hpr : parseRows [] (pySplitKeep text)
      (⟨[], [], none, none, [], false⟩ : PSt) with
  | mk e st =>
    rw [hpr] at h
    have hInv0 : RootInv ([] : Store) (none : Option Nat)
        (⟨[], [], none, none, [], false⟩ : PSt) := by
      refine ⟨Nat.le_refl _, fun _ => ⟨rfl, rfl, rfl⟩, fun c hc => ?_⟩
      simp at hc
    cases e with
    | some e0 => simp at h
    | none =>
      have hInv := parseRows_empty_rootInv _ _ _ hpr hInv0
      cases hcur : st.current with
      | some c =>
        simp only [hcur] at h
        simp only [Prod.mk.injEq, true_and] at h
        subst h
        have hIf := flushSt_rootInv_any hInv
        have hfc : (flushSt st).current = some c := by
          rw [(flushSt_fields st).2.2.1, hcur]
        obtain ⟨r, hr, hrlen, hrlvl, hrpar, hreg⟩ := rootInv_extract hIf hfc
        have hfst : flushSt st = { st with store := updN st.store c (fun n => { n with content := pyStrip st.content }) } := by
          unfold flushSt
          rw [hcur]
        rw [hfst] at hr hrlen hrlvl hrpar hreg
        exact ⟨r, hr, hrlen, hrlvl, hrpar, hreg⟩
      | none =>
        simp only [hcur] at h
        simp only [docOf] at h
        obtain ⟨hsec0, hhd0, hstore0⟩ := hInv.2.1 hcur
        rw [hsec0, hstore0] at h
        simp only [List.nil_append, List.length_nil] at h
        cases hmk : mkFormatter (⟨[⟨pyTitle docName, 1, none, [], [],
            []⟩], some 0, [], text, docName⟩ : Doc) with
        | error e0 => rw [hmk] at h; simp at h
        | ok txt =>
          rw [hmk] at h
          simp only at h
          cases hpr2 : parseRows [] (pySplitKeep txt)
              (⟨[⟨pyTitle docName, 1, none, [], [], []⟩], [], none,
                some 0, [], false⟩ : PSt) with
          | mk e2 st2 =>
            rw [hpr2] at h
            have hInv0b : RootInv ([⟨pyTitle docName, 1, none, [], [], []⟩] :
                Store) (some 0)
                (⟨[⟨pyTitle docName, 1, none, [], [], []⟩], [], none,
                  some 0, [], false⟩ : PSt) := by
              refine ⟨Nat.le_refl _, fun _ => ⟨rfl, rfl, rfl⟩, fun c hc => ?_⟩
              simp at hc
            cases e2 with
            | some e0 => simp at h
            | none =>
              have hInv2 := parseRows_empty_rootInv _ _ _ hpr2 hInv0b
              cases hcur2 : st2.current with
              | none => simp only [hcur2] at h; simp at h
              | some c2 =>
                simp only [hcur2] at h
                simp only [Prod.mk.injEq, true_and] at h
                subst h
                have hIf := flushSt_rootInv_any hInv2
                have hfc : (flushSt st2).current = some c2 := by
                  rw [(flushSt_fields st2).2.2.1, hcur2]
                obtain ⟨r, hr, hrlen, hrlvl, hrpar, hreg⟩ :=
                  rootInv_extract hIf hfc
                have hfst : flushSt st2 = { st2 with store := updN st2.store c2 (fun n => { n with content := pyStrip st2.content }) } := by
                  unfold flushSt
                  rw [hcur2]
                rw [hfst] at hr hrlen hrlvl hrpar hreg
                exact ⟨r, hr, hrlen, hrlvl, hrpar, hreg⟩

end MarkdownReader

namespace MarkdownReader

theorem rowStep_second_root {M : List (PyStr × Nat)} {st : PSt} {row : PyStr}
    {c : Nat} (hcur : st.current = some c) (hcode : st.code = false)
    (hh : pyStarts hashStr row = true) (hl1 : (level_and_name row).1 = 1) :
    (rowStep M st row).1 = some .multipleRoots := by
  rw [rowStep_heading hh hcode]
  have hfc : (flushSt st).current = some c := by
    rw [(flushSt_fields st).2.2.1, hcur]
  have hp1 : (processSection M row (flushSt st)).1 = some .multipleRoots := by
    simp only [processSection, hl1, if_pos, hfc]
    simp
  cases hps : processSection M row (flushSt st) with
  | mk e st2 =>
    rw [hps] at hp1
    simp only at hp1
    subst hp1
    simp

/-- C8 (amended): on encountering a second level-1 heading row (a heading
row processed while a current section already exists), the parse raises the
single-header assertion (`MultipleRootsError`); and a parse from an empty
reuse cache (an initial load) that succeeds establishes a header of level 1
with no parent, every other registered section having level at least 2 and a
parent.  (The unamended second half is false when the reuse cache is
non-empty; see the counterexample.) -/
theorem c8_amended :
    (∀ (M : List (PyStr × Nat)) (st : PSt) (row : PyStr) (c : Nat),
      st.current = some c → st.code = false →
      pyStarts hashStr row = true → (level_and_name row).1 = 1 →
      (rowStep M st row).1 = some .multipleRoots) ∧
    (∀ (docName text : PyStr) (d' : Doc),
      initDoc docName text = (none, d') →
      ∃ r, d'.header = some r ∧ r < d'.store.length ∧
        (getN d'.store r).level = 1 ∧ (getN d'.store r).parent = none ∧
        ∀ nm i, dlookup d'.sec nm = some i → i ≠ r →
          2 ≤ (getN d'.store i).level ∧
          (getN d'.store i).parent.isSome = true) :=
  ⟨fun _ _ _ _ hcur hcode hh hl1 => rowStep_second_root hcur hcode hh hl1,
   fun _ _ _ h => initDoc_root h⟩

/-- C8, witness: concrete instances of both halves of `c8_amended`. -/
theorem c8_witness :
    (rowStep [] (⟨[⟨pys "A", 1, none, [], [], []⟩], [(pys "A", 0)], some 0,
      some 0, [], false⟩ : PSt) (pys "# B\n")).1 = some .multipleRoots ∧
    ∃ r, docR.header = some r ∧ r < docR.store.length ∧
      (getN docR.store r).level = 1 ∧ (getN docR.store r).parent = none ∧
      ∀ nm i, dlookup docR.sec nm = some i → i ≠ r →
        2 ≤ (getN docR.store i).level ∧
        (getN docR.store i).parent.isSome = true :=
  ⟨c8_amended.1 [] _ (pys "# B\n") 0 rfl rfl (by decide) (by decide),
   c8_amended.2 (pys "doc") (pys "# R\n") docR (by decide)⟩

end MarkdownReader

namespace MarkdownReader

/-- Parity of the untrimmed fence toggle (`line.startswith("```")`) after a
list of lines, starting from `b`. -/
def fenceParity (b : Bool) (lines : List PyStr) : Bool :=
  lines.foldl (fun code l => if pyStarts fenceStr l then !code else code) b

theorem stripLines_fenced :
    ∀ (lines : List PyStr) (i : Nat) (b : Bool),
    fenceParity b (lines.take (i + 1)) = true →
    (stripLines b lines)[i]? = lines[i]? := by
  intro lines
  induction lines with
  | nil => intro i b _; simp [stripLines]
  | cons line rest ih =>
    intro i b hpar
    cases i with
    | zero =>
      have hc' : (if pyStarts fenceStr line then !b else b) = true := by
        cases hf : pyStarts fenceStr line <;>
          simpa [fenceParity, hf] using hpar
      simp [stripLines, hc']
    | succ j =>
      have hpar' : fenceParity (if pyStarts fenceStr line then !b else b)
          (rest.take (j + 1)) = true := by
        cases hf : pyStarts fenceStr line <;>
          simpa [fenceParity, hf] using hpar
      have htail := ih j (if pyStarts fenceStr line then !b else b) hpar'
      cases hcond : (pyStarts hashStr line
          && !(if pyStarts fenceStr line then !b else b)) <;>
        simp [stripLines, hcond, htail]

theorem rowStep_fenced {M : List (PyStr × Nat)} {st : PSt} {row : PyStr}
    (h : (if pyStarts fenceStr row then !st.code else st.code) = true) :
    (rowStep M st row).1 = none ∧ (rowStep M st row).2.store = st.store ∧
    (rowStep M st row).2.sec = st.sec ∧
    (rowStep M st row).2.current = st.current ∧
    (rowStep M st row).2.header = st.header := by
  unfold rowStep
  by_cases hf : pyStarts fenceStr row = true
  · rw [hf] at h
    have hc : st.code = false := by simpa using h
    simp [hf, hc]
  · have hf' : pyStarts fenceStr row = false := by simpa using hf
    rw [hf'] at h
    have hc : st.code = true := by simpa using h
    simp [hf', hc]

theorem processSection_code {M : List (PyStr × Nat)} {row : PyStr}
    {st : PSt} {e : Option Err} {st' : PSt}
    (h : processSection M row st = (e, st')) : st'.code = st.code := by
  simp only [processSection, attachTo] at h
  split at h
  · split at h
    · injection h with h1 h2
      subst h2
      rfl
    · injection h with h1 h2
      subst h2
      rfl
  · split at h
    · injection h with h1 h2
      subst h2
      rfl
    · split at h
      · split at h
        · injection h with h1 h2
          subst h2
          rfl
        · injection h with h1 h2
          subst h2
          rfl
      · split at h
        · injection h with h1 h2
          subst h2
          rfl
        · injection h with h1 h2
          subst h2
          rfl

theorem flushSt_code (st : PSt) : (flushSt st).code = st.code := by
  unfold flushSt
  cases st.current <;> rfl

theorem rowStep_code {M : List (PyStr × Nat)} {st st1 : PSt} {row : PyStr}
    (h : rowStep M st row = (none, st1)) :
    st1.code = (if pyStarts fenceStr row then !st.code else st.code) := by
  by_cases hh : pyStarts hashStr row = true
  · rw [hash_not_fence hh, if_neg (by simp)]
    by_cases hcode : st.code = true
    · rw [rowStep_heading_fenced hh hcode] at h
      injection h with h1 h2
      subst h2
      exact hcode.symm ▸ rfl
    · have hcode' : st.code = false := by simpa using hcode
      rw [rowStep_heading hh hcode'] at h
      cases hps : processSection M row (flushSt st) with
      | mk e2 st2 =>
        rw [hps] at h
        cases e2 with
        | some e0 => simp at h
        | none =>
          injection h with h1 h2
          subst h2
          have := processSection_code hps
          rw [this, flushSt_code]
  · have hh' : pyStarts hashStr row = false := by simpa using hh
    rw [rowStep_not_heading hh'] at h
    injection h with h1 h2
    subst h2
    rfl

theorem parseRows_code :
    ∀ (M : List (PyStr × Nat)) (rows : List PyStr) (st st' : PSt),
    parseRows M rows st = (none, st') →
    st'.code = fenceParity st.code rows := by
  intro M rows
  induction rows with
  | nil =>
    intro st st' hp
    simp only [parseRows, Prod.mk.injEq, true_and] at hp
    subst hp
    simp [fenceParity]
  | cons row rest ih =>
    intro st st' hp
    unfold parseRows at hp
    cases hrs : rowStep M st row with
    | mk e st1 =>
      rw [hrs] at hp
      cases e with
      | some e0 => simp at hp
      | none =>
        rw [ih st1 st' hp, rowStep_code hrs]
        cases hf : pyStarts fenceStr row <;> simp [fenceParity, hf]

end MarkdownReader

namespace MarkdownReader

/-- C4 (amended): the code detects a fence delimiter with
`line.startswith("```")` on the raw, untrimmed line (an indented delimiter
does not toggle — see the counterexample).  With that delimiter, the claim
holds in both places: a line lying inside a fenced region is kept verbatim by
`add_section`'s stripping, and a row lying inside a fenced region is never
treated as a heading by `_refresh_tree` (the step leaves store, registry,
cursor and header untouched). -/
theorem c4_amended :
    (∀ (lines : List PyStr) (i : Nat),
      fenceParity false (lines.take (i + 1)) = true →
      (stripLines false lines)[i]? = lines[i]?) ∧
    (∀ (M : List (PyStr × Nat)) (rows : List PyStr) (st0 st : PSt)
      (row : PyStr), parseRows M rows st0 = (none, st) → st0.code = false →
      fenceParity false (rows ++ [row]) = true →
      (rowStep M st row).1 = none ∧ (rowStep M st row).2.store = st.store ∧
      (rowStep M st row).2.sec = st.sec ∧
      (rowStep M st row).2.current = st.current ∧
      (rowStep M st row).2.header = st.header) := by
  constructor
  · exact fun lines i h => stripLines_fenced lines i false h
  · intro M rows st0 st row hpr hc0 hpar
    have hcode : st.code = fenceParity false rows := by
      rw [parseRows_code M rows st0 st hpr, hc0]
    have htog : (if pyStarts fenceStr row then !st.code else st.code)
        = true := by
      rw [hcode]
      simpa [fenceParity, List.foldl_append] using hpar
    exact rowStep_fenced htog

/-- Parse state used to witness the second half of `c4_amended`. -/
def c4st0 : PSt := ⟨[], [], none, none, [], false⟩

/-- The state after parsing a heading row and an opening fence row. -/
def c4st : PSt := (parseRows [] [pys "# A\n", pys "```\n"] c4st0).2

/-- C4, witness: both halves of `c4_amended` applied at concrete inputs: a
content whose second line sits inside a fence is preserved by the stripping,
and a heading-looking row arriving inside an open fence registers nothing. -/
theorem c4_witness :
    (fenceParity false ((pySplit (pys "```\n# X\n```")).take 2) = true ∧
     (stripLines false (pySplit (pys "```\n# X\n```")))[1]? =
       (pySplit (pys "```\n# X\n```"))[1]?) ∧
    (parseRows [] [pys "# A\n", pys "```\n"] c4st0 = (none, c4st) ∧
     (rowStep [] c4st (pys "## B\n")).1 = none ∧
     (rowStep [] c4st (pys "## B\n")).2.sec = c4st.sec) :=
  ⟨⟨by decide, c4_amended.1 (pySplit (pys "```\n# X\n```")) 1 (by decide)⟩,
   ⟨by decide,
    (c4_amended.2 [] [pys "# A\n", pys "```\n"] c4st0 c4st (pys "## B\n")
      (by decide) (by decide) (by decide)).1,
    (c4_amended.2 [] [pys "# A\n", pys "```\n"] c4st0 c4st (pys "## B\n")
      (by decide) (by decide) (by decide)).2.2.1⟩⟩

end MarkdownReader

namespace MarkdownReader

/-! ## Lemmas about `pyStrip` and `pySplitKeep` -/

theorem dropWhile_allspace {l : PyStr} (h : ∀ c ∈ l, isPySpace c = true) :
    List.dropWhile isPySpace l = [] := by
  induction l with
  | nil => rfl
  | cons c rest ih =>
    have hc := h c (List.mem_cons_self c rest)
    simp only [List.dropWhile, hc]
    exact ih (fun x hx => h x (List.mem_cons_of_mem c hx))

theorem dropWhile_append_allspace {pre x : PyStr}
    (h : ∀ c ∈ pre, isPySpace c = true) :
    List.dropWhile isPySpace (pre ++ x) = List.dropWhile isPySpace x := by
  induction pre with
  | nil => rfl
  | cons c rest ih =>
    have hc := h c (List.mem_cons_self c rest)
    simp only [List.cons_append, List.dropWhile, hc]
    exact ih (fun y hy => h y (List.mem_cons_of_mem c hy))

theorem dropWhile_of_strip {s : PyStr} (h : pyStrip s = s) :
    List.dropWhile isPySpace s = s ∧
    List.dropWhile isPySpace s.reverse = s.reverse := by
  have hsfx1 : List.dropWhile isPySpace s <:+ s := List.dropWhile_suffix _
  have hsfx2 : List.dropWhile isPySpace
      (List.dropWhile isPySpace s).reverse <:+
      (List.dropWhile isPySpace s).reverse := List.dropWhile_suffix _
  have hlen : s.length = (List.dropWhile isPySpace
      (List.dropWhile isPySpace s).reverse).length := by
    conv_lhs => rw [← h]
    simp [pyStrip]
  have hlen1 := hsfx1.length_le
  have hlen2 := hsfx2.length_le
  simp only [List.length_reverse] at hlen2
  have he1 : List.dropWhile isPySpace s = s :=
    hsfx1.eq_of_length (by omega)
  refine ⟨he1, ?_⟩
  rw [he1] at hlen hsfx2
  refine hsfx2.eq_of_length ?_
  simp only [List.length_reverse]
  omega

theorem pyStrip_wrap {s : PyStr} (h : pyStrip s = s) {pre post : PyStr}
    (hpre : ∀ c ∈ pre, isPySpace c = true)
    (hpost : ∀ c ∈ post, isPySpace c = true) :
    pyStrip (pre ++ s ++ post) = s := by
  obtain ⟨hd1, hd2⟩ := dropWhile_of_strip h
  unfold pyStrip
  rw [List.append_assoc, dropWhile_append_allspace hpre]
  cases s with
  | nil =>
    simp only [List.nil_append]
    rw [dropWhile_allspace hpost]
    simp [dropWhile_allspace, List.dropWhile]
  | cons c t =>
    have hcns : isPySpace c = false := by
      by_contra hcs
      simp only [Bool.not_eq_false] at hcs
      simp only [List.dropWhile, hcs] at hd1
      have := congrArg List.length hd1
      have hle := (List.dropWhile_suffix (l := t) (p := isPySpace)).length_le
      simp at this
      omega
    simp only [List.cons_append, List.dropWhile, hcns]
    simp only [List.append_eq]
    have hrw : (c :: (t ++ post)).reverse = post.reverse ++ (c :: t).reverse := by
      simp
    rw [hrw, dropWhile_append_allspace (by simpa using hpost), hd2]
    simp

theorem splitKeepAux_no_nl (s t acc : PyStr) (hs : ∀ c ∈ s, c ≠ '\n') :
    pySplitKeepAux (s ++ '\n' :: t) acc =
      (acc.reverse ++ s ++ ['\n']) :: pySplitKeepAux t [] := by
  induction s generalizing acc with
  | nil => simp [pySplitKeepAux]
  | cons c rest ih =>
    have hc : c ≠ '\n' := hs c (List.mem_cons_self c rest)
    simp only [List.cons_append, pySplitKeepAux, if_neg hc, List.append_eq]
    rw [ih (c :: acc) (fun x hx => hs x (List.mem_cons_of_mem c hx))]
    simp

end MarkdownReader

namespace MarkdownReader

/-- When every row is either not a heading row or lies inside a fenced
region, the row loop only accumulates content: it reports no error and leaves
store, registry, cursor and header untouched. -/
theorem parseRows_no_heading (M : List (PyStr × Nat)) :
    ∀ (rows : List PyStr) (st : PSt),
    (∀ i, i < rows.length → pyStarts hashStr (rows.getD i []) = false ∨
      fenceParity st.code (rows.take (i + 1)) = true) →
    ∃ st', parseRows M rows st = (none, st') ∧ st'.current = st.current ∧
      st'.store = st.store ∧ st'.sec = st.sec ∧ st'.header = st.header := by
  intro rows
  induction rows with
  | nil =>
    intro st _
    exact ⟨st, rfl, rfl, rfl, rfl, rfl⟩
  | cons row rest ih =>
    intro st hyp
    have h0 := hyp 0 (by simp)
    have hstep : ∃ st1, rowStep M st row = (none, st1) ∧
        st1.current = st.current ∧ st1.store = st.store ∧
        st1.sec = st.sec ∧ st1.header = st.header ∧
        st1.code = (if pyStarts fenceStr row then !st.code else st.code) := by
      by_cases hh : pyStarts hashStr row = true
      · have hpar : fenceParity st.code ((row :: rest).take 1) = true := by
          rcases h0 with h0 | h0
          · simp only [List.getD, List.get?, Option.getD] at h0
            rw [hh] at h0
            cases h0
          · exact h0
        have hfence : pyStarts fenceStr row = false := hash_not_fence hh
        have hcode : st.code = true := by
          simpa [fenceParity, hfence] using hpar
        refine ⟨_, rowStep_heading_fenced hh hcode, rfl, rfl, rfl, rfl, ?_⟩
        simp [hfence]
      · have hh' : pyStarts hashStr row = false := by simpa using hh
        refine ⟨_, rowStep_not_heading hh', rfl, rfl, rfl, rfl, rfl⟩
    obtain ⟨st1, hrs, hcur1, hst1, hsec1, hhd1, hcode1⟩ := hstep
    have hrest : ∀ i, i < rest.length →
        pyStarts hashStr (rest.getD i []) = false ∨
        fenceParity st1.code (rest.take (i + 1)) = true := by
      intro i hi
      rcases hyp (i + 1) (by simpa using Nat.succ_lt_succ hi) with h | h
      · left
        simpa using h
      · right
        rw [hcode1]
        simpa [fenceParity] using h
    obtain ⟨st', hpr, hc', hs', hse', hh'⟩ := ih st1 hrest
    refine ⟨st', ?_, by rw [hc', hcur1], by rw [hs', hst1],
      by rw [hse', hsec1], by rw [hh', hhd1]⟩
    unfold parseRows
    rw [hrs]
    exact hpr

end MarkdownReader

namespace MarkdownReader

/-- A name the heading formatter and parser map to themselves: no `'#'`, no
newline, fixed by `strip`. -/
def cleanName (s : PyStr) : Bool :=
  s.all (fun c => (c != '#') && (c != '\n')) && (pyStrip s == s)

theorem cleanName_spec {s : PyStr} (h : cleanName s = true) :
    (∀ c ∈ s, c ≠ '#') ∧ (∀ c ∈ s, c ≠ '\n') ∧ pyStrip s = s := by
  simp only [cleanName, Bool.and_eq_true, List.all_eq_true, beq_iff_eq,
    bne_iff_ne] at h
  exact ⟨fun c hc => (h.1 c hc).1, fun c hc => (h.1 c hc).2, h.2⟩

theorem filter_hash_of_clean {s : PyStr} (h : ∀ c ∈ s, c ≠ '#') :
    s.filter (fun c => c ≠ '#') = s := by
  rw [List.filter_eq_self]
  intro a ha
  simpa using h a ha

end MarkdownReader

namespace MarkdownReader

theorem length_hashes (l : Nat) : (hashes l).length = l := by
  induction l with
  | zero => rfl
  | succ n ih => simp [hashes, ih]

theorem takeWhile_hashes (l : Nat) (rest : PyStr) :
    (hashes l ++ ' ' :: rest).takeWhile (fun c => c = '#') = hashes l := by
  induction l with
  | zero => simp [hashes, List.takeWhile]
  | succ n ih => simp [hashes, List.takeWhile, ih]

theorem filter_hashes (l : Nat) (x : PyStr) :
    (hashes l ++ x).filter (fun c => c ≠ '#') = x.filter (fun c => c ≠ '#') := by
  induction l with
  | zero => rfl
  | succ n ih =>
    simp only [hashes, List.cons_append]
    rw [List.filter_cons_of_neg (by simp)]
    exact ih

/-- A heading row emitted by the formatter parses back to its level and
name. -/
theorem level_and_name_row {lvl : Nat} {nm : PyStr}
    (hcl : cleanName nm = true) :
    level_and_name (hashes lvl ++ ' ' :: (nm ++ ['\n'])) = (lvl, nm) := by
  obtain ⟨hnh, _, hst⟩ := cleanName_spec hcl
  unfold level_and_name
  rw [takeWhile_hashes, length_hashes, filter_hashes]
  have hfil : (' ' :: (nm ++ ['\n'])).filter (fun c => c ≠ '#')
      = ' ' :: (nm ++ ['\n']) := by
    rw [List.filter_eq_self]
    intro a ha
    simp only [ne_eq, decide_not, Bool.not_eq_true', decide_eq_false_iff_not]
    intro heq
    subst heq
    simp only [List.mem_cons, List.mem_append] at ha
    rcases ha with h | h | h
    · exact absurd h (by decide)
    · exact hnh '#' h rfl
    · simp at h
  rw [hfil]
  have hwrap := @pyStrip_wrap _ hst [' '] ['\n']
    (by intro c hc; simp at hc; subst hc; rfl)
    (by intro c hc; simp at hc; subst hc; rfl)
  simpa using hwrap

end MarkdownReader

namespace MarkdownReader

theorem hash_starts_hashes {lvl : Nat} (h : 1 ≤ lvl) (rest : PyStr) :
    pyStarts hashStr (hashes lvl ++ rest) = true := by
  cases lvl with
  | zero => omega
  | succ n => simp [hashes, pyStarts, hashStr, pys, List.isPrefixOf]

/-- C5 (amended): parsing a text with no heading line at all (every row
either does not start with `'#'` or lies inside a fenced region) does not
fail: it synthesizes a root named after the title-cased document name, but
the root's content is empty — the input text is discarded, not kept as the
root's content — and the registry holds exactly that root.  (The first
allocated node is the placeholder the `except` branch constructs before
`save` re-parses; it is unreachable.) -/
theorem c5_amended (docName text : PyStr)
    (hnh : ∀ i, i < (pySplitKeep text).length →
      pyStarts hashStr ((pySplitKeep text).getD i []) = false ∨
      fenceParity false ((pySplitKeep text).take (i + 1)) = true)
    (hcl : cleanName (pyTitle docName) = true) :
    initDoc docName text =
      (none, ⟨[⟨pyTitle docName, 1, none, [], [], []⟩,
               ⟨pyTitle docName, 1, none, [], [], []⟩], some 1,
              [(pyTitle docName, 1)],
              '#' :: ' ' :: (pyTitle docName ++ ['\n', '\n']), docName⟩) := by
  obtain ⟨hnhash, hnnl, hstrip⟩ := cleanName_spec hcl
  unfold initDoc refreshTree refreshTreeCore
  obtain ⟨st, hpr, hcur, hst, hsec, hhd⟩ :=
    parseRows_no_heading ([] : List (PyStr × Nat)) (pySplitKeep text)
      (⟨[], [], none, none, [], false⟩ : PSt) (by simpa using hnh)
  simp only at hpr ⊢
  rw [hpr]
  simp only [hcur, docOf]
  simp only [hst, hsec, hhd]
  simp only [List.nil_append, List.length_nil]
  -- the formatter of the placeholder root
  have hmk : mkFormatter (⟨[⟨pyTitle docName, 1, none, [], [], []⟩], some 0,
      [], text, docName⟩ : Doc) =
      .ok ('#' :: ' ' :: (pyTitle docName ++ ['\n', '\n'])) := by
    simp [mkFormatter, makeContent, getN, hashes, pure, Except.pure]
  rw [hmk]
  simp only
  -- rows of the synthesized text
  have hrows : pySplitKeep ('#' :: ' ' :: (pyTitle docName ++ ['\n', '\n']))
      = [('#' :: ' ' :: pyTitle docName) ++ ['\n'], ['\n']] := by
    have hsh : ∀ c ∈ '#' :: ' ' :: pyTitle docName, c ≠ '\n' := by
      intro c hc
      simp only [List.mem_cons] at hc
      rcases hc with h | h | hc
      · subst h; decide
      · subst h; decide
      · exact hnnl c hc
    have := splitKeepAux_no_nl ('#' :: ' ' :: pyTitle docName) ['\n'] [] hsh
    unfold pySplitKeep
    have hshape : '#' :: ' ' :: (pyTitle docName ++ ['\n', '\n'])
        = ('#' :: ' ' :: pyTitle docName) ++ '\n' :: ['\n'] := by simp
    rw [hshape, this]
    simp [pySplitKeepAux]
  rw [hrows]
  -- the inner parse: one heading row, one blank row
  have hrow1 : ('#' :: ' ' :: pyTitle docName) ++ ['\n']
      = hashes 1 ++ ' ' :: (pyTitle docName ++ ['\n']) := by
    simp [hashes]
  have hln : level_and_name (('#' :: ' ' :: pyTitle docName) ++ ['\n'])
      = (1, pyTitle docName) := by
    rw [hrow1]
    exact level_and_name_row hcl
  have hhash1 : pyStarts hashStr (('#' :: ' ' :: pyTitle docName) ++ ['\n'])
      = true := by
    simp [pyStarts, hashStr, pys, List.isPrefixOf]
  have hfence1 : pyStarts fenceStr (('#' :: ' ' :: pyTitle docName) ++ ['\n'])
      = false := hash_not_fence hhash1
  simp only [parseRows, rowStep, hfence1, hhash1, Bool.not_false,
    Bool.and_true, if_true, if_false, Bool.false_eq_true]
  simp only [processSection, hln, dlookup]
  simp only [List.length_singleton, updN, getN, List.set]
  simp [pyStarts, fenceStr, hashStr, pys, List.isPrefixOf, parseRows, rowStep,
    dinsert, pyStrip, isPySpace, List.dropWhile, docOf]

/-- C5, witness: `c5_amended` applied to the document `"test"` with body
`"hello\n"`. -/
theorem c5_witness :
    initDoc (pys "test") (pys "hello\n") =
      (none, ⟨[⟨pys "Test", 1, none, [], [], []⟩,
               ⟨pys "Test", 1, none, [], [], []⟩], some 1,
              [(pys "Test", 1)],
              '#' :: ' ' :: (pys "Test" ++ ['\n', '\n']), pys "test"⟩) :=
  c5_amended (pys "test") (pys "hello\n") (by decide) (by decide)

end MarkdownReader

namespace MarkdownReader

/-! ## Well-formed document states

A state is well formed when the registry lists exactly the nodes reachable
from the header in preorder, each node's name is clean, every content has
balanced fences with heading-like lines only inside them, levels are
consecutive and parent links match.  All checks are fuel-recursive Bool
functions so that they can be evaluated on concrete states.
-/

/-- Scan rows with the fence toggle, reporting whether no row is a heading
row outside a fence, and the final fence parity. -/
def rowsScan : Bool → List PyStr → Bool × Bool
  | code, [] => (true, code)
  | code, r :: rest =>
    let code' := if pyStarts fenceStr r then !code else code
    let bad := pyStarts hashStr r && !code'
    let s := rowsScan code' rest
    (!bad && s.1, s.2)

/-- A content string fit for lossless round-tripping: fixed by `strip`, and
its rows (terminated by a final newline) contain no heading row outside a
fence and leave the fence toggle off. -/
def okContent (ct : PyStr) : Bool :=
  (pyStrip ct == ct) &&
  ((rowsScan false (pySplitKeep (ct ++ ['\n']))).1 &&
   !(rowsScan false (pySplitKeep (ct ++ ['\n']))).2)

/-- Structural well-formedness of the subtree at `i`: the node exists, has
the expected level and parent, a clean name, lossless content, and children
recorded under their own names, each well formed one level deeper. -/
def wfT (σ : Store) : Nat → Nat → Nat → Option Nat → Bool
  | 0, _, _, _ => false
  | f + 1, i, lvl, par =>
    decide (i < σ.length) && decide (1 ≤ lvl) && decide (lvl ≤ σ.length) &&
    ((getN σ i).level == lvl) &&
    ((getN σ i).parent == par) &&
    cleanName (getN σ i).name &&
    okContent (getN σ i).content &&
    decide ((dkeys (getN σ i).children).Nodup) &&
    (getN σ i).children.all (fun kv =>
      (kv.1 == (getN σ kv.2).name) && wfT σ f kv.2 (lvl + 1) (some i))

/-- The preorder listing of (name, id) pairs of the subtree at `i`. -/
def preo (σ : Store) : Nat → Nat → List (PyStr × Nat)
  | 0, _ => []
  | f + 1, i =>
    ((getN σ i).name, i) ::
      (getN σ i).children.foldr (fun kv acc => preo σ f kv.2 ++ acc) []

/-- The rows the formatter emits for the subtree at `i` (heading row, blank
separator, content rows when non-empty, then the children). -/
def emitRows (σ : Store) : Nat → Nat → List PyStr
  | 0, _ => []
  | f + 1, i =>
    let n := getN σ i
    (hashes n.level ++ ' ' :: (n.name ++ ['\n'])) ::
      (if n.content.isEmpty then [['\n']]
       else ['\n'] :: (pySplitKeep (n.content ++ ['\n']) ++ [['\n']])) ++
      n.children.foldr (fun kv acc => emitRows σ f kv.2 ++ acc) []

/-- Well-formed document: a header exists, its subtree is well formed, the
preorder names are pairwise distinct, the registry is exactly the preorder
listing, and the serialized text is synchronized with the tree. -/
def wfDoc (d : Doc) : Bool :=
  match d.header with
  | none => false
  | some h =>
    wfT d.store (d.store.length + 1) h 1 none &&
    ((preo d.store (d.store.length + 1) h).map Prod.fst).Nodup &&
    (d.sec == preo d.store (d.store.length + 1) h) &&
    (mkFormatter d == .ok d.fm)

/-- Ancestor relation along parent links with strictly consecutive levels:
`Asc σ p c` holds when following parents from `c` reaches `p`, each step
going up exactly one level. -/
inductive Asc (σ : Store) : Nat → Nat → Prop
  | refl (c : Nat) : Asc σ c c
  | step {p c c' : Nat} : (getN σ c).parent = some c' →
      (getN σ c').level + 1 = (getN σ c).level → Asc σ p c' → Asc σ p c

/-- Stores equal up to stripping of contents: every node agrees on name,
level, parent, children and meta, and its content is the original or its
stripped form. -/
def CtEq (σ σ0 : Store) : Prop :=
  σ.length = σ0.length ∧
  ∀ j, (getN σ j).name = (getN σ0 j).name ∧
    (getN σ j).level = (getN σ0 j).level ∧
    (getN σ j).parent = (getN σ0 j).parent ∧
    (getN σ j).children = (getN σ0 j).children ∧
    (getN σ j).meta = (getN σ0 j).meta ∧
    ((getN σ j).content = (getN σ0 j).content ∨
     (getN σ j).content = pyStrip (getN σ0 j).content)

end MarkdownReader

namespace MarkdownReader

theorem ctEq_refl (σ : Store) : CtEq σ σ :=
  ⟨rfl, fun j => ⟨rfl, rfl, rfl, rfl, rfl, Or.inl rfl⟩⟩

theorem asc_level_le {σ : Store} {p c : Nat} (h : Asc σ p c) :
    (getN σ p).level ≤ (getN σ c).level := by
  induction h with
  | refl => exact Nat.le_refl _
  | step hpar hlvl _ ih => omega

theorem asc_eq_of_level {σ : Store} {p c : Nat} (h : Asc σ p c)
    (hl : (getN σ p).level = (getN σ c).level) : p = c := by
  cases h with
  | refl => rfl
  | step hpar hlvl hasc =>
    have := asc_level_le hasc
    omega

theorem asc_trans {σ : Store} {p q c : Nat} (h1 : Asc σ p q)
    (h2 : Asc σ q c) : Asc σ p c := by
  induction h2 with
  | refl => exact h1
  | step hpar hlvl _ ih => exact Asc.step hpar hlvl ih

/-- `walkUp` only reads levels and parents, so it is stable under `CtEq`. -/
theorem walkUp_ctEq {σ σ0 : Store} (h : CtEq σ σ0) :
    ∀ (fuel c lvl : Nat), walkUp σ fuel c lvl = walkUp σ0 fuel c lvl := by
  intro fuel
  induction fuel with
  | zero => intro c lvl; rfl
  | succ f ih =>
    intro c lvl
    unfold walkUp
    rw [(h.2 c).2.1, (h.2 c).2.2.1]
    cases (getN σ0 c).parent with
    | none => rfl
    | some q => by_cases hq : (getN σ0 c).level + 1 = lvl <;> simp [hq, ih]

/-- The ancestor walk of `process_section` lands on the ancestor one level
above the new heading. -/
theorem walkUp_asc : ∀ (fuel : Nat) {σ : Store} {p c lvl : Nat},
    Asc σ p c → (getN σ p).level + 1 = lvl →
    (getN σ c).level + 1 - lvl < fuel → walkUp σ fuel c lvl = .ok p := by
  intro fuel
  induction fuel with
  | zero =>
    intro σ p c lvl _ _ h
    omega
  | succ f ih =>
    intro σ p c lvl hasc hp hf
    cases hasc with
    | refl =>
      unfold walkUp
      rw [if_pos hp]
    | step hpar hlvl hasc2 =>
      rename_i c2
      unfold walkUp
      have hle := asc_level_le hasc2
      rw [if_neg (by omega), hpar]
      exact ih hasc2 hp (by omega)

theorem flatten_splitKeepAux (s acc : PyStr) :
    (pySplitKeepAux s acc).flatten = acc.reverse ++ s := by
  induction s generalizing acc with
  | nil =>
    by_cases h : acc.isEmpty = true
    · simp [pySplitKeepAux, h, List.isEmpty_iff.mp h]
    · simp [pySplitKeepAux, h]
  | cons c rest ih =>
    by_cases h : c = '\n'
    · subst h
      simp [pySplitKeepAux, ih, List.flatten]
    · simp [pySplitKeepAux, h, ih]

theorem flatten_splitKeep (s : PyStr) : (pySplitKeep s).flatten = s := by
  simpa using flatten_splitKeepAux s []

/-- Rows produced by `splitlines(keepends=True)` on a newline-terminated
string: each row is a newline-free body followed by one newline. -/
theorem splitKeepAux_goodRows :
    ∀ (s acc : PyStr), (∀ c ∈ acc, c ≠ '\n') →
    (s.getLast? = some '\n' ∨ (s = [] ∧ acc = [])) →
    ∀ r ∈ pySplitKeepAux s acc,
      ∃ b, r = b ++ ['\n'] ∧ ∀ c ∈ b, c ≠ '\n' := by
  intro s
  induction s with
  | nil =>
    intro acc hacc hend r hr
    rcases hend with h | h
    · simp at h
    · rw [h.2] at hr
      simp [pySplitKeepAux] at hr
  | cons c rest ih =>
    intro acc hacc hend r hr
    have hend' : (c :: rest).getLast? = some '\n' := by
      rcases hend with h | h
      · exact h
      · cases h.1
    by_cases h : c = '\n'
    · subst h
      simp only [pySplitKeepAux, if_pos rfl] at hr
      rcases List.mem_cons.mp hr with h1 | h1
      · exact ⟨acc.reverse, h1, fun x hx => hacc x (by simpa using hx)⟩
      · refine ih [] (by simp) ?_ r h1
        cases hrest : rest with
        | nil => exact Or.inr ⟨rfl, rfl⟩
        | cons a b =>
          left
          rw [hrest] at hend'
          rwa [List.getLast?_cons_cons] at hend'
    · simp only [pySplitKeepAux, if_neg h] at hr
      refine ih (c :: acc) ?_ ?_ r hr
      · intro x hx
        rcases List.mem_cons.mp hx with h1 | h1
        · subst h1; exact h
        · exact hacc x h1
      · cases hrest : rest with
        | nil =>
          rw [hrest] at hend'
          simp at hend'
          exact absurd hend' h
        | cons a b =>
          left
          rw [hrest] at hend'
          rwa [List.getLast?_cons_cons] at hend'

theorem splitKeep_goodRows {s : PyStr} (h : s.getLast? = some '\n') :
    ∀ r ∈ pySplitKeep s, ∃ b, r = b ++ ['\n'] ∧ ∀ c ∈ b, c ≠ '\n' :=
  splitKeepAux_goodRows s [] (by simp) (Or.inl h)

end MarkdownReader

namespace MarkdownReader

theorem splitKeepAux_step_nl (s acc2 : PyStr) :
    pySplitKeepAux ('\n' :: s) acc2
      = (acc2.reverse ++ ['\n']) :: pySplitKeepAux s [] := by
  simp [pySplitKeepAux]

theorem splitKeepAux_step_other {c : Char} (h : c ≠ '\n')
    (s acc2 : PyStr) :
    pySplitKeepAux (c :: s) acc2 = pySplitKeepAux s (c :: acc2) := by
  simp [pySplitKeepAux, h]

theorem splitKeepAux_append_nl :
    ∀ (a b acc : PyStr), a.getLast? = some '\n' →
    pySplitKeepAux (a ++ b) acc = pySplitKeepAux a acc ++ pySplitKeepAux b [] := by
  intro a
  induction a with
  | nil =>
    intro b acc h
    simp at h
  | cons c rest ih =>
    intro b acc h
    by_cases hc : c = '\n'
    · subst hc
      cases hrest : rest with
      | nil =>
        simp [pySplitKeepAux]
      | cons x y =>
        rw [hrest] at h
        rw [List.getLast?_cons_cons] at h
        rw [List.cons_append, splitKeepAux_step_nl, splitKeepAux_step_nl]
        rw [← hrest] at h ⊢
        rw [ih b [] h]
        simp
    · cases hrest : rest with
      | nil =>
        rw [hrest] at h
        simp at h
        exact absurd h hc
      | cons x y =>
        rw [hrest] at h
        rw [List.getLast?_cons_cons] at h
        rw [List.cons_append, splitKeepAux_step_other hc,
          splitKeepAux_step_other hc]
        rw [← hrest] at h ⊢
        exact ih b (c :: acc) h

theorem splitKeep_append_nl {a : PyStr} (b : PyStr)
    (h : a.getLast? = some '\n') :
    pySplitKeep (a ++ b) = pySplitKeep a ++ pySplitKeep b :=
  splitKeepAux_append_nl a b [] h

theorem splitKeep_flatten_good :
    ∀ (rows : List PyStr),
    (∀ r ∈ rows, ∃ b, r = b ++ ['\n'] ∧ ∀ c ∈ b, c ≠ '\n') →
    pySplitKeep rows.flatten = rows := by
  intro rows
  induction rows with
  | nil => intro _; rfl
  | cons r rest ih =>
    intro hg
    obtain ⟨b, hb, hbnl⟩ := hg r (List.mem_cons_self r rest)
    rw [List.flatten_cons, hb]
    unfold pySplitKeep
    rw [List.append_assoc, List.singleton_append,
      splitKeepAux_no_nl b rest.flatten [] hbnl]
    simp only [List.reverse_nil, List.nil_append]
    rw [show pySplitKeepAux rest.flatten [] = pySplitKeep rest.flatten from rfl,
      ih (fun r2 h2 => hg r2 (List.mem_cons_of_mem r h2))]

theorem parseRows_append (M : List (PyStr × Nat)) :
    ∀ (a b : List PyStr) (st : PSt),
    parseRows M (a ++ b) st =
      match parseRows M a st with
      | (some e, st1) => (some e, st1)
      | (none, st1) => parseRows M b st1 := by
  intro a
  induction a with
  | nil => intro b st; rfl
  | cons row rest ih =>
    intro b st
    simp only [List.cons_append, parseRows]
    cases hrs : rowStep M st row with
    | mk e st1 =>
      cases e with
      | some e0 => rfl
      | none => exact ih b st1

end MarkdownReader

namespace MarkdownReader

theorem dinsert_eq_of_lookup {β : Type} {d : List (PyStr × β)} {k : PyStr}
    {v : β} (h : dlookup d k = some v) : dinsert d k v = d := by
  induction d with
  | nil => simp [dlookup] at h
  | cons p rest ih =>
    obtain ⟨k0, v0⟩ := p
    by_cases h0 : k0 = k
    · subst h0
      have hv : some v0 = some v := by simpa [dlookup] using h
      obtain rfl : v0 = v := by injection hv
      simp [dinsert]
    · simp only [dlookup, if_neg h0] at h
      simp [dinsert, h0, ih h]

theorem dinsert_append_fresh {β : Type} {d : List (PyStr × β)} {k : PyStr}
    (v : β) (h : dmem d k = false) : dinsert d k v = d ++ [(k, v)] := by
  induction d with
  | nil => simp [dinsert]
  | cons p rest ih =>
    obtain ⟨k0, v0⟩ := p
    by_cases h0 : k0 = k
    · subst h0
      simp [dmem, dlookup] at h
    · simp only [dmem, dlookup, if_neg h0] at h
      simp [dinsert, h0, ih h]

theorem dlookup_append {β : Type} (a b : List (PyStr × β)) (k : PyStr) :
    dlookup (a ++ b) k =
      match dlookup a k with
      | some v => some v
      | none => dlookup b k := by
  induction a with
  | nil => simp [dlookup]
  | cons p rest ih =>
    obtain ⟨k0, v0⟩ := p
    by_cases h0 : k0 = k <;> simp [dlookup, h0, ih]

theorem dmem_append {β : Type} (a b : List (PyStr × β)) (k : PyStr) :
    dmem (a ++ b) k = (dmem a k || dmem b k) := by
  unfold dmem
  rw [dlookup_append]
  cases h : dlookup a k <;> simp [h]

theorem lookup_of_mem_nodup {β : Type} {d : List (PyStr × β)}
    {k : PyStr} {v : β} (hm : (k, v) ∈ d) (hnd : (dkeys d).Nodup) :
    dlookup d k = some v := by
  induction d with
  | nil => simp at hm
  | cons p rest ih =>
    obtain ⟨k0, v0⟩ := p
    simp only [dkeys, List.map_cons, List.nodup_cons] at hnd
    rcases List.mem_cons.mp hm with h | h
    · injection h with h1 h2
      subst h1
      subst h2
      simp [dlookup]
    · have hk0 : k0 ≠ k := by
        intro he
        subst he
        exact hnd.1 (List.mem_map_of_mem Prod.fst h)
      simp only [dlookup, if_neg hk0]
      exact ih h hnd.2

theorem dpop_sublist {β : Type} (d : List (PyStr × β)) (k : PyStr) :
    (dpop d k).Sublist d := by
  induction d with
  | nil => simp [dpop]
  | cons p rest ih =>
    obtain ⟨k0, v0⟩ := p
    by_cases h0 : k0 = k
    · simp only [dpop, if_pos h0]
      exact (List.sublist_cons_self _ _)
    · simp only [dpop, if_neg h0]
      exact ih.cons₂ _

theorem mem_foldr_append {α β : Type} (g : α → List β) :
    ∀ (l : List α) (x : β),
    x ∈ l.foldr (fun a acc => g a ++ acc) [] ↔ ∃ a ∈ l, x ∈ g a := by
  intro l
  induction l with
  | nil => simp
  | cons a rest ih =>
    intro x
    simp [List.mem_append, ih]

end MarkdownReader

namespace MarkdownReader

theorem rowsScan_append (b : Bool) (a c : List PyStr) :
    rowsScan b (a ++ c) =
      ((rowsScan b a).1 && (rowsScan (rowsScan b a).2 c).1,
       (rowsScan (rowsScan b a).2 c).2) := by
  induction a generalizing b with
  | nil => simp [rowsScan]
  | cons r rest ih =>
    simp only [List.cons_append, rowsScan, List.append_eq, ih, Bool.and_assoc]

theorem rowsScan_ok_positions :
    ∀ (rows : List PyStr) (b : Bool), (rowsScan b rows).1 = true →
    ∀ i, i < rows.length → pyStarts hashStr (rows.getD i []) = false ∨
      fenceParity b (rows.take (i + 1)) = true := by
  intro rows
  induction rows with
  | nil => intro b _ i hi; simp at hi
  | cons r rest ih =>
    intro b hok i hi
    simp only [rowsScan, Bool.and_eq_true, Bool.not_eq_true'] at hok
    cases i with
    | zero =>
      by_cases hh : pyStarts hashStr r = true
      · right
        have h1 := hok.1
        rw [hh] at h1
        simp only [Bool.true_and] at h1
        have h2 : (if pyStarts fenceStr r then !b else b) = true := by
          simpa using h1
        simp [fenceParity, h2]
      · left
        simpa using hh
    | succ j =>
      rcases ih (if pyStarts fenceStr r then !b else b) hok.2 j
          (by simpa using Nat.lt_of_succ_lt_succ hi) with h | h
      · left
        simpa using h
      · right
        simpa [fenceParity] using h

/-- Strengthened form of the no-heading lemma: the loop appends the rows to
the pending content and tracks the fence parity, touching nothing else. -/
theorem parseRows_content (M : List (PyStr × Nat)) :
    ∀ (rows : List PyStr) (st : PSt),
    (∀ i, i < rows.length → pyStarts hashStr (rows.getD i []) = false ∨
      fenceParity st.code (rows.take (i + 1)) = true) →
    ∃ st', parseRows M rows st = (none, st') ∧ st'.current = st.current ∧
      st'.store = st.store ∧ st'.sec = st.sec ∧ st'.header = st.header ∧
      st'.content = st.content ++ rows.flatten ∧
      st'.code = fenceParity st.code rows := by
  intro rows
  induction rows with
  | nil =>
    intro st _
    exact ⟨st, rfl, rfl, rfl, rfl, rfl, by simp, by simp [fenceParity]⟩
  | cons row rest ih =>
    intro st hyp
    have h0 := hyp 0 (by simp)
    have hstep : ∃ st1, rowStep M st row = (none, st1) ∧
        st1.current = st.current ∧ st1.store = st.store ∧
        st1.sec = st.sec ∧ st1.header = st.header ∧
        st1.content = st.content ++ row ∧
        st1.code = (if pyStarts fenceStr row then !st.code else st.code) := by
      by_cases hh : pyStarts hashStr row = true
      · have hpar : fenceParity st.code ((row :: rest).take 1) = true := by
          rcases h0 with h0 | h0
          · simp only [List.getD, List.get?, Option.getD] at h0
            rw [hh] at h0
            cases h0
          · exact h0
        have hfence : pyStarts fenceStr row = false := hash_not_fence hh
        have hcode : st.code = true := by
          simpa [fenceParity, hfence] using hpar
        refine ⟨_, rowStep_heading_fenced hh hcode, rfl, rfl, rfl, rfl, rfl, ?_⟩
        simp [hfence]
      · have hh2 : pyStarts hashStr row = false := by simpa using hh
        refine ⟨_, rowStep_not_heading hh2, rfl, rfl, rfl, rfl, rfl, rfl⟩
    obtain ⟨st1, hrs, hcur1, hst1, hsec1, hhd1, hct1, hcode1⟩ := hstep
    have hrest : ∀ i, i < rest.length →
        pyStarts hashStr (rest.getD i []) = false ∨
        fenceParity st1.code (rest.take (i + 1)) = true := by
      intro i hi
      rcases hyp (i + 1) (by simpa using Nat.succ_lt_succ hi) with h | h
      · left
        simpa using h
      · right
        rw [hcode1]
        simpa [fenceParity] using h
    obtain ⟨st', hpr, hc', hs', hse', hh', hcc', hcd'⟩ := ih st1 hrest
    refine ⟨st', ?_, by rw [hc', hcur1], by rw [hs', hst1],
      by rw [hse', hsec1], by rw [hh', hhd1], ?_, ?_⟩
    · unfold parseRows
      rw [hrs]
      exact hpr
    · rw [hcc', hct1]
      simp
    · rw [hcd', hcode1]
      simp [fenceParity]

end MarkdownReader

namespace MarkdownReader

theorem wfT_succ {σ : Store} {f i lvl : Nat} {par : Option Nat}
    (h : wfT σ (f + 1) i lvl par = true) :
    i < σ.length ∧ 1 ≤ lvl ∧ lvl ≤ σ.length ∧
    (getN σ i).level = lvl ∧ (getN σ i).parent = par ∧
    cleanName (getN σ i).name = true ∧ okContent (getN σ i).content = true ∧
    (dkeys (getN σ i).children).Nodup ∧
    ∀ kv ∈ (getN σ i).children, kv.1 = (getN σ kv.2).name ∧
      wfT σ f kv.2 (lvl + 1) (some i) = true := by
  simp only [wfT, Bool.and_eq_true, decide_eq_true_eq, beq_iff_eq,
    List.all_eq_true] at h
  obtain ⟨⟨⟨⟨⟨⟨⟨⟨h1, h2⟩, h3⟩, h4⟩, h5⟩, h6⟩, h7⟩, hnd⟩, h8⟩ := h
  refine ⟨h1, h2, h3, h4, h5, h6, h7, hnd, fun kv hkv => ?_⟩
  have := h8 kv hkv
  simp only [Bool.and_eq_true, beq_iff_eq] at this
  exact this

theorem foldlM_emit {σ : Store} {f : Nat} :
    ∀ (l : List (PyStr × Nat)) (base : PyStr),
    (∀ kv ∈ l, makeContent σ f kv.2 = .ok (emitRows σ f kv.2).flatten) →
    l.foldlM (fun acc kv => (makeContent σ f kv.2).map (fun s => acc ++ s)) base
      = .ok (base ++ (l.foldr (fun kv acc => emitRows σ f kv.2 ++ acc) []).flatten) := by
  intro l
  induction l with
  | nil => intro base _; simp; rfl
  | cons kv rest ih =>
    intro base hall
    rw [List.foldlM_cons, hall kv (List.mem_cons_self kv rest)]
    show List.foldlM
        (fun acc kv => (makeContent σ f kv.2).map (fun s => acc ++ s))
        (base ++ (emitRows σ f kv.2).flatten) rest =
      Except.ok (base ++
        (List.foldr (fun kv acc => emitRows σ f kv.2 ++ acc) []
          (kv :: rest)).flatten)
    rw [ih (base ++ (emitRows σ f kv.2).flatten)
      (fun kv2 h2 => hall kv2 (List.mem_cons_of_mem kv h2))]
    simp [List.append_assoc]

theorem makeContent_emit :
    ∀ (f : Nat) {σ : Store} {i lvl : Nat} {par : Option Nat},
    wfT σ f i lvl par = true →
    makeContent σ f i = .ok (emitRows σ f i).flatten := by
  intro f
  induction f with
  | zero => intro σ i lvl par h; simp [wfT] at h
  | succ f ih =>
    intro σ i lvl par h
    obtain ⟨_, _, _, _, _, _, _, _, hch⟩ := wfT_succ h
    have hall : ∀ kv ∈ (getN σ i).children,
        makeContent σ f kv.2 = .ok (emitRows σ f kv.2).flatten :=
      fun kv hkv => ih (hch kv hkv).2
    unfold makeContent
    rw [foldlM_emit (getN σ i).children _ hall]
    have hemit : emitRows σ (f + 1) i =
        (hashes (getN σ i).level ++ ' ' :: ((getN σ i).name ++ ['\n'])) ::
        ((if (getN σ i).content.isEmpty then [['\n']]
          else ['\n'] :: (pySplitKeep ((getN σ i).content ++ ['\n']) ++ [['\n']])) ++
         (getN σ i).children.foldr (fun kv acc => emitRows σ f kv.2 ++ acc) []) := rfl
    rw [hemit]
    by_cases hct : (getN σ i).content.isEmpty
    · have hc0 : (getN σ i).content = [] := by simpa using hct
      simp [hc0, List.append_assoc]
    · have hct2 : (getN σ i).content.isEmpty = false := by
        simpa using hct
      simp [hct2, flatten_splitKeep, List.append_assoc]

end MarkdownReader

namespace MarkdownReader

theorem rowsScan_snd : ∀ (rows : List PyStr) (b : Bool),
    (rowsScan b rows).2 = fenceParity b rows := by
  intro rows
  induction rows with
  | nil => intro b; simp [rowsScan, fenceParity]
  | cons r rest ih => intro b; simp [rowsScan, fenceParity, ih]

theorem okContent_spec {ct : PyStr} (h : okContent ct = true) :
    pyStrip ct = ct ∧ (rowsScan false (pySplitKeep (ct ++ ['\n']))).1 = true ∧
    (rowsScan false (pySplitKeep (ct ++ ['\n']))).2 = false := by
  simp only [okContent, Bool.and_eq_true, beq_iff_eq, Bool.not_eq_true'] at h
  exact ⟨h.1, h.2.1, h.2.2⟩

theorem mem_hashes {c : Char} : ∀ {n : Nat}, c ∈ hashes n → c = '#' := by
  intro n
  induction n with
  | zero => intro h; simp [hashes] at h
  | succ m ih =>
    intro h
    simp only [hashes, List.mem_cons] at h
    rcases h with h | h
    · exact h
    · exact ih h

/-- The rows the formatter emits between a heading row and the next heading:
a blank row, then (for non-empty content) the content's own rows followed by
another blank row. -/
def bodyRows (ct : PyStr) : List PyStr :=
  if ct.isEmpty then [['\n']]
  else ['\n'] :: (pySplitKeep (ct ++ ['\n']) ++ [['\n']])

theorem emitRows_succ (σ : Store) (f i : Nat) :
    emitRows σ (f + 1) i =
      (hashes (getN σ i).level ++ ' ' :: ((getN σ i).name ++ ['\n'])) ::
        (bodyRows (getN σ i).content ++
         (getN σ i).children.foldr (fun kv acc => emitRows σ f kv.2 ++ acc) []) := rfl

theorem bodyRows_scan {ct : PyStr} (h : okContent ct = true) :
    rowsScan false (bodyRows ct) = (true, false) := by
  obtain ⟨_, hs1, hs2⟩ := okContent_spec h
  unfold bodyRows
  by_cases hct : ct.isEmpty
  · rw [if_pos hct]
    decide
  · rw [if_neg hct]
    have hnl : rowsScan false [(['\n'] : PyStr)] = (true, false) := by decide
    have hsplit : (['\n'] : PyStr) :: (pySplitKeep (ct ++ ['\n']) ++ [['\n']]) =
        ([['\n']] ++ pySplitKeep (ct ++ ['\n'])) ++ [['\n']] := by simp
    rw [hsplit, rowsScan_append, rowsScan_append, hnl]
    simp [hs1, hs2, hnl]

theorem bodyRows_strip {ct : PyStr} (h : pyStrip ct = ct) :
    pyStrip (bodyRows ct).flatten = ct := by
  unfold bodyRows
  by_cases hct : ct.isEmpty
  · have hc0 : ct = [] := by simpa using hct
    subst hc0
    rw [if_pos (by simp)]
    decide
  · rw [if_neg hct]
    have hfl : ((['\n'] : PyStr) :: (pySplitKeep (ct ++ ['\n']) ++ [['\n']])).flatten =
        ['\n'] ++ ct ++ ['\n', '\n'] := by
      simp [flatten_splitKeep]
    rw [hfl]
    exact pyStrip_wrap h (by decide) (by decide)

theorem bodyRows_good (ct : PyStr) :
    ∀ r ∈ bodyRows ct, ∃ b, r = b ++ ['\n'] ∧ ∀ c ∈ b, c ≠ '\n' := by
  unfold bodyRows
  by_cases hct : ct.isEmpty
  · rw [if_pos hct]
    intro r hr
    simp at hr
    exact ⟨[], by simp [hr], by simp⟩
  · rw [if_neg hct]
    intro r hr
    simp only [List.mem_cons, List.mem_append, List.mem_singleton,
      List.not_mem_nil, or_false] at hr
    rcases hr with hr | hr | hr
    · exact ⟨[], by simp [hr], by simp⟩
    · exact splitKeep_goodRows (by simp) r hr
    · exact ⟨[], by simp [hr], by simp⟩

theorem emitRows_good : ∀ (f : Nat) {σ : Store} {i lvl : Nat}
    {par : Option Nat}, wfT σ f i lvl par = true →
    ∀ r ∈ emitRows σ f i, ∃ b, r = b ++ ['\n'] ∧ ∀ c ∈ b, c ≠ '\n' := by
  intro f
  induction f with
  | zero => intro σ i lvl par h; simp [wfT] at h
  | succ f ih =>
    intro σ i lvl par h r hr
    obtain ⟨_, _, _, _, _, hcl, _, _, hch⟩ := wfT_succ h
    rw [emitRows_succ] at hr
    simp only [List.mem_cons, List.mem_append] at hr
    rcases hr with hr | hr | hr
    · refine ⟨hashes (getN σ i).level ++ ' ' :: (getN σ i).name, by simp [hr],
        fun c hc => ?_⟩
      simp only [List.mem_append, List.mem_cons] at hc
      rcases hc with hc | hc | hc
      · rw [mem_hashes hc]; decide
      · subst hc; decide
      · exact (cleanName_spec hcl).2.1 c hc
    · exact bodyRows_good (getN σ i).content r hr
    · obtain ⟨kv, hkv, hrin⟩ := (mem_foldr_append _ _ r).mp hr
      exact ih (hch kv hkv).2 r hrin

theorem emitRows_splitKeep {σ : Store} {f i lvl : Nat} {par : Option Nat}
    (h : wfT σ f i lvl par = true) :
    pySplitKeep (emitRows σ f i).flatten = emitRows σ f i :=
  splitKeep_flatten_good _ (emitRows_good f h)

end MarkdownReader

namespace MarkdownReader

theorem attachTo_id {st : PSt} {σ : Store} {q i : Nat} {name : PyStr}
    (hi : i < σ.length) (hq : q < σ.length)
    (hpar : (getN σ i).parent = some q)
    (hqc : dlookup (getN σ q).children name = some i) :
    attachTo st σ q i name =
      (none, { st with store := σ, current := some i, sec := dinsert st.sec name i }) := by
  have hid1 : updN σ i (fun n => { n with parent := some q }) = σ := by
    apply updN_id σ hi
    show { getN σ i with parent := some q } = getN σ i
    rw [← hpar]
  have hid2 : updN σ q
      (fun n => { n with children := dinsert n.children name i }) = σ := by
    apply updN_id σ hq
    show { getN σ q with children := dinsert (getN σ q).children name i } =
      getN σ q
    rw [dinsert_eq_of_lookup hqc]
  simp only [attachTo, hid1, hid2]

theorem processSection_root {M : List (PyStr × Nat)} {st : PSt} {i : Nat}
    (hcur : st.current = none)
    (hM : dlookup M (getN st.store i).name = some i)
    (hi : i < st.store.length)
    (hlvl : (getN st.store i).level = 1)
    (hpar : (getN st.store i).parent = none)
    (hcl : cleanName (getN st.store i).name = true) :
    processSection M (hashes 1 ++ ' ' :: ((getN st.store i).name ++ ['\n'])) st
      = (none, { st with current := some i, header := some i, sec := dinsert st.sec (getN st.store i).name i }) := by
  have hid1 : updN st.store i (fun n => { n with level := (1 : Nat) })
      = st.store := by
    apply updN_id st.store hi
    show { getN st.store i with level := (1 : Nat) } = getN st.store i
    rw [← hlvl]
  have hid2 : updN st.store i (fun n => { n with parent := (none : Option Nat) })
      = st.store := by
    apply updN_id st.store hi
    show { getN st.store i with parent := (none : Option Nat) }
      = getN st.store i
    rw [← hpar]
  simp only [processSection, level_and_name_row hcl, hM, hcur, hid1, hid2,
    Option.isSome_none, Bool.false_eq_true, if_false, if_true]

end MarkdownReader

namespace MarkdownReader

theorem processSection_reattach {M : List (PyStr × Nat)} {st : PSt} {σ : Store}
    {i lvl q c0 : Nat}
    (hst : st.store = σ) (hcur : st.current = some c0)
    (hM : dlookup M (getN σ i).name = some i)
    (hi : i < σ.length) (hq : q < σ.length)
    (hlvl : (getN σ i).level = lvl) (hpar : (getN σ i).parent = some q)
    (hql : (getN σ q).level + 1 = lvl) (h2 : 2 ≤ lvl)
    (hasc : Asc σ q c0) (hc0 : (getN σ c0).level ≤ σ.length)
    (hqc : dlookup (getN σ q).children (getN σ i).name = some i)
    (hcl : cleanName (getN σ i).name = true) :
    processSection M (hashes lvl ++ ' ' :: ((getN σ i).name ++ ['\n'])) st =
      (none, { st with store := σ, current := some i, sec := dinsert st.sec (getN σ i).name i }) := by
  subst hst
  have hid1 : updN st.store i (fun n => { n with level := lvl }) = st.store := by
    apply updN_id st.store hi
    show { getN st.store i with level := lvl } = getN st.store i
    rw [← hlvl]
  have hne1 : lvl ≠ 1 := by omega
  simp only [processSection, level_and_name_row hcl, hM, hid1, hcur,
    if_neg hne1]
  by_cases hgt : lvl > (getN st.store c0).level
  · have hc0q : (getN st.store q).level = (getN st.store c0).level := by
      have := asc_level_le hasc
      omega
    have hqq : q = c0 := asc_eq_of_level hasc hc0q
    rw [if_pos hgt, if_neg (by omega : ¬(getN st.store c0).level + 1 ≠ lvl)]
    rw [← hqq]
    exact attachTo_id hi hq hpar hqc
  · rw [if_neg hgt]
    have hwu : walkUp st.store (st.store.length + 1) c0 lvl = .ok q :=
      walkUp_asc _ hasc hql (by omega)
    rw [hwu]
    exact attachTo_id hi hq hpar hqc

end MarkdownReader

namespace MarkdownReader

theorem dmem_false_of_not_mem {β : Type} {d : List (PyStr × β)} {k : PyStr}
    (h : k ∉ dkeys d) : dmem d k = false := by
  rw [dmem, dlookup_not_mem h]
  rfl

theorem flushSt_id {st : PSt} {c0 : Nat} (hcur : st.current = some c0)
    (hlt : c0 < st.store.length)
    (hfl : pyStrip st.content = (getN st.store c0).content) :
    flushSt st = st := by
  have hid : updN st.store c0
      (fun n => { n with content := pyStrip st.content }) = st.store := by
    apply updN_id st.store hlt
    show { getN st.store c0 with content := pyStrip st.content }
      = getN st.store c0
    rw [hfl]
  obtain ⟨sto, sec, cur, hdr, ct, cd⟩ := st
  dsimp only at hcur hid ⊢
  subst hcur
  simp only [flushSt, hid]

theorem rowStep_reattach {M : List (PyStr × Nat)} {st : PSt} {σ : Store}
    {i lvl q c0 : Nat}
    (hst : st.store = σ) (hcode : st.code = false)
    (hcur : st.current = some c0)
    (hfl : pyStrip st.content = (getN σ c0).content) (hc0lt : c0 < σ.length)
    (hM : dlookup M (getN σ i).name = some i)
    (hi : i < σ.length) (hq : q < σ.length)
    (hlvl : (getN σ i).level = lvl) (hpar : (getN σ i).parent = some q)
    (hql : (getN σ q).level + 1 = lvl) (h2 : 2 ≤ lvl)
    (hasc : Asc σ q c0) (hc0 : (getN σ c0).level ≤ σ.length)
    (hqc : dlookup (getN σ q).children (getN σ i).name = some i)
    (hcl : cleanName (getN σ i).name = true) :
    rowStep M st (hashes lvl ++ ' ' :: ((getN σ i).name ++ ['\n'])) =
      (none, { st with store := σ, current := some i, sec := dinsert st.sec (getN σ i).name i, content := [] }) := by
  rw [rowStep_heading (hash_starts_hashes (by omega) _) hcode]
  rw [flushSt_id hcur (by rw [hst]; exact hc0lt) (by rw [hst]; exact hfl)]
  rw [processSection_reattach hst hcur hM hi hq hlvl hpar hql h2 hasc hc0
    hqc hcl]

theorem rowStep_root {M : List (PyStr × Nat)} {st : PSt} {i : Nat}
    (hcode : st.code = false) (hcur : st.current = none)
    (hM : dlookup M (getN st.store i).name = some i)
    (hi : i < st.store.length)
    (hlvl : (getN st.store i).level = 1)
    (hpar : (getN st.store i).parent = none)
    (hcl : cleanName (getN st.store i).name = true) :
    rowStep M st (hashes 1 ++ ' ' :: ((getN st.store i).name ++ ['\n'])) =
      (none, { st with current := some i, header := some i, sec := dinsert st.sec (getN st.store i).name i, content := [] }) := by
  rw [rowStep_heading (hash_starts_hashes (by omega) _) hcode]
  have hfl : flushSt st = st := by
    unfold flushSt
    rw [hcur]
  rw [hfl, processSection_root hcur hM hi hlvl hpar hcl]

end MarkdownReader

namespace MarkdownReader

/-- Concatenated formatter rows of a list of (name, id) children. -/
def emitF (σ : Store) (f : Nat) (l : List (PyStr × Nat)) : List PyStr :=
  l.foldr (fun kv acc => emitRows σ f kv.2 ++ acc) []

/-- Concatenated preorder listings of a list of (name, id) children. -/
def preoF (σ : Store) (f : Nat) (l : List (PyStr × Nat)) :
    List (PyStr × Nat) :=
  l.foldr (fun kv acc => preo σ f kv.2 ++ acc) []

theorem emitRows_succF (σ : Store) (f i : Nat) :
    emitRows σ (f + 1) i =
      (hashes (getN σ i).level ++ ' ' :: ((getN σ i).name ++ ['\n'])) ::
        (bodyRows (getN σ i).content ++
         emitF σ f (getN σ i).children) := rfl

theorem preo_succF (σ : Store) (f i : Nat) :
    preo σ (f + 1) i =
      ((getN σ i).name, i) :: preoF σ f (getN σ i).children := rfl

/-- The induction hypothesis carried through the round-trip proof: parsing
the emitted rows of a well-formed subtree walks the parser across exactly
that subtree, leaving the heap untouched and appending the subtree's
preorder listing to the registry. -/
def NodeOK (f : Nat) : Prop :=
  ∀ (σ : Store) (M : List (PyStr × Nat)) (i lvl q c0 : Nat) (st : PSt),
    wfT σ f i lvl (some q) = true →
    q < σ.length → 1 ≤ (getN σ q).level → (getN σ q).level + 1 = lvl →
    Asc σ q c0 → c0 < σ.length → (getN σ c0).level ≤ σ.length →
    st.store = σ → st.code = false → st.current = some c0 →
    pyStrip st.content = (getN σ c0).content →
    (∀ kv ∈ preo σ f i, dlookup M kv.1 = some kv.2) →
    dlookup (getN σ q).children (getN σ i).name = some i →
    (dkeys st.sec ++ (preo σ f i).map Prod.fst).Nodup →
    ∃ st', parseRows M (emitRows σ f i) st = (none, st') ∧
      st'.store = σ ∧ st'.code = false ∧ st'.header = st.header ∧
      st'.sec = st.sec ++ preo σ f i ∧
      ∃ c1, st'.current = some c1 ∧ Asc σ q c1 ∧ c1 < σ.length ∧
        (getN σ c1).level ≤ σ.length ∧
        pyStrip st'.content = (getN σ c1).content

theorem forest_ok (f : Nat) (hP : NodeOK f) :
    ∀ (l : List (PyStr × Nat)) (σ : Store) (M : List (PyStr × Nat))
      (q lvl0 c0 : Nat) (st : PSt),
    (∀ kv ∈ l, kv.1 = (getN σ kv.2).name ∧
      wfT σ f kv.2 (lvl0 + 1) (some q) = true) →
    q < σ.length → (getN σ q).level = lvl0 → 1 ≤ lvl0 →
    (∀ kv ∈ l, dlookup (getN σ q).children kv.1 = some kv.2) →
    Asc σ q c0 → c0 < σ.length → (getN σ c0).level ≤ σ.length →
    st.store = σ → st.code = false → st.current = some c0 →
    pyStrip st.content = (getN σ c0).content →
    (∀ kv ∈ preoF σ f l, dlookup M kv.1 = some kv.2) →
    (dkeys st.sec ++ (preoF σ f l).map Prod.fst).Nodup →
    ∃ st', parseRows M (emitF σ f l) st = (none, st') ∧
      st'.store = σ ∧ st'.code = false ∧ st'.header = st.header ∧
      st'.sec = st.sec ++ preoF σ f l ∧
      ∃ c1, st'.current = some c1 ∧ Asc σ q c1 ∧ c1 < σ.length ∧
        (getN σ c1).level ≤ σ.length ∧
        pyStrip st'.content = (getN σ c1).content := by
  intro l
  induction l with
  | nil =>
    intro σ M q lvl0 c0 st _ _ _ _ _ hasc hc0lt hc0lvl hst hcode hcur hfl _ _
    refine ⟨st, rfl, hst, hcode, rfl, by simp [preoF], c0, hcur, hasc,
      hc0lt, hc0lvl, hfl⟩
  | cons kv rest ih =>
    intro σ M q lvl0 c0 st hl hq hlq hq1 hqc hasc hc0lt hc0lvl hst hcode
      hcur hfl HM HND
    have hkv := hl kv (List.mem_cons_self kv rest)
    have hpreo : preoF σ f (kv :: rest) = preo σ f kv.2 ++ preoF σ f rest :=
      rfl
    have hemit : emitF σ f (kv :: rest) = emitRows σ f kv.2 ++ emitF σ f rest :=
      rfl
    have hM1 : ∀ kv2 ∈ preo σ f kv.2, dlookup M kv2.1 = some kv2.2 :=
      fun kv2 h2 => HM kv2 (by rw [hpreo]; exact List.mem_append_left _ h2)
    have HND1 : (dkeys st.sec ++ (preo σ f kv.2).map Prod.fst).Nodup := by
      refine List.Nodup.sublist ?_ HND
      rw [hpreo, List.map_append, ← List.append_assoc]
      exact List.sublist_append_left _ _
    have hqc1 : dlookup (getN σ q).children (getN σ kv.2).name = some kv.2 := by
      rw [← hkv.1]
      exact hqc kv (List.mem_cons_self kv rest)
    obtain ⟨st1, hp1, hsto1, hcode1, hhd1, hsec1, c1, hcur1, hasc1, hlt1,
      hlvl1, hfl1⟩ :=
      hP σ M kv.2 (lvl0 + 1) q c0 st hkv.2 hq (by omega) (by omega) hasc
        hc0lt hc0lvl hst hcode hcur hfl hM1 hqc1 HND1
    have HND2 : (dkeys st1.sec ++ (preoF σ f rest).map Prod.fst).Nodup := by
      rw [hsec1]
      have : dkeys (st.sec ++ preo σ f kv.2) =
          dkeys st.sec ++ (preo σ f kv.2).map Prod.fst := by
        simp [dkeys]
      rw [this, List.append_assoc]
      rw [hpreo, List.map_append] at HND
      exact HND
    obtain ⟨st2, hp2, hsto2, hcode2, hhd2, hsec2, c2, hcur2, hasc2, hlt2,
      hlvl2, hfl2⟩ :=
      ih σ M q lvl0 c1 st1
        (fun kv2 h2 => hl kv2 (List.mem_cons_of_mem kv h2)) hq hlq hq1
        (fun kv2 h2 => hqc kv2 (List.mem_cons_of_mem kv h2)) hasc1 hlt1
        hlvl1 hsto1 hcode1 hcur1 hfl1
        (fun kv2 h2 => HM kv2 (by rw [hpreo]; exact List.mem_append_right _ h2))
        HND2
    refine ⟨st2, ?_, hsto2, hcode2, by rw [hhd2, hhd1], ?_, c2, hcur2,
      hasc2, hlt2, hlvl2, hfl2⟩
    · rw [hemit, parseRows_append, hp1]
      exact hp2
    · rw [hsec2, hsec1, hpreo, List.append_assoc]

end MarkdownReader

namespace MarkdownReader

theorem node_ok : ∀ f, NodeOK f := by
  intro f
  induction f with
  | zero =>
    intro σ M i lvl q c0 st hwf
    simp [wfT] at hwf
  | succ f ih =>
    intro σ M i lvl q c0 st hwf hq hq1 hql hasc hc0lt hc0lvl hst hcode hcur
      hfl HM hqc HND
    obtain ⟨hi, hlvl1, hlvlen, hlvl, hpar, hcl, hok, hchnd, hch⟩ :=
      wfT_succ hwf
    have hMhead : dlookup M (getN σ i).name = some i :=
      HM ((getN σ i).name, i)
        (by rw [preo_succF]; exact List.mem_cons_self _ _)
    have h2 : 2 ≤ lvl := by omega
    have hndR : (dkeys st.sec ++
        ((getN σ i).name :: (preoF σ f (getN σ i).children).map Prod.fst)).Nodup := by
      rw [preo_succF, List.map_cons] at HND
      exact HND
    have hfresh : dmem st.sec (getN σ i).name = false := by
      apply dmem_false_of_not_mem
      intro hmem
      have hd := (List.nodup_append.mp hndR).2.2
      exact hd hmem (List.mem_cons_self _ _)
    have hrow := rowStep_reattach hst hcode hcur hfl hc0lt hMhead hi hq hlvl
      hpar hql h2 hasc hc0lvl hqc hcl
    rw [dinsert_append_fresh i hfresh] at hrow
    have hstep : parseRows M
        ((hashes lvl ++ ' ' :: ((getN σ i).name ++ ['\n'])) ::
          (bodyRows (getN σ i).content ++ emitF σ f (getN σ i).children)) st
        = parseRows M
            (bodyRows (getN σ i).content ++ emitF σ f (getN σ i).children)
            { st with store := σ, current := some i, sec := st.sec ++ [((getN σ i).name, i)], content := [] } := by
      simp only [parseRows]
      rw [hrow]
    have hposA : ∀ j, j < (bodyRows (getN σ i).content).length →
        pyStarts hashStr ((bodyRows (getN σ i).content).getD j []) = false ∨
        fenceParity st.code ((bodyRows (getN σ i).content).take (j + 1))
          = true := by
      intro j hj
      rw [hcode]
      exact rowsScan_ok_positions (bodyRows (getN σ i).content) false
        (by rw [bodyRows_scan hok]) j hj
    obtain ⟨stB, hpB, hcurB, hstoB, hsecB, hhdB, hctB, hcodeB⟩ :=
      parseRows_content M (bodyRows (getN σ i).content)
        { st with store := σ, current := some i, sec := st.sec ++ [((getN σ i).name, i)], content := [] }
        hposA
    have hcodeB2 : stB.code = false := by
      rw [hcodeB]
      show fenceParity st.code (bodyRows (getN σ i).content) = false
      rw [hcode, ← rowsScan_snd, bodyRows_scan hok]
    have hctB2 : pyStrip stB.content = (getN σ i).content := by
      rw [hctB]
      show pyStrip ([] ++ (bodyRows (getN σ i).content).flatten)
        = (getN σ i).content
      rw [List.nil_append]
      exact bodyRows_strip (okContent_spec hok).1
    have hchqc : ∀ kv ∈ (getN σ i).children,
        dlookup (getN σ i).children kv.1 = some kv.2 := by
      intro kv hkv
      have hn : kv.1 = (getN σ kv.2).name := (hch kv hkv).1
      exact lookup_of_mem_nodup hkv hchnd
    have hMch : ∀ kv ∈ preoF σ f (getN σ i).children,
        dlookup M kv.1 = some kv.2 := by
      intro kv hkv
      exact HM kv (by rw [preo_succF]; exact List.mem_cons_of_mem _ hkv)
    have HNDch : (dkeys stB.sec ++
        (preoF σ f (getN σ i).children).map Prod.fst).Nodup := by
      rw [hsecB]
      show (dkeys (st.sec ++ [((getN σ i).name, i)]) ++
        (preoF σ f (getN σ i).children).map Prod.fst).Nodup
      have : dkeys (st.sec ++ [((getN σ i).name, i)]) =
          dkeys st.sec ++ [(getN σ i).name] := by simp [dkeys]
      rw [this, List.append_assoc, List.singleton_append]
      exact hndR
    obtain ⟨st', hp', hsto', hcode', hhd', hsec', c1, hcur', hasc', hlt',
      hlvl', hfl'⟩ :=
      forest_ok f ih (getN σ i).children σ M i lvl i stB
        (fun kv hkv => ⟨(hch kv hkv).1, (hch kv hkv).2⟩)
        hi hlvl (by omega) hchqc (Asc.refl i) hi (by omega) hstoB hcodeB2
        (by rw [hcurB]) hctB2 hMch HNDch
    have hascqi : Asc σ q i :=
      Asc.step hpar (by omega) (Asc.refl q)
    refine ⟨st', ?_, hsto', hcode', ?_, ?_, c1, hcur', asc_trans hascqi hasc',
      hlt', hlvl', hfl'⟩
    · rw [emitRows_succF, hlvl]
      rw [hstep, parseRows_append, hpB]
      exact hp'
    · rw [hhd', hhdB]
    · rw [hsec', hsecB]
      show st.sec ++ [((getN σ i).name, i)] ++ preoF σ f (getN σ i).children
        = st.sec ++ preo σ (f + 1) i
      rw [preo_succF, List.append_assoc, List.singleton_append]

end MarkdownReader

namespace MarkdownReader

theorem refreshTree_general {d : Doc} {hid : Nat}
    (hh : d.header = some hid)
    (hwf : wfT d.store (d.store.length + 1) hid 1 none = true)
    (hnd : ((preo d.store (d.store.length + 1) hid).map Prod.fst).Nodup)
    (HM : ∀ kv ∈ preo d.store (d.store.length + 1) hid,
      dlookup d.sec kv.1 = some kv.2)
    (hfm2 : (emitRows d.store (d.store.length + 1) hid).flatten = d.fm) :
    refreshTree d
      = (none, { d with sec := preo d.store (d.store.length + 1) hid }) := by
    obtain ⟨hi, _, h1len, hlvl, hpar, hcl, hok, hchnd, hch⟩ := wfT_succ hwf
    have hsplit : pySplitKeep d.fm
        = emitRows d.store (d.store.length + 1) hid := by
      rw [← hfm2]
      exact emitRows_splitKeep hwf
    have hMhead : dlookup d.sec (getN d.store hid).name = some hid :=
      HM ((getN d.store hid).name, hid)
        (by rw [preo_succF]; exact List.mem_cons_self _ _)
    have hrow := @rowStep_root d.sec ⟨d.store, [], none, d.header, [], false⟩
      hid rfl rfl hMhead hi hlvl hpar hcl
    have hstep : parseRows d.sec
        ((hashes 1 ++ ' ' :: ((getN d.store hid).name ++ ['\n'])) ::
          (bodyRows (getN d.store hid).content ++
           emitF d.store d.store.length (getN d.store hid).children))
        ⟨d.store, [], none, d.header, [], false⟩
        = parseRows d.sec
            (bodyRows (getN d.store hid).content ++
             emitF d.store d.store.length (getN d.store hid).children)
            ⟨d.store, [((getN d.store hid).name, hid)], some hid, some hid, [], false⟩ := by
      simp only [parseRows]
      rw [hrow]
      rfl
    have hposA : ∀ j, j < (bodyRows (getN d.store hid).content).length →
        pyStarts hashStr ((bodyRows (getN d.store hid).content).getD j [])
          = false ∨
        fenceParity false
          ((bodyRows (getN d.store hid).content).take (j + 1)) = true := by
      intro j hj
      exact rowsScan_ok_positions (bodyRows (getN d.store hid).content) false
        (by rw [bodyRows_scan hok]) j hj
    obtain ⟨stB, hpB, hcurB, hstoB, hsecB, hhdB, hctB, hcodeB⟩ :=
      parseRows_content d.sec (bodyRows (getN d.store hid).content)
        ⟨d.store, [((getN d.store hid).name, hid)], some hid, some hid, [], false⟩
        hposA
    have hcodeB2 : stB.code = false := by
      rw [hcodeB]
      show fenceParity false (bodyRows (getN d.store hid).content) = false
      rw [← rowsScan_snd, bodyRows_scan hok]
    have hctB2 : pyStrip stB.content = (getN d.store hid).content := by
      rw [hctB]
      show pyStrip ([] ++ (bodyRows (getN d.store hid).content).flatten)
        = (getN d.store hid).content
      rw [List.nil_append]
      exact bodyRows_strip (okContent_spec hok).1
    have hchqc : ∀ kv ∈ (getN d.store hid).children,
        dlookup (getN d.store hid).children kv.1 = some kv.2 :=
      fun kv hkv => lookup_of_mem_nodup hkv hchnd
    have hMch : ∀ kv ∈ preoF d.store d.store.length (getN d.store hid).children,
        dlookup d.sec kv.1 = some kv.2 :=
      fun kv hkv =>
        HM kv (by rw [preo_succF]; exact List.mem_cons_of_mem _ hkv)
    have HNDch : (dkeys stB.sec ++
        (preoF d.store d.store.length (getN d.store hid).children).map
          Prod.fst).Nodup := by
      rw [hsecB]
      show ([(getN d.store hid).name] ++
        (preoF d.store d.store.length (getN d.store hid).children).map
          Prod.fst).Nodup
      rw [List.singleton_append]
      rw [preo_succF, List.map_cons] at hnd
      exact hnd
    obtain ⟨st', hp', hsto', hcode', hhd', hsec', c1, hcur', hasc', hlt',
      hlvl', hfl'⟩ :=
      forest_ok d.store.length (node_ok d.store.length)
        (getN d.store hid).children d.store d.sec hid 1 hid stB
        (fun kv hkv => ⟨(hch kv hkv).1, (hch kv hkv).2⟩)
        hi hlvl (by omega) hchqc (Asc.refl hid) hi
        (by rw [hlvl]; exact h1len) hstoB hcodeB2 (by rw [hcurB]) hctB2
        hMch HNDch
    have hparse : parseRows d.sec (pySplitKeep d.fm)
        ⟨d.store, [], none, d.header, [], false⟩ = (none, st') := by
      rw [hsplit]
      have : emitRows d.store (d.store.length + 1) hid =
          (hashes 1 ++ ' ' :: ((getN d.store hid).name ++ ['\n'])) ::
            (bodyRows (getN d.store hid).content ++
             emitF d.store d.store.length (getN d.store hid).children) := by
        rw [emitRows_succF, hlvl]
      rw [this, hstep, parseRows_append, hpB]
      exact hp'
    have hhdr' : st'.header = some hid := by
      rw [hhd', hhdB]
    have hsec'2 : st'.sec = preo d.store (d.store.length + 1) hid := by
      rw [hsec', hsecB]
      show [((getN d.store hid).name, hid)] ++
        preoF d.store d.store.length (getN d.store hid).children
        = preo d.store (d.store.length + 1) hid
      rw [List.singleton_append, ← preo_succF]
    have hupd : updN st'.store c1
        (fun n => { n with content := pyStrip st'.content }) = d.store := by
      rw [hsto', hfl']
      apply updN_id _ hlt'
      show { getN d.store c1 with content := (getN d.store c1).content }
        = getN d.store c1
      rfl
    have hcore : refreshTreeCore d
        = (none, { d with sec := preo d.store (d.store.length + 1) hid }, false) := by
      simp only [refreshTreeCore]
      rw [hparse]
      show (match st'.current with
        | some c => (none, docOf d { st' with store := updN st'.store c (fun n => { n with content := pyStrip st'.content }) }, false)
        | none => (none, docOf d st', true))
        = (none, { d with sec := preo d.store (d.store.length + 1) hid }, false)
      rw [hcur']
      show (none, docOf d { st' with store := updN st'.store c1 (fun n => { n with content := pyStrip st'.content }) }, false) = ((none : Option Err), ({ d with sec := preo d.store (d.store.length + 1) hid } : Doc), false)
      rw [hupd]
      show ((none : Option Err), ({ d with store := d.store, header := st'.header, sec := st'.sec } : Doc), false) = (none, ({ d with sec := preo d.store (d.store.length + 1) hid } : Doc), false)
      rw [hhdr', ← hh, hsec'2]
    unfold refreshTree
    rw [hcore]

theorem refreshTree_wf {d : Doc} (hwfd : wfDoc d = true) :
    refreshTree d = (none, d) := by
  cases hh : d.header with
  | none =>
    simp only [wfDoc, hh] at hwfd
    exact Bool.noConfusion hwfd
  | some hid =>
    simp only [wfDoc, hh, Bool.and_eq_true, decide_eq_true_eq,
      beq_iff_eq] at hwfd
    obtain ⟨⟨⟨hwf, hnd⟩, hsec⟩, hfm⟩ := hwfd
    have hfm1 : mkFormatter d
        = makeContent d.store (d.store.length + 1) hid := by
      simp only [mkFormatter, hh]
    rw [hfm1, makeContent_emit _ hwf] at hfm
    injection hfm with hfm2
    have HM : ∀ kv ∈ preo d.store (d.store.length + 1) hid,
        dlookup d.sec kv.1 = some kv.2 := by
      intro kv hm
      rw [hsec]
      exact lookup_of_mem_nodup hm hnd
    rw [refreshTree_general hh hwf hnd HM hfm2, ← hsec]

end MarkdownReader

namespace MarkdownReader

theorem updateDoc_wf {d : Doc} (h : wfDoc d = true) :
    updateDoc d = (none, d) := by
  have hfm : mkFormatter d = .ok d.fm := by
    cases hh : d.header with
    | none =>
      simp only [wfDoc, hh] at h
      exact Bool.noConfusion h
    | some hid =>
      simp only [wfDoc, hh, Bool.and_eq_true, beq_iff_eq] at h
      exact h.2
  unfold updateDoc
  rw [hfm]
  show refreshTree { d with fm := d.fm } = (none, d)
  have he : ({ d with fm := d.fm } : Doc) = d := rfl
  rw [he]
  exact refreshTree_wf h

/-- C1 (amended): the round-trip law as stated fails on trees reachable
through the public API (see the counterexample: a section whose content
holds an unbalanced code fence), but for every well-formed document — clean
section names, stripped contents with balanced fences and no exposed heading
rows, registry equal to the preorder traversal, serialized text in sync —
re-parsing the linearized text reproduces the in-memory tree exactly
(identity, which is stronger than isomorphism): `update` succeeds and
returns the document unchanged. -/
theorem c1_amended (d : Doc) (h : wfDoc d = true) :
    updateDoc d = (none, d) :=
  updateDoc_wf h

theorem c1_witness :
    wfDoc docRAB2 = true ∧ updateDoc docRAB2 = (none, docRAB2) :=
  ⟨by decide, c1_amended docRAB2 (by decide)⟩

/-- C9 (amended): idempotent resync fails in general for successfully-synced
documents (see the counterexample), but for every well-formed document two
successive `update` calls both succeed and both return the document itself,
so the second resync's tree equals the first's. -/
theorem c9_amended (d : Doc) (h : wfDoc d = true) :
    (updateDoc d).1 = none ∧
    (updateDoc (updateDoc d).2).2 = (updateDoc d).2 := by
  rw [updateDoc_wf h]
  show ((none : Option Err) = none) ∧ (updateDoc d).2 = d
  rw [updateDoc_wf h]
  exact ⟨rfl, rfl⟩

theorem c9_witness :
    wfDoc docRA2 = true ∧ (updateDoc docRA2).1 = none ∧
    (updateDoc (updateDoc docRA2).2).2 = (updateDoc docRA2).2 :=
  ⟨by decide, c9_amended docRA2 (by decide)⟩

end MarkdownReader

namespace MarkdownReader

theorem updateDoc_general {d : Doc} {hid : Nat}
    (hh : d.header = some hid)
    (hwf : wfT d.store (d.store.length + 1) hid 1 none = true)
    (hnd : ((preo d.store (d.store.length + 1) hid).map Prod.fst).Nodup)
    (HM : ∀ kv ∈ preo d.store (d.store.length + 1) hid,
      dlookup d.sec kv.1 = some kv.2) :
    updateDoc d
      = (none, { d with sec := preo d.store (d.store.length + 1) hid, fm := (emitRows d.store (d.store.length + 1) hid).flatten }) := by
  have hfm : mkFormatter d
      = .ok (emitRows d.store (d.store.length + 1) hid).flatten := by
    rw [show mkFormatter d = makeContent d.store (d.store.length + 1) hid
      from by simp only [mkFormatter, hh]]
    exact makeContent_emit _ hwf
  unfold updateDoc
  rw [hfm]
  show refreshTree { d with fm := (emitRows d.store (d.store.length + 1) hid).flatten } = _
  rw [refreshTree_general (d := { d with fm := (emitRows d.store (d.store.length + 1) hid).flatten }) hh hwf hnd HM rfl]

theorem updateDoc_general_wf {d : Doc} {hid : Nat}
    (hh : d.header = some hid)
    (hwf : wfT d.store (d.store.length + 1) hid 1 none = true)
    (hnd : ((preo d.store (d.store.length + 1) hid).map Prod.fst).Nodup)
    (HM : ∀ kv ∈ preo d.store (d.store.length + 1) hid,
      dlookup d.sec kv.1 = some kv.2) :
    wfDoc (updateDoc d).2 = true := by
  rw [updateDoc_general hh hwf hnd HM]
  show wfDoc { d with sec := preo d.store (d.store.length + 1) hid, fm := (emitRows d.store (d.store.length + 1) hid).flatten } = true
  simp only [wfDoc, hh]
  have hfm : mkFormatter { d with sec := preo d.store (d.store.length + 1) hid, fm := (emitRows d.store (d.store.length + 1) hid).flatten } = .ok (emitRows d.store (d.store.length + 1) hid).flatten := by
    rw [show mkFormatter { d with sec := preo d.store (d.store.length + 1) hid, fm := (emitRows d.store (d.store.length + 1) hid).flatten } = makeContent d.store (d.store.length + 1) hid from by simp only [mkFormatter, hh]]
    exact makeContent_emit _ hwf
  rw [hh] at hfm
  simp only [Bool.and_eq_true, decide_eq_true_eq, beq_iff_eq]
  exact ⟨⟨⟨hwf, hnd⟩, trivial⟩, hfm⟩

end MarkdownReader

namespace MarkdownReader

theorem mem_of_dlookup {β : Type} {d : List (PyStr × β)} {k : PyStr} {v : β}
    (h : dlookup d k = some v) : (k, v) ∈ d := by
  induction d with
  | nil => simp [dlookup] at h
  | cons p rest ih =>
    obtain ⟨k0, v0⟩ := p
    by_cases h0 : k0 = k
    · subst h0
      rw [dlookup, if_pos rfl] at h
      injection h with h
      subst h
      exact List.mem_cons_self _ _
    · rw [dlookup, if_neg h0] at h
      exact List.mem_cons_of_mem _ (ih h)

theorem fst_inj_of_nodup {β : Type} {l : List (PyStr × β)}
    (hnd : (l.map Prod.fst).Nodup) {a b : PyStr × β} (ha : a ∈ l) (hb : b ∈ l)
    (hab : a.1 = b.1) : a = b := by
  induction l with
  | nil => simp at ha
  | cons p rest ih =>
    rw [List.map_cons, List.nodup_cons] at hnd
    rcases List.mem_cons.mp ha with ha1 | ha1 <;>
      rcases List.mem_cons.mp hb with hb1 | hb1
    · rw [ha1, hb1]
    · subst ha1
      exact absurd (hab ▸ List.mem_map_of_mem Prod.fst hb1) hnd.1
    · subst hb1
      exact absurd (hab ▸ List.mem_map_of_mem Prod.fst ha1) hnd.1
    · exact ih hnd.2 ha1 hb1

theorem wfT_parent {σ : Store} {f i lvl : Nat} {par : Option Nat}
    (h : wfT σ f i lvl par = true) :
    i < σ.length ∧ (getN σ i).level = lvl ∧ (getN σ i).parent = par ∧
    1 ≤ lvl ∧ lvl ≤ σ.length := by
  cases f with
  | zero => simp [wfT] at h
  | succ f =>
    obtain ⟨h1, h2, h3, h4, h5, _⟩ := wfT_succ h
    exact ⟨h1, h4, h5, h2, h3⟩

theorem wfT_mono {σ : Store} :
    ∀ {f f' : Nat} {i lvl : Nat} {par : Option Nat}, f ≤ f' →
    wfT σ f i lvl par = true → wfT σ f' i lvl par = true := by
  intro f
  induction f with
  | zero =>
    intro f' i lvl par _ h
    simp [wfT] at h
  | succ f ih =>
    intro f' i lvl par hle h
    obtain ⟨f2, rfl⟩ : ∃ f2, f' = f2 + 1 := by
      cases f' with
      | zero => omega
      | succ f2 => exact ⟨f2, rfl⟩
    obtain ⟨h1, h2, h3, h4, h5, h6, h7, h8, h9⟩ := wfT_succ h
    simp only [wfT, Bool.and_eq_true, decide_eq_true_eq, beq_iff_eq,
      List.all_eq_true]
    refine ⟨⟨⟨⟨⟨⟨⟨⟨h1, h2⟩, h3⟩, h4⟩, h5⟩, h6⟩, h7⟩, h8⟩,
      fun kv hkv => ?_⟩
    have := h9 kv hkv
    exact ⟨this.1, ih (by omega) this.2⟩

theorem foldr_append_congr {α β : Type} {g1 g2 : α → List β} :
    ∀ (l : List α), (∀ a ∈ l, g1 a = g2 a) →
    l.foldr (fun a acc => g1 a ++ acc) []
      = l.foldr (fun a acc => g2 a ++ acc) [] := by
  intro l
  induction l with
  | nil => intro _; rfl
  | cons a rest ih =>
    intro h
    simp only [List.foldr_cons]
    rw [h a (List.mem_cons_self a rest),
      ih (fun a2 h2 => h a2 (List.mem_cons_of_mem a h2))]

theorem preo_stable {σ : Store} :
    ∀ {f : Nat} {i lvl : Nat} {par : Option Nat} {g : Nat},
    wfT σ f i lvl par = true → f ≤ g → preo σ g i = preo σ f i := by
  intro f
  induction f with
  | zero =>
    intro i lvl par g h
    simp [wfT] at h
  | succ f ih =>
    intro i lvl par g h hle
    obtain ⟨g2, rfl⟩ : ∃ g2, g = g2 + 1 := by
      cases g with
      | zero => omega
      | succ g2 => exact ⟨g2, rfl⟩
    obtain ⟨_, _, _, _, _, _, _, _, hch⟩ := wfT_succ h
    show ((getN σ i).name, i) ::
        (getN σ i).children.foldr (fun kv acc => preo σ g2 kv.2 ++ acc) []
      = ((getN σ i).name, i) ::
        (getN σ i).children.foldr (fun kv acc => preo σ f kv.2 ++ acc) []
    congr 1
    exact foldr_append_congr _ (fun kv hkv => ih (hch kv hkv).2 (by omega))

end MarkdownReader

namespace MarkdownReader

theorem children_sub_preo {σ : Store} {f j lvl : Nat} {par : Option Nat}
    (h : wfT σ (f + 1) j lvl par = true) {kv : PyStr × Nat}
    (hkv : kv ∈ (getN σ j).children) : kv ∈ preo σ (f + 1) j := by
  obtain ⟨_, _, _, _, _, _, _, _, hch⟩ := wfT_succ h
  have h1 := hch kv hkv
  rw [preo_succF]
  refine List.mem_cons_of_mem _ ?_
  show kv ∈ preoF σ f (getN σ j).children
  rw [show (preoF σ f (getN σ j).children)
    = (getN σ j).children.foldr (fun kv acc => preo σ f kv.2 ++ acc) []
    from rfl]
  refine (mem_foldr_append _ _ _).mpr ⟨kv, hkv, ?_⟩
  cases f with
  | zero =>
    exact absurd h1.2 (by simp [wfT])
  | succ f2 =>
    have he : kv = ((getN σ kv.2).name, kv.2) := by rw [← h1.1]
    rw [preo_succF, ← he]
    exact List.mem_cons_self _ _

theorem preo_node {σ : Store} :
    ∀ {f : Nat} {j lvl : Nat} {par : Option Nat},
    wfT σ f j lvl par = true →
    ∀ kv ∈ preo σ f j, kv.1 = (getN σ kv.2).name ∧ kv.2 < σ.length ∧
      cleanName (getN σ kv.2).name = true ∧
      okContent (getN σ kv.2).content = true ∧
      (dkeys (getN σ kv.2).children).Nodup ∧
      1 ≤ (getN σ kv.2).level ∧ (getN σ kv.2).level ≤ σ.length := by
  intro f
  induction f with
  | zero =>
    intro j lvl par h
    simp [wfT] at h
  | succ f ih =>
    intro j lvl par h kv hkv
    obtain ⟨h1, h2, h3, h4, _, h6, h7, h8, hch⟩ := wfT_succ h
    rw [preo_succF] at hkv
    rcases List.mem_cons.mp hkv with hkv | hkv
    · subst hkv
      refine ⟨rfl, h1, h6, h7, h8, ?_, ?_⟩ <;> dsimp only <;> omega
    · obtain ⟨kv2, hkv2, hin⟩ := (mem_foldr_append _ _ kv).mp hkv
      exact ih (hch kv2 hkv2).2 kv hin

theorem preo_edge {σ : Store} :
    ∀ {f : Nat} {j lvl : Nat} {par : Option Nat},
    wfT σ f j lvl par = true →
    ∀ kv ∈ preo σ f j, kv.2 = j ∨ ∃ q, q < σ.length ∧
      kv ∈ (getN σ q).children ∧ (getN σ kv.2).parent = some q ∧
      (dkeys (getN σ q).children).Nodup := by
  intro f
  induction f with
  | zero =>
    intro j lvl par h
    simp [wfT] at h
  | succ f ih =>
    intro j lvl par h kv hkv
    obtain ⟨h1, _, _, _, _, _, _, h8, hch⟩ := wfT_succ h
    rw [preo_succF] at hkv
    rcases List.mem_cons.mp hkv with hkv | hkv
    · left
      rw [hkv]
    · right
      obtain ⟨kv2, hkv2, hin⟩ := (mem_foldr_append _ _ kv).mp hkv
      have hw := (hch kv2 hkv2).2
      rcases ih hw kv hin with htop | ⟨q, hq⟩
      · have hn : kv.1 = (getN σ kv.2).name := (preo_node hw kv hin).1
        have he : kv = kv2 := by
          have hn2 : kv2.1 = (getN σ kv2.2).name := (hch kv2 hkv2).1
          have h12 : kv.1 = kv2.1 := by rw [hn, htop, ← hn2]
          calc kv = (kv.1, kv.2) := rfl
          _ = (kv2.1, kv2.2) := by rw [h12, htop]
          _ = kv2 := rfl
        refine ⟨j, h1, ?_, ?_, h8⟩
        · rw [he]
          exact hkv2
        · rw [htop]
          exact (wfT_parent hw).2.2.1
      · exact ⟨q, hq⟩

end MarkdownReader

namespace MarkdownReader

theorem mem_dpop {β : Type} {d : List (PyStr × β)} {k : PyStr}
    {kv : PyStr × β} (h : kv ∈ dpop d k) : kv ∈ d := by
  induction d with
  | nil => simpa [dpop] using h
  | cons p rest ih =>
    obtain ⟨k0, v0⟩ := p
    by_cases h0 : k0 = k
    · rw [dpop, if_pos h0] at h
      exact List.mem_cons_of_mem _ h
    · rw [dpop, if_neg h0] at h
      rcases List.mem_cons.mp h with h | h
      · rw [h]
        exact List.mem_cons_self _ _
      · exact List.mem_cons_of_mem _ (ih h)

theorem mem_dpop_ne {β : Type} {d : List (PyStr × β)} {k : PyStr}
    (hnd : (dkeys d).Nodup) {kv : PyStr × β} (h : kv ∈ dpop d k) :
    kv.1 ≠ k := by
  induction d with
  | nil => simp [dpop] at h
  | cons p rest ih =>
    obtain ⟨k0, v0⟩ := p
    rw [dkeys, List.map_cons, List.nodup_cons] at hnd
    by_cases h0 : k0 = k
    · subst h0
      rw [dpop, if_pos rfl] at h
      intro hk
      have hm : kv.1 ∈ List.map Prod.fst rest := List.mem_map_of_mem Prod.fst h
      rw [hk] at hm
      exact hnd.1 hm
    · rw [dpop, if_neg h0] at h
      rcases List.mem_cons.mp h with h | h
      · rw [h]
        exact h0
      · exact ih hnd.2 h

theorem dmem_dpop {β : Type} {d : List (PyStr × β)} {k : PyStr}
    (hnd : (dkeys d).Nodup) : dmem (dpop d k) k = false := by
  apply dmem_false_of_not_mem
  intro hmem
  obtain ⟨kv, hkv, hfst⟩ := List.mem_map.mp hmem
  exact mem_dpop_ne hnd hkv hfst

theorem dkeys_dpop_sub {β : Type} {d : List (PyStr × β)} {k : PyStr} :
    List.Sublist (dkeys (dpop d k)) (dkeys d) :=
  List.Sublist.map Prod.fst (dpop_sublist d k)

theorem dinsert_dpop_perm {β : Type} {d : List (PyStr × β)} {k : PyStr}
    {v : β} (hmem : (k, v) ∈ d) (hnd : (dkeys d).Nodup) :
    List.Perm (dinsert (dpop d k) k v) d := by
  rw [dinsert_append_fresh v (dmem_dpop hnd)]
  induction d with
  | nil => simp at hmem
  | cons p rest ih =>
    obtain ⟨k0, v0⟩ := p
    rw [dkeys, List.map_cons, List.nodup_cons] at hnd
    by_cases h0 : k0 = k
    · subst h0
      have hv : v0 = v := by
        rcases List.mem_cons.mp hmem with h | h
        · exact (Prod.mk.injEq _ _ _ _ |>.mp h.symm).2
        · exact absurd (List.mem_map_of_mem Prod.fst h) hnd.1
      rw [dpop, if_pos rfl, hv]
      exact List.perm_append_singleton _ _
    · have hmem2 : (k, v) ∈ rest := by
        rcases List.mem_cons.mp hmem with h | h
        · exact absurd (Prod.mk.injEq _ _ _ _ |>.mp h.symm).1 h0
        · exact h
      rw [dpop, if_neg h0]
      show List.Perm ((k0, v0) :: (dpop rest k ++ [(k, v)])) ((k0, v0) :: rest)
      exact List.Perm.cons _ (ih hmem2 hnd.2)

theorem nodup_snd_of_fst {l : List (PyStr × Nat)} {g : Nat → PyStr}
    (hnd : (l.map Prod.fst).Nodup) (hg : ∀ kv ∈ l, kv.1 = g kv.2) :
    (l.map Prod.snd).Nodup := by
  have : l.map Prod.fst = (l.map Prod.snd).map g := by
    rw [List.map_map]
    exact List.map_congr_left hg
  rw [this] at hnd
  exact hnd.of_map g

end MarkdownReader

namespace MarkdownReader

/-- Well-formedness is preserved by any store surgery that keeps every
node's name, level and parent, replaces contents only by contents that are
themselves fit for round-tripping, and only removes or reorders children
entries (keeping key-distinctness). -/
theorem wfT_mod {σ σ2 : Store}
    (hlen : σ2.length = σ.length)
    (hname : ∀ k, (getN σ2 k).name = (getN σ k).name)
    (hlevel : ∀ k, (getN σ2 k).level = (getN σ k).level)
    (hparent : ∀ k, (getN σ2 k).parent = (getN σ k).parent)
    (hcontent : ∀ k, (getN σ2 k).content = (getN σ k).content ∨
      okContent (getN σ2 k).content = true)
    (hchild : ∀ k, (∀ kv ∈ (getN σ2 k).children, kv ∈ (getN σ k).children) ∧
      ((dkeys (getN σ k).children).Nodup →
        (dkeys (getN σ2 k).children).Nodup)) :
    ∀ {f j lvl : Nat} {par : Option Nat}, wfT σ f j lvl par = true →
      wfT σ2 f j lvl par = true := by
  intro f
  induction f with
  | zero =>
    intro j lvl par h
    simp [wfT] at h
  | succ f ih =>
    intro j lvl par h
    obtain ⟨h1, h2, h3, h4, h5, h6, h7, h8, hch⟩ := wfT_succ h
    simp only [wfT, Bool.and_eq_true, decide_eq_true_eq, beq_iff_eq,
      List.all_eq_true]
    have hok2 : okContent (getN σ2 j).content = true := by
      rcases hcontent j with hc | hc
      · rw [hc]
        exact h7
      · exact hc
    refine ⟨⟨⟨⟨⟨⟨⟨⟨by omega, h2⟩, by omega⟩, by rw [hlevel j]; exact h4⟩,
      by rw [hparent j]; exact h5⟩, by rw [hname j]; exact h6⟩, hok2⟩,
      (hchild j).2 h8⟩, fun kv hkv => ?_⟩
    have hm := (hchild j).1 kv hkv
    have hc := hch kv hm
    exact ⟨by rw [hname kv.2]; exact hc.1, ih hc.2⟩

end MarkdownReader

namespace MarkdownReader

theorem foldr_append_pointwise {α β : Type} {g1 g2 : α → List β} :
    ∀ (l : List α), (∀ a ∈ l, List.Perm (g1 a) (g2 a)) →
    List.Perm (l.foldr (fun a acc => g1 a ++ acc) [])
      (l.foldr (fun a acc => g2 a ++ acc) []) := by
  intro l
  induction l with
  | nil => intro _; exact List.Perm.refl _
  | cons a rest ih =>
    intro h
    simp only [List.foldr_cons]
    exact List.Perm.append (h a (List.mem_cons_self a rest))
      (ih (fun a2 h2 => h a2 (List.mem_cons_of_mem a h2)))

theorem foldr_append_of_perm {α β : Type} {g : α → List β} :
    ∀ {l1 l2 : List α}, List.Perm l1 l2 →
    List.Perm (l1.foldr (fun a acc => g a ++ acc) [])
      (l2.foldr (fun a acc => g a ++ acc) []) := by
  intro l1 l2 hp
  induction hp with
  | nil => exact List.Perm.refl _
  | cons a _ ih => exact List.Perm.append (List.Perm.refl (g a)) ih
  | swap x y l =>
    simp only [List.foldr_cons]
    have h1 : List.Perm (g y ++ (g x ++ l.foldr (fun a acc => g a ++ acc) []))
        ((g y ++ g x) ++ l.foldr (fun a acc => g a ++ acc) []) := by
      rw [List.append_assoc]
    have h2 : List.Perm ((g y ++ g x) ++ l.foldr (fun a acc => g a ++ acc) [])
        ((g x ++ g y) ++ l.foldr (fun a acc => g a ++ acc) []) :=
      List.Perm.append List.perm_append_comm (List.Perm.refl _)
    have h3 : List.Perm ((g x ++ g y) ++ l.foldr (fun a acc => g a ++ acc) [])
        (g x ++ (g y ++ l.foldr (fun a acc => g a ++ acc) [])) := by
      rw [List.append_assoc]
    exact (h1.trans h2).trans h3
  | trans _ _ ih1 ih2 => exact ih1.trans ih2

theorem foldr_append_perm {α β : Type} {g1 g2 : α → List β}
    {l1 l2 : List α} (hp : List.Perm l1 l2)
    (hpt : ∀ a ∈ l2, List.Perm (g1 a) (g2 a)) :
    List.Perm (l1.foldr (fun a acc => g1 a ++ acc) [])
      (l2.foldr (fun a acc => g2 a ++ acc) []) := by
  refine List.Perm.trans
    (foldr_append_pointwise l1 (fun a ha => hpt a (hp.subset ha))) ?_
  exact foldr_append_of_perm hp

/-- Reordering children (keeping names) permutes the preorder listing. -/
theorem preo_perm_mod {σ σ2 : Store}
    (hname : ∀ k, (getN σ2 k).name = (getN σ k).name)
    (hchild : ∀ k, List.Perm (getN σ2 k).children (getN σ k).children) :
    ∀ (f j : Nat), List.Perm (preo σ2 f j) (preo σ f j) := by
  intro f
  induction f with
  | zero => intro j; exact List.Perm.refl _
  | succ f ih =>
    intro j
    rw [preo_succF, preo_succF, hname j]
    refine List.Perm.cons _ ?_
    exact foldr_append_perm (hchild j) (fun kv _ => ih kv.2)

end MarkdownReader

namespace MarkdownReader

/-- The preorder listing is closed under taking children entries. -/
theorem preo_closed {σ : Store} :
    ∀ {f j lvl : Nat} {par : Option Nat}, wfT σ f j lvl par = true →
    ∀ {kv kv2 : PyStr × Nat}, kv ∈ preo σ f j →
    kv2 ∈ (getN σ kv.2).children → kv2 ∈ preo σ f j := by
  intro f
  induction f with
  | zero =>
    intro j lvl par h
    simp [wfT] at h
  | succ f ih =>
    intro j lvl par h kv kv2 hkv hkv2
    obtain ⟨_, _, _, _, _, _, _, _, hch⟩ := wfT_succ h
    rw [preo_succF] at hkv
    rcases List.mem_cons.mp hkv with hkv | hkv
    · have : kv.2 = j := by rw [hkv]
      rw [this] at hkv2
      exact children_sub_preo h hkv2
    · obtain ⟨kv3, hkv3, hin⟩ := (mem_foldr_append _ _ kv).mp hkv
      have hrec := ih (hch kv3 hkv3).2 hin hkv2
      rw [preo_succF]
      refine List.mem_cons_of_mem _ ?_
      exact (mem_foldr_append _ _ kv2).mpr ⟨kv3, hkv3, hrec⟩

end MarkdownReader

namespace MarkdownReader

/-- `add_section` on an existing child under the default `change_content`
policy: the child's content and meta are updated in place, the child entry
is popped and re-appended at the end of the parent's child dictionary, and
the resync succeeds, permuting the registry accordingly. -/
theorem addSection_change {d : Doc} {hid selfId sid : Nat}
    {name content : PyStr} {meta : List (PyStr × PyStr)}
    (hwfd : wfDoc d = true) (hh : d.header = some hid)
    (hmem : ((getN d.store selfId).name, selfId) ∈ d.sec)
    (hch : dlookup (getN d.store selfId).children name = some sid)
    (hok : okContent (stripContent content) = true) :
    ∃ d2, addSection d selfId name content meta .changeContent true
        = (.ok sid, d2) ∧
      d2.store = updN (updN d.store sid (fun n => { n with content := stripContent content, meta := dupdate n.meta meta })) selfId (fun n => { n with children := dinsert (dpop n.children name) name sid }) ∧
      List.Perm d2.sec d.sec ∧ wfDoc d2 = true := by
  simp only [wfDoc, hh, Bool.and_eq_true, decide_eq_true_eq,
    beq_iff_eq] at hwfd
  obtain ⟨⟨⟨hwf, hnd⟩, hsec⟩, hfm⟩ := hwfd
  have hself_preo : ((getN d.store selfId).name, selfId)
      ∈ preo d.store (d.store.length + 1) hid := by
    rw [← hsec]
    exact hmem
  have hselfn := preo_node hwf _ hself_preo
  have hselflen : selfId < d.store.length := hselfn.2.1
  have hndch : (dkeys (getN d.store selfId).children).Nodup := by
    have := hselfn.2.2.2.2.1
    simpa using this
  have hcm : (name, sid) ∈ (getN d.store selfId).children := mem_of_dlookup hch
  have hsid_preo : (name, sid) ∈ preo d.store (d.store.length + 1) hid :=
    preo_closed hwf hself_preo hcm
  have hsidlen : sid < d.store.length := (preo_node hwf _ hsid_preo).2.1
  have hlookup_sec : dlookup d.sec name = some sid := by
    rw [hsec]
    exact lookup_of_mem_nodup hsid_preo hnd
  have hd1sec : dinsert d.sec name sid = d.sec := dinsert_eq_of_lookup hlookup_sec
  -- the two store updates
  have hAlen : (updN d.store sid (fun n => { n with content := stripContent content, meta := dupdate n.meta meta })).length = d.store.length :=
    length_updN _ _ _
  have hBlen : (updN (updN d.store sid (fun n => { n with content := stripContent content, meta := dupdate n.meta meta })) selfId (fun n => { n with children := dinsert (dpop n.children name) name sid })).length = d.store.length := by
    rw [length_updN, hAlen]
  -- pointwise field facts
  have hAfields : ∀ k, (getN (updN d.store sid (fun n => { n with content := stripContent content, meta := dupdate n.meta meta })) k).name = (getN d.store k).name ∧ (getN (updN d.store sid (fun n => { n with content := stripContent content, meta := dupdate n.meta meta })) k).level = (getN d.store k).level ∧ (getN (updN d.store sid (fun n => { n with content := stripContent content, meta := dupdate n.meta meta })) k).parent = (getN d.store k).parent ∧ (getN (updN d.store sid (fun n => { n with content := stripContent content, meta := dupdate n.meta meta })) k).children = (getN d.store k).children := by
    intro k
    by_cases hk : sid = k
    · subst hk
      rw [getN_updN_self _ hsidlen]
      exact ⟨rfl, rfl, rfl, rfl⟩
    · rw [getN_updN_ne _ hk]
      exact ⟨rfl, rfl, rfl, rfl⟩
  have hAcontent : ∀ k, k ≠ sid → (getN (updN d.store sid (fun n => { n with content := stripContent content, meta := dupdate n.meta meta })) k).content = (getN d.store k).content := by
    intro k hk
    rw [getN_updN_ne _ (fun he => hk he.symm)]
  have hAcsid : (getN (updN d.store sid (fun n => { n with content := stripContent content, meta := dupdate n.meta meta })) sid).content = stripContent content := by
    rw [getN_updN_self _ hsidlen]
  have hBfields : ∀ k, (getN (updN (updN d.store sid (fun n => { n with content := stripContent content, meta := dupdate n.meta meta })) selfId (fun n => { n with children := dinsert (dpop n.children name) name sid })) k).name = (getN d.store k).name ∧ (getN (updN (updN d.store sid (fun n => { n with content := stripContent content, meta := dupdate n.meta meta })) selfId (fun n => { n with children := dinsert (dpop n.children name) name sid })) k).level = (getN d.store k).level ∧ (getN (updN (updN d.store sid (fun n => { n with content := stripContent content, meta := dupdate n.meta meta })) selfId (fun n => { n with children := dinsert (dpop n.children name) name sid })) k).parent = (getN d.store k).parent ∧ (getN (updN (updN d.store sid (fun n => { n with content := stripContent content, meta := dupdate n.meta meta })) selfId (fun n => { n with children := dinsert (dpop n.children name) name sid })) k).content = (getN (updN d.store sid (fun n => { n with content := stripContent content, meta := dupdate n.meta meta })) k).content := by
    intro k
    by_cases hk : selfId = k
    · subst hk
      rw [getN_updN_self _ (by rw [hAlen]; exact hselflen)]
      exact ⟨(hAfields selfId).1, (hAfields selfId).2.1,
        (hAfields selfId).2.2.1, rfl⟩
    · rw [getN_updN_ne _ hk]
      exact ⟨(hAfields k).1, (hAfields k).2.1, (hAfields k).2.2.1, rfl⟩
  have hBchild : ∀ k, k ≠ selfId → (getN (updN (updN d.store sid (fun n => { n with content := stripContent content, meta := dupdate n.meta meta })) selfId (fun n => { n with children := dinsert (dpop n.children name) name sid })) k).children = (getN d.store k).children := by
    intro k hk
    rw [getN_updN_ne _ (fun he => hk he.symm)]
    exact (hAfields k).2.2.2
  have hBcself : (getN (updN (updN d.store sid (fun n => { n with content := stripContent content, meta := dupdate n.meta meta })) selfId (fun n => { n with children := dinsert (dpop n.children name) name sid })) selfId).children = dinsert (dpop (getN d.store selfId).children name) name sid := by
    rw [getN_updN_self _ (by rw [hAlen]; exact hselflen)]
    show dinsert (dpop (getN (updN d.store sid (fun n => { n with content := stripContent content, meta := dupdate n.meta meta })) selfId).children name) name sid = _
    rw [(hAfields selfId).2.2.2]
  have hchperm : ∀ k, List.Perm (getN (updN (updN d.store sid (fun n => { n with content := stripContent content, meta := dupdate n.meta meta })) selfId (fun n => { n with children := dinsert (dpop n.children name) name sid })) k).children (getN d.store k).children := by
    intro k
    by_cases hk : k = selfId
    · subst hk
      rw [hBcself]
      exact dinsert_dpop_perm hcm hndch
    · rw [hBchild k hk]
  have hwfB : wfT (updN (updN d.store sid (fun n => { n with content := stripContent content, meta := dupdate n.meta meta })) selfId (fun n => { n with children := dinsert (dpop n.children name) name sid })) (d.store.length + 1) hid 1 none = true := by
    refine wfT_mod hBlen (fun k => (hBfields k).1) (fun k => (hBfields k).2.1)
      (fun k => (hBfields k).2.2.1) ?_ ?_ hwf
    · intro k
      by_cases hk : k = sid
      · subst hk
        right
        rw [(hBfields k).2.2.2, hAcsid]
        exact hok
      · left
        rw [(hBfields k).2.2.2, hAcontent k hk]
    · intro k
      constructor
      · intro kv hkv
        exact (hchperm k).subset hkv
      · intro hndk
        have := (hchperm k).map Prod.fst
        exact (List.Perm.nodup_iff this).mpr hndk
  have hperm : List.Perm (preo (updN (updN d.store sid (fun n => { n with content := stripContent content, meta := dupdate n.meta meta })) selfId (fun n => { n with children := dinsert (dpop n.children name) name sid })) (d.store.length + 1) hid) (preo d.store (d.store.length + 1) hid) :=
    preo_perm_mod (fun k => (hBfields k).1) hchperm _ _
  have hndB : ((preo (updN (updN d.store sid (fun n => { n with content := stripContent content, meta := dupdate n.meta meta })) selfId (fun n => { n with children := dinsert (dpop n.children name) name sid })) (d.store.length + 1) hid).map Prod.fst).Nodup :=
    (List.Perm.nodup_iff (hperm.map Prod.fst)).mpr hnd
  have HMB : ∀ kv ∈ preo (updN (updN d.store sid (fun n => { n with content := stripContent content, meta := dupdate n.meta meta })) selfId (fun n => { n with children := dinsert (dpop n.children name) name sid })) (d.store.length + 1) hid, dlookup d.sec kv.1 = some kv.2 := by
    intro kv hkv
    rw [hsec]
    exact lookup_of_mem_nodup (hperm.subset hkv) hnd
  have hwfB2 : wfT (updN (updN d.store sid (fun n => { n with content := stripContent content, meta := dupdate n.meta meta })) selfId (fun n => { n with children := dinsert (dpop n.children name) name sid })) ((updN (updN d.store sid (fun n => { n with content := stripContent content, meta := dupdate n.meta meta })) selfId (fun n => { n with children := dinsert (dpop n.children name) name sid })).length + 1) hid 1 none = true := by
    rw [hBlen]
    exact hwfB
  have hndB2 : ((preo (updN (updN d.store sid (fun n => { n with content := stripContent content, meta := dupdate n.meta meta })) selfId (fun n => { n with children := dinsert (dpop n.children name) name sid })) ((updN (updN d.store sid (fun n => { n with content := stripContent content, meta := dupdate n.meta meta })) selfId (fun n => { n with children := dinsert (dpop n.children name) name sid })).length + 1) hid).map Prod.fst).Nodup := by
    rw [hBlen]
    exact hndB
  have HMB2 : ∀ kv ∈ preo (updN (updN d.store sid (fun n => { n with content := stripContent content, meta := dupdate n.meta meta })) selfId (fun n => { n with children := dinsert (dpop n.children name) name sid })) ((updN (updN d.store sid (fun n => { n with content := stripContent content, meta := dupdate n.meta meta })) selfId (fun n => { n with children := dinsert (dpop n.children name) name sid })).length + 1) hid, dlookup (dinsert d.sec name sid) kv.1 = some kv.2 := by
    rw [hBlen, hd1sec]
    exact HMB
  have hupd := updateDoc_general (d := { d with store := updN (updN d.store sid (fun n => { n with content := stripContent content, meta := dupdate n.meta meta })) selfId (fun n => { n with children := dinsert (dpop n.children name) name sid }), sec := dinsert d.sec name sid }) hh hwfB2 hndB2 HMB2
  have hwfd2 := updateDoc_general_wf (d := { d with store := updN (updN d.store sid (fun n => { n with content := stripContent content, meta := dupdate n.meta meta })) selfId (fun n => { n with children := dinsert (dpop n.children name) name sid }), sec := dinsert d.sec name sid }) hh hwfB2 hndB2 HMB2
  rw [hupd] at hwfd2
  refine ⟨_, ?_, ?_, ?_, hwfd2⟩
  · simp only [addSection, hch, if_true]
    rw [hupd]
  · rfl
  · show List.Perm (preo (updN (updN d.store sid (fun n => { n with content := stripContent content, meta := dupdate n.meta meta })) selfId (fun n => { n with children := dinsert (dpop n.children name) name sid })) ((updN (updN d.store sid (fun n => { n with content := stripContent content, meta := dupdate n.meta meta })) selfId (fun n => { n with children := dinsert (dpop n.children name) name sid })).length + 1) hid) d.sec
    rw [hBlen, hsec]
    exact hperm

end MarkdownReader

namespace MarkdownReader

/-- C10 (amended): the original claim fails for the error-if-exists policy
(the call raises NameCollision and nothing moves — see the counterexample);
under the default `change_content` policy, on a well-formed document, a call
naming an existing child of the target section succeeds, pops the child
entry and re-inserts it, so the child ends up in the last position of the
parent's child mapping (and hence last in sibling serialization order). -/
theorem c10_amended (d : Doc) (selfId sid hid : Nat) (name content : PyStr)
    (hwfd : wfDoc d = true) (hh : d.header = some hid)
    (hmem : ((getN d.store selfId).name, selfId) ∈ d.sec)
    (hch : dlookup (getN d.store selfId).children name = some sid)
    (hok : okContent (stripContent content) = true) :
    (addSection d selfId name content [] .changeContent true).1 = .ok sid ∧
    (getN (addSection d selfId name content [] .changeContent true).2.store
        selfId).children
      = dpop (getN d.store selfId).children name ++ [(name, sid)] ∧
    (getN (addSection d selfId name content [] .changeContent true).2.store
        selfId).children.getLast? = some (name, sid) := by
  obtain ⟨d2, heq, hstore, _, _⟩ :=
    @addSection_change d hid selfId sid name content [] hwfd hh hmem hch hok
  have hwfd' := hwfd
  simp only [wfDoc, hh, Bool.and_eq_true, decide_eq_true_eq,
    beq_iff_eq] at hwfd'
  obtain ⟨⟨⟨hwf, hnd⟩, hsec⟩, _⟩ := hwfd'
  have hself_preo : ((getN d.store selfId).name, selfId)
      ∈ preo d.store (d.store.length + 1) hid := by
    rw [← hsec]
    exact hmem
  have hselflen : selfId < d.store.length := (preo_node hwf _ hself_preo).2.1
  have hndch : (dkeys (getN d.store selfId).children).Nodup := by
    have := (preo_node hwf _ hself_preo).2.2.2.2.1
    simpa using this
  have hchB : (getN d2.store selfId).children
      = dpop (getN d.store selfId).children name ++ [(name, sid)] := by
    rw [hstore]
    rw [getN_updN_self _ (by rw [length_updN]; exact hselflen)]
    show dinsert (dpop (getN (updN d.store sid (fun n => { n with content := stripContent content, meta := dupdate n.meta []})) selfId).children name) name sid = _
    have hA : (getN (updN d.store sid (fun n => { n with content := stripContent content, meta := dupdate n.meta []})) selfId).children = (getN d.store selfId).children := by
      by_cases hk : sid = selfId
      · subst hk
        rw [getN_updN_self _ hselflen]
      · rw [getN_updN_ne _ hk]
    rw [hA, dinsert_append_fresh sid (dmem_dpop hndch)]
  rw [heq]
  refine ⟨rfl, hchB, ?_⟩
  rw [hchB]
  exact List.getLast?_concat _

theorem c10_witness :
    wfDoc docRAB2 = true ∧
    dlookup (getN docRAB2.store 0).children (pys "A") = some 1 ∧
    (addSection docRAB2 0 (pys "A") (pys "y") [] .changeContent true).1
      = .ok 1 ∧
    (getN (addSection docRAB2 0 (pys "A") (pys "y") [] .changeContent
        true).2.store 0).children.getLast? = some (pys "A", 1) :=
  ⟨by decide, by decide,
    (c10_amended docRAB2 0 1 0 (pys "A") (pys "y") (by decide) (by decide)
      (by decide) (by decide) (by decide)).1,
    (c10_amended docRAB2 0 1 0 (pys "A") (pys "y") (by decide) (by decide)
      (by decide) (by decide) (by decide)).2.2⟩

end MarkdownReader

namespace MarkdownReader

theorem foldr_append_sublist_pointwise {α β : Type} {g1 g2 : α → List β} :
    ∀ (l : List α), (∀ a ∈ l, List.Sublist (g1 a) (g2 a)) →
    List.Sublist (l.foldr (fun a acc => g1 a ++ acc) [])
      (l.foldr (fun a acc => g2 a ++ acc) []) := by
  intro l
  induction l with
  | nil => intro _; exact List.Sublist.refl _
  | cons a rest ih =>
    intro h
    simp only [List.foldr_cons]
    exact List.Sublist.append (h a (List.mem_cons_self a rest))
      (ih (fun a2 h2 => h a2 (List.mem_cons_of_mem a h2)))

theorem foldr_append_sublist_list {α β : Type} {g : α → List β} :
    ∀ {l1 l2 : List α}, List.Sublist l1 l2 →
    List.Sublist (l1.foldr (fun a acc => g a ++ acc) [])
      (l2.foldr (fun a acc => g a ++ acc) []) := by
  intro l1 l2 hs
  induction hs with
  | slnil => exact List.Sublist.refl _
  | cons a _ ih =>
    refine ih.trans ?_
    exact List.sublist_append_right _ _
  | cons₂ a _ ih =>
    exact List.Sublist.append_left ih _

theorem foldr_append_sublist {α β : Type} {g1 g2 : α → List β}
    {l1 l2 : List α} (hs : List.Sublist l1 l2)
    (hpt : ∀ a ∈ l2, List.Sublist (g1 a) (g2 a)) :
    List.Sublist (l1.foldr (fun a acc => g1 a ++ acc) [])
      (l2.foldr (fun a acc => g2 a ++ acc) []) := by
  refine List.Sublist.trans
    (foldr_append_sublist_pointwise l1 (fun a ha => hpt a (hs.subset ha))) ?_
  exact foldr_append_sublist_list hs

/-- Popping a child entry anywhere keeps the tree well formed. -/
theorem wfT_pop {σ : Store} {p : Nat} {nm : PyStr} :
    ∀ {f j lvl : Nat} {par : Option Nat}, wfT σ f j lvl par = true →
    wfT (updN σ p (fun n => { n with children := dpop n.children nm })) f j lvl
      par = true := by
  refine wfT_mod (length_updN _ _ _) ?_ ?_ ?_ ?_ ?_
  · intro k
    by_cases hk : p = k
    · subst hk
      by_cases hp : p < σ.length
      · rw [getN_updN_self _ hp]
      · rw [updN, getN, List.set_eq_of_length_le (by omega)]
        rfl
    · rw [getN_updN_ne _ hk]
  · intro k
    by_cases hk : p = k
    · subst hk
      by_cases hp : p < σ.length
      · rw [getN_updN_self _ hp]
      · rw [updN, getN, List.set_eq_of_length_le (by omega)]
        rfl
    · rw [getN_updN_ne _ hk]
  · intro k
    by_cases hk : p = k
    · subst hk
      by_cases hp : p < σ.length
      · rw [getN_updN_self _ hp]
      · rw [updN, getN, List.set_eq_of_length_le (by omega)]
        rfl
    · rw [getN_updN_ne _ hk]
  · intro k
    left
    by_cases hk : p = k
    · subst hk
      by_cases hp : p < σ.length
      · rw [getN_updN_self _ hp]
      · rw [updN, getN, List.set_eq_of_length_le (by omega)]
        rfl
    · rw [getN_updN_ne _ hk]
  · intro k
    by_cases hk : p = k
    · subst hk
      by_cases hp : p < σ.length
      · rw [getN_updN_self _ hp]
        exact ⟨fun kv hkv => (dpop_sublist _ _).subset hkv,
          fun hndk => List.Nodup.sublist dkeys_dpop_sub hndk⟩
      · rw [updN, getN, List.set_eq_of_length_le (by omega)]
        exact ⟨fun kv hkv => hkv, fun hndk => hndk⟩
    · rw [getN_updN_ne _ hk]
      exact ⟨fun kv hkv => hkv, fun hndk => hndk⟩

/-- Popping a child entry gives a sublist of the preorder listing. -/
theorem preo_pop_sublist {σ : Store} {p : Nat} {nm : PyStr} :
    ∀ {f j lvl : Nat} {par : Option Nat}, wfT σ f j lvl par = true →
    List.Sublist
      (preo (updN σ p (fun n => { n with children := dpop n.children nm })) f j)
      (preo σ f j) := by
  intro f
  induction f with
  | zero =>
    intro j lvl par h
    simp [wfT] at h
  | succ f ih =>
    intro j lvl par h
    obtain ⟨_, _, _, _, _, _, _, _, hch⟩ := wfT_succ h
    rw [preo_succF, preo_succF]
    have hn : (getN (updN σ p (fun n => { n with children := dpop n.children nm })) j).name = (getN σ j).name := by
      by_cases hk : p = j
      · subst hk
        by_cases hp : p < σ.length
        · rw [getN_updN_self _ hp]
        · rw [updN, getN, List.set_eq_of_length_le (by omega)]
          rfl
      · rw [getN_updN_ne _ hk]
    rw [hn]
    refine List.Sublist.cons₂ _ ?_
    show List.Sublist
      (preoF (updN σ p (fun n => { n with children := dpop n.children nm })) f
        (getN (updN σ p (fun n => { n with children := dpop n.children nm })) j).children)
      (preoF σ f (getN σ j).children)
    have hcs : List.Sublist
        (getN (updN σ p (fun n => { n with children := dpop n.children nm })) j).children
        (getN σ j).children := by
      by_cases hk : p = j
      · subst hk
        by_cases hp : p < σ.length
        · rw [getN_updN_self _ hp]
          exact dpop_sublist _ _
        · rw [updN, getN, List.set_eq_of_length_le (by omega)]
          exact List.Sublist.refl _
      · rw [getN_updN_ne _ hk]
    exact foldr_append_sublist hcs (fun kv hkv => ih (hch kv hkv).2)

end MarkdownReader

namespace MarkdownReader

theorem mem_fst_foldr {β : Type} (g : (PyStr × β) → List (PyStr × β))
    (l : List (PyStr × β)) (x : PyStr) :
    x ∈ (l.foldr (fun a acc => g a ++ acc) []).map Prod.fst ↔
      ∃ a ∈ l, x ∈ (g a).map Prod.fst := by
  constructor
  · intro h
    obtain ⟨kv, hkv, hfst⟩ := List.mem_map.mp h
    obtain ⟨a, ha, hin⟩ := (mem_foldr_append _ _ kv).mp hkv
    exact ⟨a, ha, hfst ▸ List.mem_map_of_mem Prod.fst hin⟩
  · intro ⟨a, ha, hx⟩
    obtain ⟨kv, hkv, hfst⟩ := List.mem_map.mp hx
    exact hfst ▸ List.mem_map_of_mem Prod.fst
      ((mem_foldr_append _ _ kv).mpr ⟨a, ha, hkv⟩)

/-- After popping the deleted child's entry, its name is gone from the
whole preorder listing: the popped edge was the only way to reach it. -/
theorem preo_pop_not_name {σ : Store} {p sid hid : Nat} {nm : PyStr}
    (hnd : ((preo σ (σ.length + 1) hid).map Prod.fst).Nodup)
    (hsid_glob : (nm, sid) ∈ preo σ (σ.length + 1) hid)
    (hpar_sid : (getN σ sid).parent = some p)
    (hname_sid : (getN σ sid).name = nm) :
    ∀ {f j lvl : Nat} {par : Option Nat}, wfT σ f j lvl par = true →
    j ≠ sid →
    (∀ kv ∈ preo σ f j, kv ∈ preo σ (σ.length + 1) hid) →
    nm ∉ (preo (updN σ p (fun n => { n with children := dpop n.children nm }))
      f j).map Prod.fst := by
  intro f
  induction f with
  | zero =>
    intro j lvl par h
    simp [wfT] at h
  | succ f ih =>
    intro j lvl par h hj hsub hmem
    obtain ⟨hjlen, _, _, _, _, _, _, hjnd, hch⟩ := wfT_succ h
    have hn : (getN (updN σ p (fun n => { n with children := dpop n.children nm })) j).name = (getN σ j).name := by
      by_cases hk : p = j
      · subst hk
        by_cases hp : p < σ.length
        · rw [getN_updN_self _ hp]
        · rw [updN, getN, List.set_eq_of_length_le (by omega)]
          rfl
      · rw [getN_updN_ne _ hk]
    rw [preo_succF, List.map_cons, hn] at hmem
    rcases List.mem_cons.mp hmem with hmem | hmem
    · have hhead : ((getN σ j).name, j) ∈ preo σ (f + 1) j := by
        rw [preo_succF]
        exact List.mem_cons_self _ _
      have heq : ((getN σ j).name, j) = (nm, sid) :=
        fst_inj_of_nodup hnd (hsub _ hhead) hsid_glob hmem.symm
      exact hj (congrArg Prod.snd heq)
    · obtain ⟨kv2, hkv2, hmem2⟩ := (mem_fst_foldr _ _ nm).mp hmem
      have hkv2' : kv2 ∈ (getN σ j).children := by
        by_cases hk : p = j
        · subst hk
          by_cases hp : p < σ.length
          · rw [getN_updN_self _ hp] at hkv2
            exact (dpop_sublist _ _).subset hkv2
          · rw [updN, getN, List.set_eq_of_length_le (by omega)] at hkv2
            exact hkv2
        · rw [getN_updN_ne _ hk] at hkv2
          exact hkv2
      have hcf := hch kv2 hkv2'
      have hne2 : kv2.2 ≠ sid := by
        intro he
        have hpar2 : (getN σ kv2.2).parent = some j := (wfT_parent hcf.2).2.2.1
        rw [he, hpar_sid] at hpar2
        injection hpar2 with hpj
        have hkv2d : kv2 ∈ dpop (getN σ j).children nm := by
          rw [← hpj] at hjlen hkv2 ⊢
          rw [getN_updN_self _ hjlen] at hkv2
          exact hkv2
        have := mem_dpop_ne hjnd hkv2d
        rw [hcf.1, he, hname_sid] at this
        exact this rfl
      refine ih hcf.2 hne2 (fun kv hkv => hsub kv ?_) hmem2
      rw [preo_succF]
      exact List.mem_cons_of_mem _ ((mem_foldr_append _ _ kv).mpr
        ⟨kv2, hkv2', hkv⟩)

end MarkdownReader

namespace MarkdownReader

/-- C7 (amended): the first two parts of the claim hold for every document:
deleting an unregistered name is a no-op, and deleting a section with no
parent (the root) fails with CannotDeleteRoot leaving everything unchanged.
The third part — deleting another registered name removes exactly that
section from its parent's children and from the registry — fails in general
(see the counterexample: a stale alias node can be resurrected by the
resync) but holds on every well-formed document. -/
theorem c7_amended (d : Doc) (name : PyStr) :
    (dlookup d.sec name = none → deleteSection d name = (none, d)) ∧
    (∀ sid, dlookup d.sec name = some sid →
      (getN d.store sid).parent = none →
      deleteSection d name = (some .cannotDeleteRoot, d)) ∧
    (∀ hid sid p, wfDoc d = true → d.header = some hid →
      dlookup d.sec name = some sid → (getN d.store sid).parent = some p →
      (deleteSection d name).1 = none ∧
      dlookup (deleteSection d name).2.sec name = none ∧
      dmem (getN (deleteSection d name).2.store p).children name = false) := by
  refine ⟨?_, ?_, ?_⟩
  · intro h
    simp only [deleteSection, h]
  · intro sid h1 h2
    simp only [deleteSection, h1, h2]
  · intro hid sid p hwfd hh hlook hpar
    simp only [wfDoc, hh, Bool.and_eq_true, decide_eq_true_eq,
      beq_iff_eq] at hwfd
    obtain ⟨⟨⟨hwf, hnd⟩, hsec⟩, _⟩ := hwfd
    have hsid_glob : (name, sid) ∈ preo d.store (d.store.length + 1) hid := by
      rw [← hsec]
      exact mem_of_dlookup hlook
    have hname_sid : (getN d.store sid).name = name :=
      ((preo_node hwf _ hsid_glob).1).symm
    have hrootpar : (getN d.store hid).parent = none := (wfT_succ hwf).2.2.2.2.1
    have hsid_ne_hid : sid ≠ hid := by
      intro he
      rw [he, hrootpar] at hpar
      exact Option.noConfusion hpar
    rcases preo_edge hwf _ hsid_glob with htop | ⟨q, hqlen, hqmem, hqpar, hqnd⟩
    · exact absurd htop hsid_ne_hid
    · have hqp : q = p := by
        have : (getN d.store sid).parent = some q := hqpar
        rw [hpar] at this
        injection this with h0
        exact h0.symm
      subst hqp
      have hdm : dmem (getN d.store q).children name = true := by
        rw [dmem, lookup_of_mem_nodup hqmem hqnd]
        rfl
      have hlen2 : (updN d.store q (fun n => { n with children := dpop n.children name })).length = d.store.length := length_updN _ _ _
      have hwf2 : wfT (updN d.store q (fun n => { n with children := dpop n.children name })) ((updN d.store q (fun n => { n with children := dpop n.children name })).length + 1) hid 1 none = true := by
        rw [hlen2]
        exact wfT_pop hwf
      have hsub : List.Sublist (preo (updN d.store q (fun n => { n with children := dpop n.children name })) (d.store.length + 1) hid) (preo d.store (d.store.length + 1) hid) := preo_pop_sublist hwf
      have hnd2 : ((preo (updN d.store q (fun n => { n with children := dpop n.children name })) ((updN d.store q (fun n => { n with children := dpop n.children name })).length + 1) hid).map Prod.fst).Nodup := by
        rw [hlen2]
        exact List.Nodup.sublist (List.Sublist.map Prod.fst hsub) hnd
      have HM2 : ∀ kv ∈ preo (updN d.store q (fun n => { n with children := dpop n.children name })) ((updN d.store q (fun n => { n with children := dpop n.children name })).length + 1) hid, dlookup d.sec kv.1 = some kv.2 := by
        rw [hlen2]
        intro kv hkv
        rw [hsec]
        exact lookup_of_mem_nodup (hsub.subset hkv) hnd
      have hupd := updateDoc_general
        (d := { d with store := updN d.store q (fun n => { n with children := dpop n.children name }) }) hh hwf2 hnd2 HM2
      have hexc : name ∉ (preo (updN d.store q (fun n => { n with children := dpop n.children name })) (d.store.length + 1) hid).map Prod.fst :=
        preo_pop_not_name hnd hsid_glob hpar hname_sid hwf
          (fun he => hsid_ne_hid he.symm) (fun kv hkv => hkv)
      have hrun : deleteSection d name = updateDoc { d with store := updN d.store q (fun n => { n with children := dpop n.children name }) } := by
        simp only [deleteSection, hlook, hpar, hdm]
        rfl
      rw [hrun, hupd]
      refine ⟨rfl, ?_, ?_⟩
      · show dlookup (preo (updN d.store q (fun n => { n with children := dpop n.children name })) ((updN d.store q (fun n => { n with children := dpop n.children name })).length + 1) hid) name = none
        rw [hlen2]
        exact dlookup_not_mem hexc
      · show dmem (getN (updN d.store q (fun n => { n with children := dpop n.children name })) q).children name = false
        rw [getN_updN_self _ hqlen]
        exact dmem_dpop hqnd

theorem c7_witness :
    (dlookup docRAB2.sec (pys "Z") = none ∧
      deleteSection docRAB2 (pys "Z") = (none, docRAB2)) ∧
    (dlookup docRAB2.sec (pys "R") = some 0 ∧
      (getN docRAB2.store 0).parent = none ∧
      deleteSection docRAB2 (pys "R") = (some .cannotDeleteRoot, docRAB2)) ∧
    (wfDoc docRAB2 = true ∧ dlookup docRAB2.sec (pys "B") = some 2 ∧
      (getN docRAB2.store 2).parent = some 0 ∧
      (deleteSection docRAB2 (pys "B")).1 = none ∧
      dlookup (deleteSection docRAB2 (pys "B")).2.sec (pys "B") = none ∧
      dmem (getN (deleteSection docRAB2 (pys "B")).2.store 0).children
        (pys "B") = false) :=
  ⟨⟨by decide, (c7_amended docRAB2 (pys "Z")).1 (by decide)⟩,
   ⟨by decide, by decide,
    (c7_amended docRAB2 (pys "R")).2.1 0 (by decide) (by decide)⟩,
   ⟨by decide, by decide, by decide,
    (c7_amended docRAB2 (pys "B")).2.2 0 2 0 (by decide) (by decide)
      (by decide) (by decide)⟩⟩

end MarkdownReader

namespace MarkdownReader

theorem foldr_append_split {α β : Type} (g : α → List β) :
    ∀ (l1 l2 : List α),
    (l1 ++ l2).foldr (fun a acc => g a ++ acc) []
      = l1.foldr (fun a acc => g a ++ acc) []
        ++ l2.foldr (fun a acc => g a ++ acc) [] := by
  intro l1 l2
  induction l1 with
  | nil => rfl
  | cons a rest ih =>
    simp only [List.cons_append, List.foldr_cons, ih, List.append_assoc]

theorem foldr_preo_rep {name : PyStr} {nid selfId : Nat}
    {g2 g1 : (PyStr × Nat) → List (PyStr × Nat)} :
    ∀ (ch : List (PyStr × Nat)),
    (∀ kv ∈ ch, List.Perm (g2 kv)
      (g1 kv ++ List.replicate (((g1 kv).map Prod.snd).count selfId)
        (name, nid))) →
    List.Perm (ch.foldr (fun kv acc => g2 kv ++ acc) [])
      ((ch.foldr (fun kv acc => g1 kv ++ acc) []) ++ List.replicate
        (((ch.foldr (fun kv acc => g1 kv ++ acc) []).map Prod.snd).count
          selfId) (name, nid)) := by
  intro ch
  induction ch with
  | nil => intro _; exact List.Perm.refl _
  | cons kv rest ih =>
    intro h
    simp only [List.foldr_cons]
    have h1 := h kv (List.mem_cons_self kv rest)
    have h2 := ih (fun kv2 hk => h kv2 (List.mem_cons_of_mem kv hk))
    refine (List.Perm.append h1 h2).trans ?_
    rw [List.map_append, List.count_append]
    rw [List.replicate_add]
    have hassoc1 : (g1 kv ++ List.replicate (((g1 kv).map Prod.snd).count selfId) (name, nid)) ++ (rest.foldr (fun kv acc => g1 kv ++ acc) [] ++ List.replicate (((rest.foldr (fun kv acc => g1 kv ++ acc) []).map Prod.snd).count selfId) (name, nid)) = g1 kv ++ (List.replicate (((g1 kv).map Prod.snd).count selfId) (name, nid) ++ (rest.foldr (fun kv acc => g1 kv ++ acc) [] ++ List.replicate (((rest.foldr (fun kv acc => g1 kv ++ acc) []).map Prod.snd).count selfId) (name, nid))) := by
      rw [List.append_assoc]
    rw [hassoc1]
    have hassoc2 : (g1 kv ++ rest.foldr (fun kv acc => g1 kv ++ acc) []) ++ (List.replicate (((g1 kv).map Prod.snd).count selfId) (name, nid) ++ List.replicate (((rest.foldr (fun kv acc => g1 kv ++ acc) []).map Prod.snd).count selfId) (name, nid)) = g1 kv ++ (rest.foldr (fun kv acc => g1 kv ++ acc) [] ++ (List.replicate (((g1 kv).map Prod.snd).count selfId) (name, nid) ++ List.replicate (((rest.foldr (fun kv acc => g1 kv ++ acc) []).map Prod.snd).count selfId) (name, nid))) := by
      rw [List.append_assoc]
    rw [hassoc2]
    refine List.Perm.append_left (g1 kv) ?_
    have e1 : List.replicate (((g1 kv).map Prod.snd).count selfId) (name, nid) ++ (rest.foldr (fun kv acc => g1 kv ++ acc) [] ++ List.replicate (((rest.foldr (fun kv acc => g1 kv ++ acc) []).map Prod.snd).count selfId) (name, nid)) = (List.replicate (((g1 kv).map Prod.snd).count selfId) (name, nid) ++ rest.foldr (fun kv acc => g1 kv ++ acc) []) ++ List.replicate (((rest.foldr (fun kv acc => g1 kv ++ acc) []).map Prod.snd).count selfId) (name, nid) := by
      rw [List.append_assoc]
    have e2 : rest.foldr (fun kv acc => g1 kv ++ acc) [] ++ (List.replicate (((g1 kv).map Prod.snd).count selfId) (name, nid) ++ List.replicate (((rest.foldr (fun kv acc => g1 kv ++ acc) []).map Prod.snd).count selfId) (name, nid)) = (rest.foldr (fun kv acc => g1 kv ++ acc) [] ++ List.replicate (((g1 kv).map Prod.snd).count selfId) (name, nid)) ++ List.replicate (((rest.foldr (fun kv acc => g1 kv ++ acc) []).map Prod.snd).count selfId) (name, nid) := by
      rw [List.append_assoc]
    rw [e1, e2]
    exact List.Perm.append List.perm_append_comm (List.Perm.refl _)
end MarkdownReader


namespace MarkdownReader

/-- Appending a fresh leaf as the last child of `selfId` inserts one copy
of its (name, id) pair into the preorder listing per visit of `selfId`,
up to permutation. -/
theorem preo_add_perm {σ σ2 : Store} {selfId nid : Nat} {name : PyStr}
    (hnid : σ.length ≤ nid)
    (hname : ∀ k, k ≠ nid → (getN σ2 k).name = (getN σ k).name)
    (hkch : (getN σ2 selfId).children
      = (getN σ selfId).children ++ [(name, nid)])
    (hchildren : ∀ k, k ≠ nid → k ≠ selfId →
      (getN σ2 k).children = (getN σ k).children)
    (hnew_name : (getN σ2 nid).name = name)
    (hnew_ch : (getN σ2 nid).children = []) :
    ∀ {f j lvl : Nat} {par : Option Nat}, wfT σ f j lvl par = true →
    List.Perm (preo σ2 (f + 1) j)
      (preo σ f j ++ List.replicate
        (((preo σ f j).map Prod.snd).count selfId) (name, nid)) := by
  intro f
  induction f with
  | zero =>
    intro j lvl par h
    simp [wfT] at h
  | succ f ih =>
    intro j lvl par h
    obtain ⟨hjlen, _, _, _, _, _, _, _, hch⟩ := wfT_succ h
    have hjne : j ≠ nid := by omega
    have hF := foldr_preo_rep (getN σ j).children
      (fun kv hkv => ih (hch kv hkv).2)
    by_cases hjs : j = selfId
    · subst hjs
      have hleaf : preo σ2 (f + 1) nid = [(name, nid)] := by
        cases f with
        | zero =>
          rw [preo_succF, hnew_name, hnew_ch]
          rfl
        | succ f2 =>
          rw [preo_succF, hnew_name, hnew_ch]
          rfl
      rw [preo_succF, preo_succF, hname j hjne, hkch]
      show List.Perm (((getN σ j).name, j) ::
        (((getN σ j).children ++ [(name, nid)]).foldr
          (fun kv acc => preo σ2 (f + 1) kv.2 ++ acc) []))
        ((((getN σ j).name, j) :: preoF σ f (getN σ j).children)
          ++ List.replicate (((((getN σ j).name, j) ::
            preoF σ f (getN σ j).children).map Prod.snd).count j)
            (name, nid))
      rw [foldr_append_split]
      simp only [List.foldr_cons, List.foldr_nil, List.append_nil]
      rw [hleaf, List.map_cons, List.count_cons_self, List.replicate_succ',
        List.cons_append]
      refine List.Perm.cons _ ?_
      show List.Perm
        ((getN σ j).children.foldr (fun kv acc => preo σ2 (f + 1) kv.2 ++ acc)
          [] ++ [(name, nid)])
        (preoF σ f (getN σ j).children ++
          (List.replicate (((preoF σ f (getN σ j).children).map
            Prod.snd).count j) (name, nid) ++ [(name, nid)]))
      rw [← List.append_assoc]
      exact List.Perm.append hF (List.Perm.refl _)
    · rw [preo_succF, preo_succF, hname j hjne, hchildren j hjne hjs]
      show List.Perm (((getN σ j).name, j) ::
        ((getN σ j).children.foldr (fun kv acc => preo σ2 (f + 1) kv.2 ++ acc)
          []))
        ((((getN σ j).name, j) :: preoF σ f (getN σ j).children)
          ++ List.replicate (((((getN σ j).name, j) ::
            preoF σ f (getN σ j).children).map Prod.snd).count selfId)
            (name, nid))
      rw [List.map_cons, List.count_cons_of_ne (fun he => hjs he.symm),
        List.cons_append]
      exact List.Perm.cons _ hF

end MarkdownReader

namespace MarkdownReader

theorem wfT_mk {σ : Store} {f i lvl : Nat} {par : Option Nat}
    (h1 : i < σ.length) (h2 : 1 ≤ lvl) (h3 : lvl ≤ σ.length)
    (h4 : (getN σ i).level = lvl) (h5 : (getN σ i).parent = par)
    (h6 : cleanName (getN σ i).name = true)
    (h7 : okContent (getN σ i).content = true)
    (h8 : (dkeys (getN σ i).children).Nodup)
    (h9 : ∀ kv ∈ (getN σ i).children, kv.1 = (getN σ kv.2).name ∧
      wfT σ f kv.2 (lvl + 1) (some i) = true) :
    wfT σ (f + 1) i lvl par = true := by
  simp only [wfT, Bool.and_eq_true, decide_eq_true_eq, beq_iff_eq,
    List.all_eq_true]
  exact ⟨⟨⟨⟨⟨⟨⟨⟨h1, h2⟩, h3⟩, h4⟩, h5⟩, h6⟩, h7⟩, h8⟩, h9⟩

/-- Appending a fresh well-formed leaf as the last child of `selfId` keeps
the tree well formed, at one extra unit of fuel. -/
theorem wfT_add {σ σ2 : Store} {selfId nid : Nat} {name content : PyStr}
    (hlen2 : σ2.length = σ.length + 1)
    (hnid : σ.length ≤ nid) (hnidlt : nid < σ2.length)
    (hname : ∀ k, k ≠ nid → (getN σ2 k).name = (getN σ k).name)
    (hlevel : ∀ k, k ≠ nid → (getN σ2 k).level = (getN σ k).level)
    (hparent : ∀ k, k ≠ nid → (getN σ2 k).parent = (getN σ k).parent)
    (hcontent : ∀ k, k ≠ nid → (getN σ2 k).content = (getN σ k).content)
    (hkch : (getN σ2 selfId).children
      = (getN σ selfId).children ++ [(name, nid)])
    (hchildren : ∀ k, k ≠ nid → k ≠ selfId →
      (getN σ2 k).children = (getN σ k).children)
    (hnotch : name ∉ dkeys (getN σ selfId).children)
    (hnew_name : (getN σ2 nid).name = name)
    (hnew_level : (getN σ2 nid).level = (getN σ selfId).level + 1)
    (hnew_parent : (getN σ2 nid).parent = some selfId)
    (hnew_content : (getN σ2 nid).content = content)
    (hnew_ch : (getN σ2 nid).children = [])
    (hcl : cleanName name = true) (hok : okContent content = true) :
    ∀ {f j lvl : Nat} {par : Option Nat}, wfT σ f j lvl par = true →
    wfT σ2 (f + 1) j lvl par = true := by
  intro f
  induction f with
  | zero =>
    intro j lvl par h
    simp [wfT] at h
  | succ f ih =>
    intro j lvl par h
    obtain ⟨h1, h2, h3, h4, h5, h6, h7, h8, hch⟩ := wfT_succ h
    have hjne : j ≠ nid := by omega
    have hkvfact : ∀ kv ∈ (getN σ j).children,
        kv.1 = (getN σ2 kv.2).name ∧ wfT σ2 (f + 1) kv.2 (lvl + 1) (some j)
          = true := by
      intro kv hkv
      have hc := hch kv hkv
      have hkvlt : kv.2 < σ.length := (wfT_parent hc.2).1
      refine ⟨?_, ih hc.2⟩
      rw [hname kv.2 (by omega)]
      exact hc.1
    refine wfT_mk (by omega) h2 (by omega)
      (by rw [hlevel j hjne]; exact h4)
      (by rw [hparent j hjne]; exact h5)
      (by rw [hname j hjne]; exact h6)
      (by rw [hcontent j hjne]; exact h7) ?_ ?_
    · by_cases hjs : j = selfId
      · subst hjs
        rw [hkch]
        show (dkeys ((getN σ j).children ++ [(name, nid)])).Nodup
        rw [show dkeys ((getN σ j).children ++ [(name, nid)])
          = dkeys (getN σ j).children ++ [name] from by simp [dkeys]]
        rw [List.nodup_append]
        exact ⟨h8, List.nodup_singleton _,
          fun x hx hx2 => by
            rw [List.mem_singleton] at hx2
            exact hnotch (hx2 ▸ hx)⟩
      · rw [hchildren j hjne hjs]
        exact h8
    · intro kv hkv
      by_cases hjs : j = selfId
      · subst hjs
        rw [hkch] at hkv
        rcases List.mem_append.mp hkv with hkv | hkv
        · exact hkvfact kv hkv
        · rw [List.mem_singleton] at hkv
          subst hkv
          refine ⟨hnew_name.symm, ?_⟩
          have hlvlj : (getN σ j).level = lvl := h4
          refine wfT_mk hnidlt (by omega) (by omega)
            (by rw [hnew_level, hlvlj]) hnew_parent
            (by rw [hnew_name]; exact hcl)
            (by rw [hnew_content]; exact hok)
            (by rw [hnew_ch]; exact List.nodup_nil) ?_
          rw [hnew_ch]
          intro kv2 hkv2
          exact absurd hkv2 (List.not_mem_nil kv2)
      · rw [hchildren j hjne hjs] at hkv
        exact hkvfact kv hkv

end MarkdownReader

namespace MarkdownReader

theorem dlookup_none_not_mem {β : Type} {d : List (PyStr × β)} {k : PyStr}
    (h : dlookup d k = none) : k ∉ dkeys d := by
  induction d with
  | nil => simp [dkeys]
  | cons p rest ih =>
    obtain ⟨k0, v0⟩ := p
    by_cases h0 : k0 = k
    · rw [dlookup, if_pos h0] at h
      exact Option.noConfusion h
    · rw [dlookup, if_neg h0] at h
      rw [dkeys, List.map_cons, List.mem_cons]
      rintro (hk | hk)
      · exact h0 hk.symm
      · exact ih h hk

theorem dpop_not_mem {β : Type} {d : List (PyStr × β)} {k : PyStr}
    (h : k ∉ dkeys d) : dpop d k = d := by
  induction d with
  | nil => rfl
  | cons p rest ih =>
    obtain ⟨k0, v0⟩ := p
    rw [dkeys, List.map_cons, List.mem_cons] at h
    push_neg at h
    rw [dpop, if_neg (fun he => h.1 he.symm), ih h.2]

theorem getN_append_out {σ : Store} {i : Nat} (h : σ.length + 1 ≤ i)
    (n : Node) : getN (σ ++ [n]) i = getN σ i := by
  rw [getN, getN, List.getD_eq_default, List.getD_eq_default]
  · omega
  · simpa using h

theorem count_one_of_nodup_mem {α : Type} [DecidableEq α] {l : List α}
    {a : α} (hnd : l.Nodup) (hm : a ∈ l) : l.count a = 1 := by
  have h1 : l.count a ≤ 1 := List.nodup_iff_count_le_one.mp hnd a
  have h2 : 0 < l.count a := List.count_pos_iff_mem.mpr hm
  omega

end MarkdownReader

namespace MarkdownReader

/-- `add_section` with a fresh name (no child, registry and case-insensitive
checks pass) under the default policy: a new leaf with the stripped content
is appended to the heap and to the parent's children, the resync succeeds,
and the registry gains exactly the one new entry, up to permutation. -/
theorem addSection_fresh {d : Doc} {hid selfId : Nat} {name content : PyStr}
    {meta : List (PyStr × PyStr)}
    (hwfd : wfDoc d = true) (hh : d.header = some hid)
    (hmem : ((getN d.store selfId).name, selfId) ∈ d.sec)
    (hnoch : dlookup (getN d.store selfId).children name = none)
    (hfresh : dmem d.sec name = false)
    (hci : ((dkeys d.sec).map pyLower).contains (pyLower name) = false)
    (hcl : cleanName name = true)
    (hok : okContent (stripContent content) = true) :
    ∃ d2, addSection d selfId name content meta .changeContent true
        = (.ok d.store.length, d2) ∧
      d2.store = updN (d.store ++ [(⟨name, (getN d.store selfId).level + 1, some selfId, stripContent content, [], meta⟩ : Node)]) selfId (fun n => { n with children := dinsert (dpop n.children name) name d.store.length }) ∧
      List.Perm d2.sec (d.sec ++ [(name, d.store.length)]) ∧
      wfDoc d2 = true := by
  simp only [wfDoc, hh, Bool.and_eq_true, decide_eq_true_eq,
    beq_iff_eq] at hwfd
  obtain ⟨⟨⟨hwf, hnd⟩, hsec⟩, _⟩ := hwfd
  have hself_preo : ((getN d.store selfId).name, selfId)
      ∈ preo d.store (d.store.length + 1) hid := by
    rw [← hsec]
    exact hmem
  have hselflen : selfId < d.store.length := (preo_node hwf _ hself_preo).2.1
  have hnotch : name ∉ dkeys (getN d.store selfId).children :=
    dlookup_none_not_mem hnoch
  have hlookup_none : dlookup d.sec name = none := by
    rw [dmem] at hfresh
    exact Option.not_isSome_iff_eq_none.mp (by rw [hfresh]; exact
      Bool.false_ne_true)
  have hfresh_names : name ∉ (preo d.store (d.store.length + 1) hid).map
      Prod.fst := by
    rw [← hsec]
    exact dlookup_none_not_mem hlookup_none
  have hfields' : ∀ k, k ≠ d.store.length →
      getN (d.store ++ [(⟨name, (getN d.store selfId).level + 1, some selfId, stripContent content, [], meta⟩ : Node)]) k = getN d.store k := by
    intro k hk
    by_cases hlt : k < d.store.length
    · exact getN_append_lt hlt _
    · exact getN_append_out (by omega) _
  have hnew' : getN (d.store ++ [(⟨name, (getN d.store selfId).level + 1, some selfId, stripContent content, [], meta⟩ : Node)]) d.store.length = ⟨name, (getN d.store selfId).level + 1, some selfId, stripContent content, [], meta⟩ :=
    getN_append_len _ _
  have hselfne : selfId ≠ d.store.length := by omega
  have hlen2 : (updN (d.store ++ [(⟨name, (getN d.store selfId).level + 1, some selfId, stripContent content, [], meta⟩ : Node)]) selfId (fun n => { n with children := dinsert (dpop n.children name) name d.store.length })).length = d.store.length + 1 := by
    rw [length_updN]
    simp
  have hselflen' : selfId < (d.store ++ [(⟨name, (getN d.store selfId).level + 1, some selfId, stripContent content, [], meta⟩ : Node)]).length := by
    simp
    omega
  have hgself : getN (updN (d.store ++ [(⟨name, (getN d.store selfId).level + 1, some selfId, stripContent content, [], meta⟩ : Node)]) selfId (fun n => { n with children := dinsert (dpop n.children name) name d.store.length })) selfId = { getN d.store selfId with children := dinsert (dpop (getN d.store selfId).children name) name d.store.length } := by
    rw [getN_updN_self _ hselflen', hfields' selfId hselfne]
  have hgne : ∀ k, k ≠ selfId → k ≠ d.store.length →
      getN (updN (d.store ++ [(⟨name, (getN d.store selfId).level + 1, some selfId, stripContent content, [], meta⟩ : Node)]) selfId (fun n => { n with children := dinsert (dpop n.children name) name d.store.length })) k = getN d.store k := by
    intro k hk1 hk2
    rw [getN_updN_ne _ (fun he => hk1 he.symm), hfields' k hk2]
  have hgnew : getN (updN (d.store ++ [(⟨name, (getN d.store selfId).level + 1, some selfId, stripContent content, [], meta⟩ : Node)]) selfId (fun n => { n with children := dinsert (dpop n.children name) name d.store.length })) d.store.length = ⟨name, (getN d.store selfId).level + 1, some selfId, stripContent content, [], meta⟩ := by
    rw [getN_updN_ne _ hselfne, hnew']
  have hkch2 : (getN (updN (d.store ++ [(⟨name, (getN d.store selfId).level + 1, some selfId, stripContent content, [], meta⟩ : Node)]) selfId (fun n => { n with children := dinsert (dpop n.children name) name d.store.length })) selfId).children = (getN d.store selfId).children ++ [(name, d.store.length)] := by
    rw [hgself]
    show dinsert (dpop (getN d.store selfId).children name) name d.store.length = _
    rw [dpop_not_mem hnotch,
      dinsert_append_fresh _ (dmem_false_of_not_mem hnotch)]
  have hname2 : ∀ k, k ≠ d.store.length →
      (getN (updN (d.store ++ [(⟨name, (getN d.store selfId).level + 1, some selfId, stripContent content, [], meta⟩ : Node)]) selfId (fun n => { n with children := dinsert (dpop n.children name) name d.store.length })) k).name = (getN d.store k).name := by
    intro k hk
    by_cases hks : k = selfId
    · subst hks
      rw [hgself]
    · rw [hgne k hks hk]
  have hlevel2 : ∀ k, k ≠ d.store.length →
      (getN (updN (d.store ++ [(⟨name, (getN d.store selfId).level + 1, some selfId, stripContent content, [], meta⟩ : Node)]) selfId (fun n => { n with children := dinsert (dpop n.children name) name d.store.length })) k).level = (getN d.store k).level := by
    intro k hk
    by_cases hks : k = selfId
    · subst hks
      rw [hgself]
    · rw [hgne k hks hk]
  have hparent2 : ∀ k, k ≠ d.store.length →
      (getN (updN (d.store ++ [(⟨name, (getN d.store selfId).level + 1, some selfId, stripContent content, [], meta⟩ : Node)]) selfId (fun n => { n with children := dinsert (dpop n.children name) name d.store.length })) k).parent = (getN d.store k).parent := by
    intro k hk
    by_cases hks : k = selfId
    · subst hks
      rw [hgself]
    · rw [hgne k hks hk]
  have hcontent2 : ∀ k, k ≠ d.store.length →
      (getN (updN (d.store ++ [(⟨name, (getN d.store selfId).level + 1, some selfId, stripContent content, [], meta⟩ : Node)]) selfId (fun n => { n with children := dinsert (dpop n.children name) name d.store.length })) k).content = (getN d.store k).content := by
    intro k hk
    by_cases hks : k = selfId
    · subst hks
      rw [hgself]
    · rw [hgne k hks hk]
  have hchildren2 : ∀ k, k ≠ d.store.length → k ≠ selfId →
      (getN (updN (d.store ++ [(⟨name, (getN d.store selfId).level + 1, some selfId, stripContent content, [], meta⟩ : Node)]) selfId (fun n => { n with children := dinsert (dpop n.children name) name d.store.length })) k).children = (getN d.store k).children := by
    intro k hk hks
    rw [hgne k hks hk]
  have hwf2 : wfT (updN (d.store ++ [(⟨name, (getN d.store selfId).level + 1, some selfId, stripContent content, [], meta⟩ : Node)]) selfId (fun n => { n with children := dinsert (dpop n.children name) name d.store.length })) (d.store.length + 1 + 1) hid 1 none = true := by
    refine wfT_add hlen2 (Nat.le_refl _) (by omega) hname2 hlevel2 hparent2
      hcontent2 hkch2 hchildren2 hnotch ?_ ?_ ?_ ?_ ?_ hcl hok hwf
    · rw [hgnew]
    · rw [hgnew]
    · rw [hgnew]
    · rw [hgnew]
    · rw [hgnew]
  have hsnd_nd : ((preo d.store (d.store.length + 1) hid).map Prod.snd).Nodup :=
    nodup_snd_of_fst (g := fun i => (getN d.store i).name) hnd
      (fun kv hkv => (preo_node hwf _ hkv).1)
  have hcount : ((preo d.store (d.store.length + 1) hid).map Prod.snd).count
      selfId = 1 :=
    count_one_of_nodup_mem hsnd_nd (List.mem_map_of_mem Prod.snd hself_preo)
  have hperm : List.Perm (preo (updN (d.store ++ [(⟨name, (getN d.store selfId).level + 1, some selfId, stripContent content, [], meta⟩ : Node)]) selfId (fun n => { n with children := dinsert (dpop n.children name) name d.store.length })) (d.store.length + 1 + 1) hid) (preo d.store (d.store.length + 1) hid ++ [(name, d.store.length)]) := by
    have := preo_add_perm (Nat.le_refl _) hname2 hkch2 hchildren2
      (by rw [hgnew]) (by rw [hgnew]) hwf
    rw [hcount] at this
    simpa using this
  have hnd2 : ((preo (updN (d.store ++ [(⟨name, (getN d.store selfId).level + 1, some selfId, stripContent content, [], meta⟩ : Node)]) selfId (fun n => { n with children := dinsert (dpop n.children name) name d.store.length })) (d.store.length + 1 + 1) hid).map Prod.fst).Nodup := by
    refine (List.Perm.nodup_iff (hperm.map Prod.fst)).mpr ?_
    rw [List.map_append]
    rw [List.nodup_append]
    refine ⟨hnd, List.nodup_singleton _, ?_⟩
    intro x hx hx2
    simp only [List.map_cons, List.map_nil, List.mem_singleton] at hx2
    exact hfresh_names (hx2 ▸ hx)
  have hd1sec : dinsert d.sec name d.store.length
      = d.sec ++ [(name, d.store.length)] :=
    dinsert_append_fresh _ hfresh
  have HM2 : ∀ kv ∈ preo (updN (d.store ++ [(⟨name, (getN d.store selfId).level + 1, some selfId, stripContent content, [], meta⟩ : Node)]) selfId (fun n => { n with children := dinsert (dpop n.children name) name d.store.length })) (d.store.length + 1 + 1) hid, dlookup (dinsert d.sec name d.store.length) kv.1 = some kv.2 := by
    intro kv hkv
    rw [hd1sec, dlookup_append]
    rcases List.mem_append.mp (hperm.subset hkv) with hkv2 | hkv2
    · rw [show dlookup d.sec kv.1 = some kv.2 from by
        rw [hsec]; exact lookup_of_mem_nodup hkv2 hnd]
    · rw [List.mem_singleton] at hkv2
      subst hkv2
      rw [hlookup_none]
      simp [dlookup]
  have hwf2' : wfT (updN (d.store ++ [(⟨name, (getN d.store selfId).level + 1, some selfId, stripContent content, [], meta⟩ : Node)]) selfId (fun n => { n with children := dinsert (dpop n.children name) name d.store.length })) ((updN (d.store ++ [(⟨name, (getN d.store selfId).level + 1, some selfId, stripContent content, [], meta⟩ : Node)]) selfId (fun n => { n with children := dinsert (dpop n.children name) name d.store.length })).length + 1) hid 1 none = true := by
    rw [hlen2]
    exact hwf2
  have hnd2' : ((preo (updN (d.store ++ [(⟨name, (getN d.store selfId).level + 1, some selfId, stripContent content, [], meta⟩ : Node)]) selfId (fun n => { n with children := dinsert (dpop n.children name) name d.store.length })) ((updN (d.store ++ [(⟨name, (getN d.store selfId).level + 1, some selfId, stripContent content, [], meta⟩ : Node)]) selfId (fun n => { n with children := dinsert (dpop n.children name) name d.store.length })).length + 1) hid).map Prod.fst).Nodup := by
    rw [hlen2]
    exact hnd2
  have HM2' : ∀ kv ∈ preo (updN (d.store ++ [(⟨name, (getN d.store selfId).level + 1, some selfId, stripContent content, [], meta⟩ : Node)]) selfId (fun n => { n with children := dinsert (dpop n.children name) name d.store.length })) ((updN (d.store ++ [(⟨name, (getN d.store selfId).level + 1, some selfId, stripContent content, [], meta⟩ : Node)]) selfId (fun n => { n with children := dinsert (dpop n.children name) name d.store.length })).length + 1) hid, dlookup (dinsert d.sec name d.store.length) kv.1 = some kv.2 := by
    rw [hlen2]
    exact HM2
  have hupd := updateDoc_general
    (d := { d with store := updN (d.store ++ [(⟨name, (getN d.store selfId).level + 1, some selfId, stripContent content, [], meta⟩ : Node)]) selfId (fun n => { n with children := dinsert (dpop n.children name) name d.store.length }), sec := dinsert d.sec name d.store.length })
    hh hwf2' hnd2' HM2'
  have hwfd2 := updateDoc_general_wf
    (d := { d with store := updN (d.store ++ [(⟨name, (getN d.store selfId).level + 1, some selfId, stripContent content, [], meta⟩ : Node)]) selfId (fun n => { n with children := dinsert (dpop n.children name) name d.store.length }), sec := dinsert d.sec name d.store.length })
    hh hwf2' hnd2' HM2'
  rw [hupd] at hwfd2
  refine ⟨_, ?_, ?_, ?_, hwfd2⟩
  · simp only [addSection, hnoch, hfresh, hci, if_true, Bool.not_false,
      Bool.true_or, Bool.not_true, Bool.false_and, Bool.true_and,
      Bool.and_false, Bool.false_eq_true, if_false]
    rw [hupd]
  · rfl
  · show List.Perm (preo (updN (d.store ++ [(⟨name, (getN d.store selfId).level + 1, some selfId, stripContent content, [], meta⟩ : Node)]) selfId (fun n => { n with children := dinsert (dpop n.children name) name d.store.length })) ((updN (d.store ++ [(⟨name, (getN d.store selfId).level + 1, some selfId, stripContent content, [], meta⟩ : Node)]) selfId (fun n => { n with children := dinsert (dpop n.children name) name d.store.length })).length + 1) hid) (d.sec ++ [(name, d.store.length)])
    rw [hlen2, hsec]
    exact hperm

end MarkdownReader

namespace MarkdownReader

theorem stripLines_length : ∀ (lines : List PyStr) (b : Bool),
    (stripLines b lines).length = lines.length := by
  intro lines
  induction lines with
  | nil => intro b; rfl
  | cons line rest ih =>
    intro b
    rw [stripLines]
    by_cases hc : pyStarts hashStr line &&
        !(if pyStarts fenceStr line then !b else b)
    · rw [if_pos hc]
      simp [ih]
    · rw [if_neg hc]
      simp [ih]

theorem stripLines_getD : ∀ (lines : List PyStr) (b : Bool) (i : Nat),
    i < lines.length →
    (stripLines b lines).getD i [] =
      (if pyStarts hashStr (lines.getD i []) &&
          !(fenceParity b (lines.take (i + 1))) then
        pys "***" ++ (level_and_name (lines.getD i [])).2 ++ pys "***"
      else lines.getD i []) := by
  intro lines
  induction lines with
  | nil =>
    intro b i hi
    simp at hi
  | cons line rest ih =>
    intro b i hi
    cases i with
    | zero =>
      have hpar : fenceParity b ((line :: rest).take 1)
          = (if pyStarts fenceStr line then !b else b) := by
        simp [fenceParity]
      rw [stripLines, hpar]
      by_cases hc : pyStarts hashStr line &&
          !(if pyStarts fenceStr line then !b else b)
      · rw [if_pos hc]
        show pys "***" ++ (level_and_name line).2 ++ pys "***" = _
        rw [if_pos (by simpa using hc)]
        rfl
      · rw [if_neg hc]
        show line = _
        rw [if_neg (by simpa using hc)]
        rfl
    | succ j =>
      have hj : j < rest.length := by simpa using Nat.lt_of_succ_lt_succ hi
      have hpar : fenceParity b ((line :: rest).take (j + 2))
          = fenceParity (if pyStarts fenceStr line then !b else b)
              (rest.take (j + 1)) := by
        simp [fenceParity]
      rw [stripLines]
      by_cases hc : pyStarts hashStr line &&
          !(if pyStarts fenceStr line then !b else b)
      · rw [if_pos hc]
        show (stripLines (if pyStarts fenceStr line then !b else b) rest).getD
          j [] = _
        rw [ih _ j hj, hpar]
        rfl
      · rw [if_neg hc]
        show (stripLines (if pyStarts fenceStr line then !b else b) rest).getD
          j [] = _
        rw [ih _ j hj, hpar]
        rfl

end MarkdownReader

namespace MarkdownReader

/-- C6: with `remove_subsections` (the default), a content line that is a
heading line outside any code fence is rewritten into the emphasized marker
`***X***` built from the heading's parsed name; after a successful fresh
`add_section`, the new child's content is exactly the newline-join of the
rewritten lines (so it contains the marker), and no section named `X` exists
in the resulting registry. -/
theorem c6_stripping (d : Doc) (hid selfId : Nat) (name content : PyStr)
    (i : Nat)
    (hwfd : wfDoc d = true) (hh : d.header = some hid)
    (hmem : ((getN d.store selfId).name, selfId) ∈ d.sec)
    (hnoch : dlookup (getN d.store selfId).children name = none)
    (hfresh : dmem d.sec name = false)
    (hci : ((dkeys d.sec).map pyLower).contains (pyLower name) = false)
    (hcl : cleanName name = true)
    (hok : okContent (stripContent content) = true)
    (hi : i < (pySplit content).length)
    (hhead : pyStarts hashStr ((pySplit content).getD i []) = true)
    (hout : fenceParity false ((pySplit content).take (i + 1)) = false)
    (hXold : dmem d.sec (level_and_name ((pySplit content).getD i [])).2
      = false)
    (hXname : (level_and_name ((pySplit content).getD i [])).2 ≠ name) :
    (stripLines false (pySplit content)).getD i []
      = pys "***" ++ (level_and_name ((pySplit content).getD i [])).2
        ++ pys "***" ∧
    pys "***" ++ (level_and_name ((pySplit content).getD i [])).2 ++ pys "***"
      ∈ stripLines false (pySplit content) ∧
    (addSection d selfId name content [] .changeContent true).1
      = .ok d.store.length ∧
    (getN (addSection d selfId name content [] .changeContent true).2.store
        d.store.length).content
      = pyJoinNL (stripLines false (pySplit content)) ∧
    dlookup (addSection d selfId name content [] .changeContent true).2.sec
      (level_and_name ((pySplit content).getD i [])).2 = none := by
  have hline : (stripLines false (pySplit content)).getD i []
      = pys "***" ++ (level_and_name ((pySplit content).getD i [])).2
        ++ pys "***" := by
    rw [stripLines_getD _ _ i hi, hhead, hout]
    rfl
  have hmarker : pys "***" ++ (level_and_name ((pySplit content).getD i [])).2
      ++ pys "***" ∈ stripLines false (pySplit content) := by
    rw [← hline]
    have hi2 : i < (stripLines false (pySplit content)).length := by
      rw [stripLines_length]
      exact hi
    rw [List.getD_eq_getElem _ _ hi2]
    exact List.getElem_mem hi2
  have hselflen : selfId < d.store.length := by
    have hwfd2 := hwfd
    simp only [wfDoc, hh, Bool.and_eq_true, decide_eq_true_eq,
      beq_iff_eq] at hwfd2
    obtain ⟨⟨⟨hwf, _⟩, hsec⟩, _⟩ := hwfd2
    exact (preo_node hwf ((getN d.store selfId).name, selfId)
      (by rw [← hsec]; exact hmem)).2.1
  obtain ⟨d2, heq, hstore, hperm, _⟩ :=
    @addSection_fresh d hid selfId name content [] hwfd hh hmem hnoch hfresh
      hci hcl hok
  rw [heq]
  refine ⟨hline, hmarker, rfl, ?_, ?_⟩
  · show (getN d2.store d.store.length).content
      = pyJoinNL (stripLines false (pySplit content))
    rw [hstore, getN_updN_ne _ (by omega), getN_append_len]
    rfl
  · show dlookup d2.sec (level_and_name ((pySplit content).getD i [])).2
      = none
    apply dlookup_not_mem
    intro hmem2
    have hmem3 := (List.Perm.mem_iff (hperm.map Prod.fst)).mp hmem2
    rw [List.map_append] at hmem3
    rcases List.mem_append.mp hmem3 with h | h
    · have := dlookup_none_not_mem (d := d.sec)
        (k := (level_and_name ((pySplit content).getD i [])).2) (by
          rw [dmem] at hXold
          exact Option.not_isSome_iff_eq_none.mp
            (by rw [hXold]; exact Bool.false_ne_true))
      exact this h
    · simp only [List.map_cons, List.map_nil, List.mem_singleton] at h
      exact hXname h

end MarkdownReader

namespace MarkdownReader

theorem c6_witness :
    wfDoc docRA2 = true ∧
    okContent (stripContent (pys "x\n# Nested")) = true ∧
    (stripLines false (pySplit (pys "x\n# Nested"))).getD 1 []
      = pys "***" ++ (level_and_name ((pySplit (pys "x\n# Nested")).getD 1
        [])).2 ++ pys "***" ∧
    (addSection docRA2 0 (pys "C") (pys "x\n# Nested") [] .changeContent
      true).1 = .ok docRA2.store.length ∧
    dlookup (addSection docRA2 0 (pys "C") (pys "x\n# Nested") []
        .changeContent true).2.sec
      (level_and_name ((pySplit (pys "x\n# Nested")).getD 1 [])).2 = none :=
  have h := c6_stripping docRA2 0 0 (pys "C") (pys "x\n# Nested") 1
    (by decide) (by decide) (by decide) (by decide) (by decide) (by decide)
    (by decide) (by decide) (by decide) (by decide) (by decide) (by decide)
    (by decide)
  ⟨by decide, by decide, h.1, h.2.2.1, h.2.2.2.2⟩

end MarkdownReader

namespace MarkdownReader

/-- Case-insensitive distinctness of a list of names. -/
def ciNodup (l : List PyStr) : Prop :=
  l.Pairwise (fun a b => pyLower a ≠ pyLower b)

/-- Deleting a registered non-root section of a well-formed document
succeeds and only removes registry entries. -/
theorem deleteSection_sub {d : Doc} {hid sid p : Nat} {name : PyStr}
    (hwfd : wfDoc d = true) (hh : d.header = some hid)
    (hlook : dlookup d.sec name = some sid)
    (hpar : (getN d.store sid).parent = some p) :
    (deleteSection d name).1 = none ∧
    List.Sublist (deleteSection d name).2.sec d.sec := by
  simp only [wfDoc, hh, Bool.and_eq_true, decide_eq_true_eq,
    beq_iff_eq] at hwfd
  obtain ⟨⟨⟨hwf, hnd⟩, hsec⟩, _⟩ := hwfd
  have hsid_glob : (name, sid) ∈ preo d.store (d.store.length + 1) hid := by
    rw [← hsec]
    exact mem_of_dlookup hlook
  have hrootpar : (getN d.store hid).parent = none := (wfT_succ hwf).2.2.2.2.1
  have hsid_ne_hid : sid ≠ hid := by
    intro he
    rw [he, hrootpar] at hpar
    exact Option.noConfusion hpar
  rcases preo_edge hwf _ hsid_glob with htop | ⟨q, hqlen, hqmem, hqpar, hqnd⟩
  · exact absurd htop hsid_ne_hid
  · have hqp : q = p := by
      have h0 : (getN d.store sid).parent = some q := hqpar
      rw [hpar] at h0
      injection h0 with h0
      exact h0.symm
    subst hqp
    have hdm : dmem (getN d.store q).children name = true := by
      rw [dmem, lookup_of_mem_nodup hqmem hqnd]
      rfl
    have hlen2 : (updN d.store q (fun n => { n with children := dpop n.children name })).length = d.store.length := length_updN _ _ _
    have hwf2 : wfT (updN d.store q (fun n => { n with children := dpop n.children name })) ((updN d.store q (fun n => { n with children := dpop n.children name })).length + 1) hid 1 none = true := by
      rw [hlen2]
      exact wfT_pop hwf
    have hsub : List.Sublist (preo (updN d.store q (fun n => { n with children := dpop n.children name })) (d.store.length + 1) hid) (preo d.store (d.store.length + 1) hid) := preo_pop_sublist hwf
    have hnd2 : ((preo (updN d.store q (fun n => { n with children := dpop n.children name })) ((updN d.store q (fun n => { n with children := dpop n.children name })).length + 1) hid).map Prod.fst).Nodup := by
      rw [hlen2]
      exact List.Nodup.sublist (List.Sublist.map Prod.fst hsub) hnd
    have HM2 : ∀ kv ∈ preo (updN d.store q (fun n => { n with children := dpop n.children name })) ((updN d.store q (fun n => { n with children := dpop n.children name })).length + 1) hid, dlookup d.sec kv.1 = some kv.2 := by
      rw [hlen2]
      intro kv hkv
      rw [hsec]
      exact lookup_of_mem_nodup (hsub.subset hkv) hnd
    have hupd := updateDoc_general
      (d := { d with store := updN d.store q (fun n => { n with children := dpop n.children name }) }) hh hwf2 hnd2 HM2
    have hrun : deleteSection d name = updateDoc { d with store := updN d.store q (fun n => { n with children := dpop n.children name }) } := by
      simp only [deleteSection, hlook, hpar, hdm]
      rfl
    rw [hrun, hupd]
    refine ⟨rfl, ?_⟩
    show List.Sublist (preo (updN d.store q (fun n => { n with children := dpop n.children name })) ((updN d.store q (fun n => { n with children := dpop n.children name })).length + 1) hid) d.sec
    rw [hlen2, hsec]
    exact hsub

end MarkdownReader

namespace MarkdownReader

theorem ciNodup_symm :
    Symmetric (fun a b : PyStr => pyLower a ≠ pyLower b) :=
  fun _ _ h => h.symm

/-- C2 (amended): the case-insensitive uniqueness invariant fails as stated
(see the counterexample: a raw name containing a heading marker is accepted
by the check but re-parsed to a different, colliding name); it does hold
step by step on well-formed documents for clean names: a fresh add passing
the case-insensitive check, a content update of an existing child, and any
delete each preserve case-insensitive distinctness of the registry. -/
theorem c2_amended (d : Doc) (hwfd : wfDoc d = true)
    (hci0 : ciNodup (dkeys d.sec)) :
    (∀ hid selfId name content meta, d.header = some hid →
      ((getN d.store selfId).name, selfId) ∈ d.sec →
      dlookup (getN d.store selfId).children name = none →
      dmem d.sec name = false →
      ((dkeys d.sec).map pyLower).contains (pyLower name) = false →
      cleanName name = true → okContent (stripContent content) = true →
      ciNodup (dkeys (addSection d selfId name content meta .changeContent
        true).2.sec)) ∧
    (∀ hid selfId sid name content meta, d.header = some hid →
      ((getN d.store selfId).name, selfId) ∈ d.sec →
      dlookup (getN d.store selfId).children name = some sid →
      okContent (stripContent content) = true →
      ciNodup (dkeys (addSection d selfId name content meta .changeContent
        true).2.sec)) ∧
    (∀ hid name, d.header = some hid →
      ciNodup (dkeys (deleteSection d name).2.sec)) := by
  refine ⟨?_, ?_, ?_⟩
  · intro hid selfId name content meta hh hmem hnoch hfresh hci hcl hok
    obtain ⟨d2, heq, _, hperm, _⟩ :=
      @addSection_fresh d hid selfId name content meta hwfd hh hmem hnoch
        hfresh hci hcl hok
    rw [heq]
    have hkeys : List.Perm (dkeys d2.sec) (dkeys d.sec ++ [name]) := by
      have h0 := hperm.map Prod.fst
      rw [List.map_append] at h0
      exact h0
    refine (List.Perm.pairwise_iff (fun h => Ne.symm h) hkeys).mpr ?_
    rw [List.pairwise_append]
    refine ⟨hci0, List.pairwise_singleton _ _, ?_⟩
    intro x hx y hy
    rw [List.mem_singleton] at hy
    intro hxy
    rw [hy] at hxy
    have hlow : pyLower name ∈ (dkeys d.sec).map pyLower := by
      rw [← hxy]
      exact List.mem_map_of_mem pyLower hx
    exact absurd hlow (by simpa using hci)
  · intro hid selfId sid name content meta hh hmem hch hok
    obtain ⟨d2, heq, _, hperm, _⟩ :=
      @addSection_change d hid selfId sid name content meta hwfd hh hmem hch
        hok
    rw [heq]
    exact (List.Perm.pairwise_iff (fun h => Ne.symm h) (hperm.map Prod.fst)).mpr hci0
  · intro hid name hh
    cases hlook : dlookup d.sec name with
    | none =>
      rw [show deleteSection d name = (none, d) from by
        simp only [deleteSection, hlook]]
      exact hci0
    | some sid =>
      cases hpar : (getN d.store sid).parent with
      | none =>
        rw [show deleteSection d name = (some .cannotDeleteRoot, d) from by
          simp only [deleteSection, hlook, hpar]]
        exact hci0
      | some p =>
        have hsub := (deleteSection_sub hwfd hh hlook hpar).2
        exact List.Pairwise.sublist (List.Sublist.map Prod.fst hsub) hci0

end MarkdownReader

namespace MarkdownReader

instance ciNodup_dec (l : List PyStr) : Decidable (ciNodup l) :=
  inferInstanceAs (Decidable (List.Pairwise _ l))

theorem c2_witness :
    wfDoc docRA2 = true ∧ ciNodup (dkeys docRA2.sec) ∧
    ciNodup (dkeys (addSection docRA2 0 (pys "C") (pys "") [] .changeContent
      true).2.sec) ∧
    ciNodup (dkeys (addSection docRA2 0 (pys "A") (pys "y") [] .changeContent
      true).2.sec) ∧
    ciNodup (dkeys (deleteSection docRA2 (pys "A")).2.sec) :=
  have h := c2_amended docRA2 (by decide) (by decide)
  ⟨by decide, by decide,
   h.1 0 0 (pys "C") (pys "") [] (by decide) (by decide) (by decide)
     (by decide) (by decide) (by decide) (by decide),
   h.2.1 0 0 1 (pys "A") (pys "y") [] (by decide) (by decide) (by decide)
     (by decide),
   h.2.2 0 (pys "A") (by decide)⟩

end MarkdownReader
